import Mathlib

/-!
Verification of the request-resolution and execution-pipeline machinery of
`skl_groups/divergences/knn.py` (class `KNNDivergenceEstimator` and the module
helpers `_parse_specs`, `add_func`, `topological_sort`, `_set_up_funcs`).

The shallow embedding below translates the Python source:
* the registry of estimator functions and their capability attributes
  (`needs_alpha`, `needs_results`, `needs_rhos`, `needs_all_ks`,
  `chooser_fn.returns_ks`, `func_mapping`) becomes a finite inductive type
  with attribute functions;
* Python dicts keyed by function objects become insertion-ordered association
  lists (`lookupA` / `setA`), which fixes the iteration order of `dict` and
  `set` to insertion order (the only source of nondeterminism in the code);
* float alphas become rationals, and `float(...)` is modelled by a decimal
  literal parser `parseFloat`;
* raised `ValueError` / `TypeError` become values of the inductive `Err`;
  each constructor carries exactly the data interpolated into the Python
  message format string;
* `np.sqrt` is kept abstract as a function parameter `sqrtF : Q -> Q` of the
  radius computation (the real square root is monotone; witnesses instantiate
  it with a monotone stand-in that agrees with it on perfect squares);
* the external FLANN index (`nn_index`) is a parameter
  `nn : Nat -> Nat -> List (List Q)` giving, per bag and requested neighbor
  count, the matrix of squared neighbor distances;
* the external cython kernel `_estimate_cross_divs` and the numeric interior
  of `_finalize` are out of scope (per the spec); `transform` is modelled up
  to the full argument record handed to that kernel plus the data `_finalize`
  consumes, and `_finalize` additionally gets a shape-level model.
-/

set_option autoImplicit false
set_option maxRecDepth 10000

deriving instance DecidableEq for Except

namespace SklGroups

/-- The estimator functions registered in `func_mapping` of `knn.py`:
four base estimators and six meta estimators. -/
inductive Func
  | linear
  | kl
  | alpha_div
  | jensen_shannon_core
  | bhattacharyya
  | hellinger
  | renyi
  | tsallis
  | l2
  | jensen_shannon
deriving DecidableEq, Repr

/-- The `alpha` field of a `MetaRequirement`: `None`, a fixed scalar, or the
`identity` callable (which returns the meta function's own alphas). -/
inductive ReqAlpha
  | noAlpha
  | fixed (a : ℚ)
  | same
deriving DecidableEq, Repr

/-- `MetaRequirement = namedtuple('MetaRequirement', 'func alpha needs_transpose')`. -/
structure MetaRequirement where
  func : Func
  alpha : ReqAlpha
  needs_transpose : Bool
deriving DecidableEq, Repr

/-- The `needs_alpha` attribute of each registered function. -/
def needs_alpha : Func → Bool
  | .alpha_div => true
  | .renyi => true
  | .tsallis => true
  | _ => false

/-- Whether the function is a meta estimator, i.e. `hasattr(func, 'needs_results')`. -/
def is_meta : Func → Bool
  | .bhattacharyya => true
  | .hellinger => true
  | .renyi => true
  | .tsallis => true
  | .l2 => true
  | .jensen_shannon => true
  | _ => false

/-- The `needs_results` attribute of the meta estimators (empty for base ones). -/
def needs_results : Func → List MetaRequirement
  | .bhattacharyya => [⟨.alpha_div, .fixed (1/2), false⟩]
  | .hellinger => [⟨.alpha_div, .fixed (1/2), false⟩]
  | .renyi => [⟨.alpha_div, .same, false⟩]
  | .tsallis => [⟨.alpha_div, .same, false⟩]
  | .l2 => [⟨.linear, .noAlpha, true⟩]
  | .jensen_shannon => [⟨.jensen_shannon_core, .noAlpha, true⟩]
  | _ => []

/-- The `needs_rhos` attribute of the meta estimators; `(X side, Y side)`. -/
def needs_rhos : Func → Bool × Bool
  | .l2 => (true, true)
  | .jensen_shannon => (true, true)
  | _ => (false, false)

/-- `getattr(f, 'needs_all_ks', False)`. -/
def needs_all_ks : Func → Bool
  | .jensen_shannon_core => true
  | _ => false

/-- `getattr(func.chooser_fn, 'returns_ks', False)`. -/
def chooser_returns_ks : Func → Bool
  | .jensen_shannon_core => true
  | _ => false

/-- The module-level `func_mapping` dict from spec names to functions. -/
def func_mapping : String → Option Func
  | "linear" => some .linear
  | "kl" => some .kl
  | "alpha" => some .alpha_div
  | "bc" => some .bhattacharyya
  | "hellinger" => some .hellinger
  | "renyi" => some .renyi
  | "tsallis" => some .tsallis
  | "l2" => some .l2
  | "js-core" => some .jensen_shannon_core
  | "js" => some .jensen_shannon
  | "jensen-shannon" => some .jensen_shannon
  | _ => none

/-- Errors raised by the embedded code.  Each constructor models one
`raise` site (or an unreachable hard crash, `internal`) and carries the
data interpolated into the corresponding Python message. -/
inductive Err
  | ksEmpty
  | ksNotPositive (m : Nat)
  | malformedAlpha (s : String)
  | unknownFunc (name : String)
  | missingAlpha (name spec : String)
  | extraAlpha (name spec : String)
  | dupPlain (name : String)
  | dupAlpha (name : String) (a : Option ℚ)
  | cycle
  | tooFewPoints (maxK minPt : Nat)
  | jsKTooSmall (minK n m : Nat) (need : ℤ)
  | emptyBags
  | notFitted
  | internal
deriving DecidableEq, Repr

/-! ### Spec token grammar: `name` or `name:alpha` -/

/-- Split a character list at the first occurrence of `sep`
(like `str.split(sep, 1)` when `sep` occurs). -/
def splitOnFirst (sep : Char) : List Char → Option (List Char × List Char)
  | [] => none
  | c :: t =>
    if c = sep then some ([], t)
    else (splitOnFirst sep t).map (fun p => (c :: p.1, p.2))

/-- Numeric value of a digit string. -/
def digitsVal (cs : List Char) : Nat :=
  cs.foldl (fun a c => 10 * a + (c.toNat - 48)) 0

/-- An unsigned decimal mantissa: digits with at most one point, at least one
digit overall (`"5"`, `"5."`, `".5"`, `"0.5"`). -/
def parseUnsigned (cs : List Char) : Option ℚ :=
  match splitOnFirst '.' cs with
  | none =>
    if !cs.isEmpty && cs.all Char.isDigit then some (digitsVal cs) else none
  | some (ip, fp) =>
    if (ip.all Char.isDigit) && (fp.all Char.isDigit) && !(ip.isEmpty && fp.isEmpty) then
      some ((digitsVal ip : ℚ) + (digitsVal fp : ℚ) / (10 : ℚ) ^ fp.length)
    else none

/-- A signed decimal mantissa. -/
def parseMantissa : List Char → Option ℚ
  | '+' :: t => parseUnsigned t
  | '-' :: t => (parseUnsigned t).map Neg.neg
  | cs => parseUnsigned cs

/-- A signed decimal exponent. -/
def parseExp : List Char → Option ℤ
  | '+' :: t => if !t.isEmpty && t.all Char.isDigit then some (digitsVal t) else none
  | '-' :: t => if !t.isEmpty && t.all Char.isDigit then some (-(digitsVal t : ℤ)) else none
  | cs => if !cs.isEmpty && cs.all Char.isDigit then some (digitsVal cs) else none

/-- Model of Python `float(s)` on plain decimal literals
(optional sign, optional point, optional `e`/`E` exponent; the special forms
`inf`/`nan`, underscores and surrounding whitespace are not modelled). -/
def parseFloat (s : String) : Option ℚ :=
  let cs := s.data
  match splitOnFirst 'e' cs <|> splitOnFirst 'E' cs with
  | none => parseMantissa cs
  | some (m, e) => do
    let mv ← parseMantissa m
    let ev ← parseExp e
    some (mv * (10 : ℚ) ^ ev)

/-- `(spec.split(':', 1) + [None])[:2]`. -/
def splitSpec (s : String) : String × Option String :=
  match splitOnFirst ':' s.data with
  | none => (s, none)
  | some (a, b) => (⟨a⟩, some ⟨b⟩)

/-- The per-token resolution step of the loop in `_parse_specs`
(lines 899-918 of `knn.py`): split the token, convert the alpha with
`float`, look the name up in `func_mapping`, and check that the presence of
the alpha matches the function's `needs_alpha`. -/
def resolveToken (spec : String) : Except Err (String × Func × Option ℚ) := do
  let (func_name, alphaStr) := splitSpec spec
  let alpha : Option ℚ ←
    match alphaStr with
    | none => pure none
    | some s =>
      match parseFloat s with
      | some q => pure (some q)
      | none => throw (.malformedAlpha s)
  let func ←
    match func_mapping func_name with
    | some f => pure f
    | none => throw (.unknownFunc func_name)
  if needs_alpha func && alpha.isNone then
    throw (.missingAlpha func_name spec)
  else if !(needs_alpha func) && alpha.isSome then
    throw (.extraAlpha func_name spec)
  else
    pure (func_name, func, alpha)

/-! ### Association lists standing in for the Python dicts -/

/-- First-match lookup in an association list (Python `d[k]` / `k in d`). -/
def lookupA {β : Type} (l : List (Func × β)) (k : Func) : Option β :=
  match l with
  | [] => none
  | (a, b) :: t => if a = k then some b else lookupA t k

/-- `d[k] = v`: replace the value in place if the key is present, else append
the new key (insertion order, as in a Python dict). -/
def setA {β : Type} (l : List (Func × β)) (k : Func) (v : β) : List (Func × β) :=
  match l with
  | [] => [(k, v)]
  | (a, b) :: t => if a = k then (k, v) :: t else (a, b) :: setA t k v

/-- First index of `a` in `l` (Python `list.index`, as an `Option`). -/
def idxOf? (l : List (Option ℚ)) (a : Option ℚ) : Option Nat :=
  match l with
  | [] => none
  | b :: t => if b = a then some 0 else (idxOf? t a).map (· + 1)

/-! ### The mutable state of `_parse_specs` -/

/-- `_FuncInfo` while `_parse_specs` is still running: `alphas` is `None`
for functions without a parameter, and `pos` holds `None` placeholders for
occurrences that are only dependencies. -/
structure FuncInfo where
  alphas : Option (List (Option ℚ))
  pos : List (Option Nat)
deriving DecidableEq, Repr

/-- The three accumulators of `_parse_specs`: the `funcs` dict, the `metas`
dict and the `meta_deps` graph (child to list of parents). -/
structure St where
  funcs : List (Func × FuncInfo)
  metas : List (Func × FuncInfo)
  meta_deps : List (Func × List Func)
deriving DecidableEq, Repr

/-- `meta_deps[f].add(dep)` on the defaultdict of sets (set modelled as a
duplicate-free insertion-ordered list). -/
def addEdge (md : List (Func × List Func)) (f dep : Func) : List (Func × List Func) :=
  match lookupA md f with
  | some ps => setA md f (if dep ∈ ps then ps else ps ++ [dep])
  | none => md ++ [(f, [dep])]

/-- `meta_deps[f]` for its side effect on a defaultdict: make sure the key
exists. -/
def touchKey (md : List (Func × List Func)) (f : Func) : List (Func × List Func) :=
  match lookupA md f with
  | some _ => md
  | none => md ++ [(f, [])]

/-- `req_alpha`: `req.alpha(alpha)` when the alpha is the `identity`
callable, else the stored constant (or `None`). -/
def reqAlphaOf (r : ReqAlpha) (alpha : Option ℚ) : Option ℚ :=
  match r with
  | .noAlpha => none
  | .fixed a => some a
  | .same => alpha

/-- The update of an existing entry in `add_func` (the `else` branch at
lines 864-896): fill or reject the slot for functions without alphas; for
parameterized functions, append a new alpha, or fill/reject the slot of a
repeated one.  The returned flag says whether a new alpha value was
appended (in which case `add_func` recurses into the dependencies of a
meta function). -/
def updateExisting (fname : String) (f : Func) (alpha : Option ℚ) (pos : Option Nat)
    (info : FuncInfo) : Except Err (FuncInfo × Bool) :=
  if !(needs_alpha f) then
    match pos with
    | none => pure (info, false)
    | some _ =>
      if info.pos ≠ [none] then throw (.dupPlain fname)
      else pure ({ info with pos := [pos] }, false)
  else
    match info.alphas with
    | none => throw .internal
    | some as =>
      match idxOf? as alpha with
      | none =>
        pure ({ alphas := some (as ++ [alpha]), pos := info.pos ++ [pos] }, true)
      | some idx =>
        match pos with
        | none => pure (info, false)
        | some _ =>
          match info.pos.getD idx none with
          | some _ => throw (.dupAlpha fname alpha)
          | none => pure ({ info with pos := info.pos.set idx pos }, false)

/-- `add_func` restricted to a function that is not a meta estimator, used
for the recursive dependency registrations.  In the registry every
`MetaRequirement.func` is a base estimator (`is_meta_needs_results` below),
so the recursion of the Python `add_func` never goes deeper than one level;
this function is that depth-one call (the dependency-recursion of a
hypothetical meta-on-meta requirement is omitted as dead code). -/
def addFuncBase (fname : String) (f : Func) (alpha : Option ℚ) (pos : Option Nat)
    (st : St) : Except Err St :=
  let isM := is_meta f
  let d := if isM then st.metas else st.funcs
  match lookupA d f with
  | none =>
    let info : FuncInfo :=
      { alphas := if needs_alpha f then some [alpha] else none, pos := [pos] }
    pure (if isM then { st with metas := setA st.metas f info }
          else { st with funcs := setA st.funcs f info })
  | some info => do
    let (info2, _) ← updateExisting fname f alpha pos info
    pure (if isM then { st with metas := setA st.metas f info2 }
          else { st with funcs := setA st.funcs f info2 })

/-- The dependency-registration loop of `add_func`: one recursive
`add_func(req.func, alpha=req_alpha)` per requirement, plus (only when the
meta function was just created) the `meta_deps` edge bookkeeping. -/
def addDeps (withEdges : Bool) (fname : String) (f : Func) (alpha : Option ℚ)
    (st : St) : Except Err St :=
  (needs_results f).foldlM
    (fun st req => do
      let st ← addFuncBase fname req.func (reqAlphaOf req.alpha alpha) none st
      if withEdges then
        pure { st with meta_deps := touchKey (addEdge st.meta_deps f req.func) req.func }
      else
        pure st)
    st

/-- `add_func(func, alpha, pos)` (lines 840-896 of `knn.py`).  `fname` is
the enclosing loop's `func_name`, read by the error messages through the
closure. -/
def addFunc (fname : String) (f : Func) (alpha : Option ℚ) (pos : Option Nat)
    (st : St) : Except Err St :=
  let isM := is_meta f
  let d := if isM then st.metas else st.funcs
  match lookupA d f with
  | none =>
    let info : FuncInfo :=
      { alphas := if needs_alpha f then some [alpha] else none, pos := [pos] }
    let st2 := if isM then { st with metas := setA st.metas f info }
               else { st with funcs := setA st.funcs f info }
    if isM then addDeps true fname f alpha st2 else pure st2
  | some info => do
    let (info2, appended) ← updateExisting fname f alpha pos info
    let st2 := if isM then { st with metas := setA st.metas f info2 }
               else { st with funcs := setA st.funcs f info2 }
    if appended && isM then addDeps false fname f alpha st2 else pure st2

/-- The main loop of `_parse_specs`: resolve each spec token and register it
at its token index. -/
def addSpecs : List String → Nat → St → Except Err St
  | [], _, st => pure st
  | s :: rest, i, st => do
    let (fname, f, alpha) ← resolveToken s
    let st ← addFunc fname f alpha (some i) st
    addSpecs rest (i + 1) st

/-- The same loop on already-resolved tokens `(func_name, func, alpha)`,
used to state parameterized-family properties whose alphas are arbitrary
rationals. -/
def addTokens : List (String × Func × Option ℚ) → Nat → St → Except Err St
  | [], _, st => pure st
  | (fname, f, alpha) :: rest, i, st => do
    let st ← addFunc fname f alpha (some i) st
    addTokens rest (i + 1) st

/-! ### Numbering hidden slots, dependency resolution, topological sort -/

/-- `_FuncInfo` after the numbering pass: every slot is a concrete integer,
negative for dependency-only occurrences. -/
structure FuncInfoZ where
  alphas : Option (List (Option ℚ))
  pos : List Int
deriving DecidableEq, Repr

/-- `_MetaFuncInfo` after dependency resolution. -/
structure MetaInfoZ where
  alphas : Option (List (Option ℚ))
  pos : List Int
  deps : List Int
deriving DecidableEq, Repr

/-- Assign `next(meta_counter)` (the descending counter `-1, -2, ...`) to
each remaining `None` slot, left to right.  `c` is the number of negative
slots handed out so far. -/
def renumberPos : Nat → List (Option Nat) → Nat × List Int
  | c, [] => (c, [])
  | c, some n :: t =>
    let (c2, r) := renumberPos c t
    (c2, (n : Int) :: r)
  | c, none :: t =>
    let (c2, r) := renumberPos (c + 1) t
    (c2, -((c : Int) + 1) :: r)

/-- The numbering pass over one of the two dicts, threading the counter in
iteration (= insertion) order. -/
def renumberList : Nat → List (Func × FuncInfo) → Nat × List (Func × FuncInfoZ)
  | c, [] => (c, [])
  | c, (f, info) :: t =>
    let (c1, ps) := renumberPos c info.pos
    let (c2, r) := renumberList c1 t
    (c2, (f, ⟨info.alphas, ps⟩) :: r)

/-- Lines 920-925 of `knn.py`: number the dependency-only occurrences of
`funcs` then `metas`; also returns the number of meta-only results. -/
def renumberSt (st : St) : List (Func × FuncInfoZ) × List (Func × FuncInfoZ) × Nat :=
  let (c1, fz) := renumberList 0 st.funcs
  let (c2, mz) := renumberList c1 st.metas
  (fz, mz, c2)

/-- Locate a required alpha in the required function's alpha list and return
the slot recorded for it (`find_alpha` / `np.asarray(req_info.pos)[...]`).
A missing alpha is a hard crash in Python (`list.index` raising inside
`np.vectorize`), modelled by `internal`. -/
def findAlphaPos (info : FuncInfoZ) (a : Option ℚ) : Except Err Int :=
  match info.alphas with
  | none => throw .internal
  | some as =>
    match idxOf? as a with
    | none => throw .internal
    | some i =>
      match info.pos.get? i with
      | some p => pure p
      | none => throw .internal

/-- The dependency-resolution pass for one meta function (lines 928-949):
for each requirement take the single slot (no alpha), the slot of the fixed
alpha, or one slot per own alpha (the `identity` callable). -/
def fillOne (funcsZ metasZ : List (Func × FuncInfoZ)) (f : Func) (info : FuncInfoZ) :
    Except Err (List Int) :=
  (needs_results f).foldlM
    (fun deps req => do
      let ri ←
        match lookupA (if is_meta req.func then metasZ else funcsZ) req.func with
        | some x => pure x
        | none => throw .internal
      match req.alpha with
      | .noAlpha =>
        match ri.pos with
        | [p] => pure (deps ++ [p])
        | _ => throw .internal
      | .fixed a => do
        let p ← findAlphaPos ri (some a)
        pure (deps ++ [p])
      | .same => do
        let as ←
          match info.alphas with
          | some as => pure as
          | none => throw .internal
        let ps ← as.mapM (fun a => findAlphaPos ri a)
        pure (deps ++ ps))
    []

/-- `parents.discard(n)` over every value of the dict. -/
def discardNode {α : Type} [DecidableEq α] (n : α) (deps : List (α × List α)) :
    List (α × List α) :=
  deps.map (fun p => (p.1, p.2.filter (fun x => x ≠ n)))

/-- `_move_available`: split off the nodes with no remaining parents. -/
def moveAvailable {α : Type} (deps : List (α × List α)) :
    List (α × List α) × List α :=
  (deps.filter (fun p => !p.2.isEmpty), (deps.filter (fun p => p.2.isEmpty)).map Prod.fst)

/-- The `while available:` loop of `topological_sort`.  The fuel argument is
a termination artifact; `topological_sort` passes enough for the loop to
run to completion (each iteration pops one node and conserves
`deps.length + available.length` otherwise).  Returns the final
`available` (checked by the caller) and the order. -/
def tsortGo {α : Type} [DecidableEq α] :
    Nat → List (α × List α) → List α → List α → List α × List α
  | _, _, [], order => ([], order)
  | 0, _, avail, order => (avail, order)
  | fuel + 1, deps, n :: rest, order =>
    let deps2 := discardNode n deps
    let (deps3, more) := moveAvailable deps2
    tsortGo fuel deps3 (rest ++ more) (order ++ [n])

/-- `topological_sort(deps)` (lines 742-773 of `knn.py`).  Note the faithful
final check: it tests `available` (which the loop has just drained), not the
remaining `deps`. -/
def topological_sort {α : Type} [DecidableEq α] (deps : List (α × List α)) :
    Except Err (List α) :=
  let (d0, a0) := moveAvailable deps
  let (aEnd, order) := tsortGo (d0.length + a0.length) d0 a0 []
  if aEnd.isEmpty then pure order else throw .cycle

/-- The result of `_parse_specs`: the base-function map, the ordered meta
map, and the number of meta-only (hidden) slots. -/
structure Plan where
  funcs : List (Func × FuncInfoZ)
  metas : List (Func × MetaInfoZ)
  nMetaOnly : Nat
deriving DecidableEq, Repr

/-- The passes of `_parse_specs` after the spec loop: hidden-slot numbering,
dependency resolution, topological sort and reordering of the meta map. -/
def finishPlan (st : St) : Except Err Plan := do
  let (fz, mz, h) := renumberSt st
  let mzFilled ← mz.mapM (fun p => do
    let d ← fillOne fz mz p.1 p.2
    pure (p.1, MetaInfoZ.mk p.2.alphas p.2.pos d))
  let order ← topological_sort st.meta_deps
  let metasOrdered ← (order.filter (fun f => is_meta f)).mapM (fun f =>
    match lookupA mzFilled f with
    | some mi => pure (f, mi)
    | none => throw .internal)
  pure ⟨fz, metasOrdered, h⟩

/-- `_parse_specs(specs, Ks)` (lines 778-956 of `knn.py`; the `Ks` argument
is unused by the Python function). -/
def _parse_specs (specs : List String) : Except Err Plan := do
  let st ← addSpecs specs 0 ⟨[], [], []⟩
  finishPlan st

/-- `_parse_specs` on pre-resolved tokens, for properties quantified over
arbitrary rational alphas. -/
def parse_tokens (tokens : List (String × Func × Option ℚ)) : Except Err Plan := do
  let st ← addTokens tokens 0 ⟨[], [], []⟩
  finishPlan st

/-! ### The estimator object -/

/-- The state of a `KNNDivergenceEstimator`: the constructor parameters
(`div_funcs`, `Ks`, `do_sym`, `min_dist`; `n_jobs`, `clamp` and the FLANN
options do not affect the modelled behavior) together with the attributes
written by `_setup_args` (`funcs_base_`/`metas_base_`/`n_meta_only_`,
summarized as `plan?`, and `save_all_Ks_`), by `fit` (`features_`, kept as
its dimension and bag sizes), by `_choose_funcs` (`max_K_`) and by the rho
computation (`rhos_`). -/
structure Est where
  div_funcs : List String
  Ks : List Nat
  do_sym : Bool
  min_dist : ℚ
  plan? : Option Plan
  saveAll? : Bool
  dim? : Option Nat
  sizes? : List Nat
  maxK? : Option Nat
  rhos? : Option (List (List (List ℚ)))
deriving DecidableEq, Repr

/-- `l.min()` of a nonempty list. -/
def nmin? : List Nat → Option Nat
  | [] => none
  | a :: t => some (t.foldl min a)

/-- `l.max()` of a nonempty list. -/
def nmax? : List Nat → Option Nat
  | [] => none
  | a :: t => some (t.foldl max a)

/-- `_setup_args` (lines 67-86 of `knn.py`): validate `Ks` every time, but
build the plan only when `funcs_base_` does not exist yet (the
`hasattr` guard); `save_all_Ks_` is set in the same guarded block.  The
`FLANNParameters` validation involves only the external backend and is not
modelled. -/
def _setup_args (st : Est) : Except Err Est :=
  match nmin? st.Ks with
  | none => .error .ksEmpty
  | some m =>
    if m < 1 then .error (.ksNotPositive m)
    else if st.plan?.isSome then .ok st
    else
      match _parse_specs st.div_funcs with
      | .error e => .error e
      | .ok p => .ok { st with plan? := some p,
                               saveAll? := p.funcs.any (fun q => needs_all_ks q.1) }

/-- The constructor `KNNDivergenceEstimator(...)`: store the parameters and
run `_setup_args` once. -/
def mkEst (div_funcs : List String) (Ks : List Nat) (do_sym : Bool) (min_dist : ℚ) :
    Except Err Est :=
  _setup_args
    { div_funcs := div_funcs, Ks := Ks, do_sym := do_sym, min_dist := min_dist,
      plan? := none, saveAll? := false, dim? := none, sizes? := [],
      maxK? := none, rhos? := none }

/-- The two weight candidates of one `(n, m)` pair in
`_get_jensen_shannon_core`: `base` and `base * m / n`. -/
def wtCands (n m : Nat) : List ℚ :=
  let nq : ℚ := n
  let mq : ℚ := m
  let base := (2 * nq - 1) / (nq + mq - 1)
  [base, base * mq / nq]

/-- The weight-bound computation of `_get_jensen_shannon_core`
(lines 366-417 of `knn.py`): scan the weight candidates of all corner
`(n, m)` pairs and their reverses, reject a too-small minimal `K`, and
return the chooser's `max_i`, the minimum sufficient max `K`
(`chooser_fn.returns_ks`).  The digamma table itself is numeric and out of
scope. -/
def jsCoreBounds (Ks : List Nat) (Xns : List Nat) (Yns : Option (List Nat)) :
    Except Err Nat := do
  let minXn ← match nmin? Xns with | some v => pure v | none => throw .emptyBags
  let maxXn ← match nmax? Xns with | some v => pure v | none => throw .emptyBags
  let (minYn, maxYn) ←
    match Yns with
    | none => pure (minXn, maxXn)
    | some ys => do
      let a ← match nmin? ys with | some v => pure v | none => throw .emptyBags
      let b ← match nmax? ys with | some v => pure v | none => throw .emptyBags
      pure (a, b)
  let minK ← match nmin? Ks with | some v => pure v | none => throw .ksEmpty
  let maxK ← match nmax? Ks with | some v => pure v | none => throw .ksEmpty
  let n_ms := [(minXn, minYn), (minXn, maxYn), (maxXn, minYn), (maxXn, maxYn)]
  let pairs := n_ms ++ n_ms.map (fun p => (p.2, p.1))
  let wts := pairs.flatMap (fun nm => (wtCands nm.1 nm.2).map (fun w => (w, nm.1, nm.2)))
  let (lo?, hi?) := wts.foldl
    (fun (acc : Option (ℚ × Nat × Nat) × Option ℚ) w =>
      (match acc.1 with
       | none => some w
       | some l => if w.1 < l.1 then some w else some l,
       match acc.2 with
       | none => some w.1
       | some h => if w.1 > h then some w.1 else some h))
    (none, none)
  match lo?, hi? with
  | some (wlo, nlo, mlo), some whi =>
    if wlo * (minK : ℚ) < 1 then
      throw (.jsKTooSmall minK nlo mlo (Int.ceil (1 / wlo)))
    else
      pure (Int.toNat (Int.ceil (whi * (maxK : ℚ))))
  | _, _ => throw .internal

/-- The `for func in self.funcs_` scan of `_choose_funcs`: fold the
`k_needed` of every specialized base function whose chooser
`returns_ks` into the accumulated `max_K` (the chooser result `e` does not
depend on the function). -/
def chooseMax (l : List (Func × FuncInfoZ)) (e : Except Err Nat) (acc : Nat) :
    Except Err Nat :=
  match l with
  | [] => .ok acc
  | fp :: t =>
    if needs_all_ks fp.1 && chooser_returns_ks fp.1 then
      match e with
      | .error err => .error err
      | .ok k => chooseMax t e (max acc k)
    else chooseMax t e acc

/-- `_choose_funcs` (lines 108-117 of `knn.py`): rebuild the specialized
closures (`_set_up_funcs`; of the choosers only the one of
`jensen_shannon_core` can fail or demand a deeper `K`) and update
`max_K_ = max(Ks.max(), old max_K_, every k_needed)`. -/
def _choose_funcs (st : Est) (_dim : Nat) (Xns : List Nat) (Yns : Option (List Nat)) :
    Except Err Est :=
  match st.plan? with
  | none => .error .internal
  | some p =>
    match nmax? st.Ks with
    | none => .error .ksEmpty
    | some kmax =>
      match chooseMax p.funcs (jsCoreBounds st.Ks Xns Yns)
          (max kmax (st.maxK?.getD 0)) with
      | .error e => .error e
      | .ok mk => .ok { st with maxK? := some mk }

/-- `_check_Ks` (lines 127-131 of `knn.py`): fail when
`max_K_ >= min(bag sizes)`, reporting the required `K` and the offending
bag size. -/
def _check_Ks (maxK : Nat) (Xns : List Nat) (Yns : Option (List Nat)) :
    Except Err Unit :=
  match nmin? Xns with
  | none => .error .emptyBags
  | some xm =>
    match Yns with
    | none =>
      if maxK ≥ xm then .error (.tooFewPoints maxK xm) else .ok ()
    | some ys =>
      match nmin? ys with
      | none => .error .emptyBags
      | some ym =>
        if maxK ≥ min xm ym then .error (.tooFewPoints maxK (min xm ym)) else .ok ()

/-- The pure part of `_get_rhos`: for each bag, query its own index for
`max_K_ + 1` neighbors (squared distances; column 0 is the self match),
select either all columns from 1 on (`save_all_Ks_`) or the columns at the
requested `Ks`, take the square root and clamp from below by `min_dist`.
`sqrtF` abstracts `np.sqrt` and `nn i j` abstracts
`indices[i].nn_index(bag, j)[1]`. -/
def rhosVal (sqrtF : ℚ → ℚ) (nn : Nat → Nat → List (List ℚ)) (nbags : Nat)
    (saveAll : Bool) (Ks : List Nat) (maxK : Nat) (min_dist : ℚ) :
    List (List (List ℚ)) :=
  (List.range nbags).map (fun i =>
    (nn i (maxK + 1)).map (fun row =>
      let sel := if saveAll then row.drop 1 else Ks.map (fun K => row.getD K 0)
      sel.map (fun d => max min_dist (sqrtF d))))

/-- `_get_rhos` (lines 143-159 of `knn.py`): re-check the bag sizes, then
compute the within-bag radius arrays. -/
def _get_rhos (sqrtF : ℚ → ℚ) (nn : Nat → Nat → List (List ℚ)) (sizes : List Nat)
    (saveAll : Bool) (Ks : List Nat) (maxK : Nat) (min_dist : ℚ) :
    Except Err (List (List (List ℚ))) :=
  match _check_Ks maxK sizes none with
  | .error e => .error e
  | .ok _ => .ok (rhosVal sqrtF nn sizes.length saveAll Ks maxK min_dist)

/-- `fit(X, skip_rhos)` (lines 186-203 of `knn.py`): re-run `_setup_args`,
store the features, re-specialize (`_choose_funcs`), check the bag sizes,
build the indices (external; captured entirely by the `nn` parameter) and,
unless `skip_rhos`, compute and cache the within-bag radii. -/
def fit (sqrtF : ℚ → ℚ) (nnX : Nat → Nat → List (List ℚ)) (dim : Nat)
    (sizes : List Nat) (skip_rhos : Bool) (st : Est) : Except Err Est :=
  match _setup_args st with
  | .error e => .error e
  | .ok st0 =>
    match _choose_funcs { st0 with dim? := some dim, sizes? := sizes } dim sizes none with
    | .error e => .error e
    | .ok st1 =>
      match _check_Ks (st1.maxK?.getD 0) sizes none with
      | .error e => .error e
      | .ok _ =>
        if skip_rhos then .ok st1
        else
          match _get_rhos sqrtF nnX sizes st1.saveAll? st1.Ks (st1.maxK?.getD 0)
              st1.min_dist with
          | .error e => .error e
          | .ok r => .ok { st1 with rhos? := some r }

/-- The derived symmetric-pass flag of `transform` (lines 226-229): the
configured `do_sym`, or (truthiness of the set of) dependency positions of
scheduled meta requirements that `needs_transpose`. -/
def doSymForced (p : Plan) : Bool :=
  p.metas.any (fun fm =>
    (fm.2.deps.zip (needs_results fm.1)).any (fun pr => pr.2.needs_transpose))

/-- Everything the external kernel `_estimate_cross_divs` and the assembly
`_finalize` consume; the returned tensor is a deterministic function of
this record (plus the index parameters, which `transform` passes through
unchanged). -/
structure DivInputs where
  Xrhos : List (List (List ℚ))
  Yrhos : Option (List (List (List ℚ)))
  Ks : List Nat
  maxK : Nat
  saveAll : Bool
  nOut : Nat
  doSym : Bool
  plan : Plan
deriving DecidableEq, Repr

/-- The modelled outcome of `transform`: the divergence-stage inputs plus
whether the stale-rho warning was logged. -/
structure TransOut where
  divIn : DivInputs
  warned : Bool
deriving DecidableEq, Repr

/-- `transform(X)` (lines 205-246 of `knn.py`) up to the invocation of the
external cross-divergence kernel: re-specialize against the new collection
(possibly raising `max_K_`), check bag sizes, drop and recompute the cached
radii when `max_K_` grew past the cached value (with a warning), compute
the lazy radii if absent, derive the symmetric flag, compute the Y-side
radii when needed, and assemble the kernel arguments. -/
def transform (sqrtF : ℚ → ℚ) (nnX nnY : Nat → Nat → List (List ℚ))
    (Ysizes : List Nat) (st : Est) : Except Err TransOut :=
  match st.maxK? with
  | none => .error .notFitted
  | some oldMax =>
    match st.dim? with
    | none => .error .notFitted
    | some dim =>
      match _choose_funcs st dim st.sizes? (some Ysizes) with
      | .error e => .error e
      | .ok st1 =>
        let newMax := st1.maxK?.getD 0
        match _check_Ks newMax st1.sizes? (some Ysizes) with
        | .error e => .error e
        | .ok _ =>
          let cw : Option (List (List (List ℚ))) × Bool :=
            if st1.rhos?.isSome && decide (oldMax < newMax) then (none, true)
            else (st1.rhos?, false)
          match (match cw.1 with
                 | some r => Except.ok r
                 | none =>
                   _get_rhos sqrtF nnX st1.sizes? st1.saveAll? st1.Ks newMax
                     st1.min_dist) with
          | .error e => .error e
          | .ok Xrhos =>
            match st1.plan? with
            | none => .error .internal
            | some p =>
              let doSym := st1.do_sym || doSymForced p
              match (if doSym then
                       match _get_rhos sqrtF nnY Ysizes st1.saveAll? st1.Ks newMax
                           st1.min_dist with
                       | .error e => (.error e : Except Err (Option (List (List (List ℚ)))))
                       | .ok r => .ok (some r)
                     else .ok none) with
              | .error e => .error e
              | .ok Yrhos =>
                .ok { divIn := { Xrhos := Xrhos, Yrhos := Yrhos, Ks := st1.Ks,
                                 maxK := newMax, saveAll := st1.saveAll?,
                                 nOut := st1.div_funcs.length + p.nMetaOnly,
                                 doSym := doSym, plan := p },
                      warned := cw.2 }

/-- The shape bookkeeping of `_finalize` (lines 161-184 of `knn.py`) on a
raw tensor of shape `[nF, nK, nX, nY, 2]`: the meta functions write in
place; the direction axis is dropped unless the configured `do_sym`; the
trailing `n_meta_only_` rows of the function axis are dropped when there
are any. -/
def _finalize_shape (nF nK nX nY : Nat) (do_sym : Bool) (nMetaOnly : Nat) :
    List Nat :=
  let s := if do_sym then [nF, nK, nX, nY, 2] else [nF, nK, nX, nY]
  if nMetaOnly ≠ 0 then (nF - nMetaOnly) :: s.drop 1 else s

/-! ### Plan observation helpers used by the theorems -/

/-- All slot integers recorded in a plan, in `funcs`-then-`metas` order. -/
def planSlots (p : Plan) : List Int :=
  (p.funcs.map (fun q => q.2.pos)).flatten ++ (p.metas.map (fun q => q.2.pos)).flatten

/-- Look a function up in the side of the plan that holds it. -/
def lookupPlan (p : Plan) (f : Func) : Option (Option (List (Option ℚ)) × List Int) :=
  if is_meta f then (lookupA p.metas f).map (fun m => (m.alphas, m.pos))
  else (lookupA p.funcs f).map (fun m => (m.alphas, m.pos))

/-- A monotone stand-in for the real square root, used to instantiate the
abstract `sqrtF` parameter on concrete inputs: it agrees with the real
square root on perfect-square naturals. -/
def sqrtFloor (q : ℚ) : ℚ :=
  (Nat.sqrt (Int.toNat (Int.floor q)) : ℚ)

/-! ### Slot accounting (output-axis bookkeeping of the parsed plan) -/

/-- Occurrence count in a list (insertion-ordered multiset view). -/
def cnt {α : Type} [DecidableEq α] (a : α) : List α → Nat
  | [] => 0
  | b :: t => (if b = a then 1 else 0) + cnt a t

/-- The `(alpha, slot)` pairs recorded in one raw `_FuncInfo`: one per alpha
for parameterized functions, else one per `pos` entry. -/
def pairsN (info : FuncInfo) : List (Option ℚ × Option Nat) :=
  match info.alphas with
  | none => info.pos.map (fun q => (none, q))
  | some as => as.zip info.pos

/-- The `(alpha, slot)` pairs of a numbered `_FuncInfo`. -/
def pairsZ (info : FuncInfoZ) : List (Option ℚ × Int) :=
  match info.alphas with
  | none => info.pos.map (fun q => (none, q))
  | some as => as.zip info.pos

/-- The caller-visible `(alpha, output slot)` pairs of a raw `_FuncInfo`:
dependency-only occurrences (slot `None`) are dropped. -/
def somePairs (info : FuncInfo) : List (Option ℚ × Nat) :=
  (pairsN info).filterMap (fun pr => pr.2.map (fun j => (pr.1, j)))

/-- The `(func, alpha, slot)` triples of one side of the parse state,
keeping only caller-visible slots. -/
def someL (l : List (Func × FuncInfo)) : List (Func × Option ℚ × Nat) :=
  (l.map (fun q => (somePairs q.2).map (fun y => (q.1, y)))).flatten

/-- All caller-visible `(func, alpha, slot)` triples of the parse state. -/
def stSome (st : St) : List (Func × Option ℚ × Nat) :=
  someL (st.funcs ++ st.metas)

/-- The `(func, alpha, slot)` triples of a numbered dict. -/
def triZ (l : List (Func × FuncInfoZ)) : List (Func × Option ℚ × Int) :=
  (l.map (fun q => (pairsZ q.2).map (fun y => (q.1, y)))).flatten

/-- All `(func, alpha, slot)` triples of a finished plan; negative slots are
the hidden dependency-only rows (Python indexes them from the end of the
function axis, so they form its trailing rows). -/
def planTriples (p : Plan) : List (Func × Option ℚ × Int) :=
  triZ p.funcs ++ triZ (p.metas.map (fun q => (q.1, FuncInfoZ.mk q.2.alphas q.2.pos)))

/-- The expected triples of a resolved token list starting at output index
`i`: token `j` owns output slot `j`. -/
def tokenTriples : Nat → List (String × Func × Option ℚ) → List (Func × Option ℚ × Nat)
  | _, [] => []
  | i, (_, f, a) :: r => (f, a, i) :: tokenTriples (i + 1) r

/-- A resolved token never carries an alpha for a function that takes none
(`resolveToken` rejects such tokens). -/
def tokOK (t : String × Func × Option ℚ) : Prop :=
  needs_alpha t.2.1 = false → t.2.2 = none

/-- Well-formedness of one stored `_FuncInfo`: the alpha list is present iff
the function is parameterized, parallels `pos`, and a function without
parameters has a single slot. -/
def WFinfo (f : Func) (info : FuncInfo) : Prop :=
  match info.alphas with
  | none => needs_alpha f = false ∧ ∃ q, info.pos = [q]
  | some as => needs_alpha f = true ∧ as.length = info.pos.length

/-- Well-formedness of the two dicts of the parse state: base functions in
`funcs`, meta functions in `metas`, unique keys, well-formed entries. -/
def WFSt (st : St) : Prop :=
  (∀ q ∈ st.funcs, is_meta q.1 = false ∧ WFinfo q.1 q.2) ∧
  (∀ q ∈ st.metas, is_meta q.1 = true ∧ WFinfo q.1 q.2) ∧
  (st.funcs.map Prod.fst).Nodup ∧ (st.metas.map Prod.fst).Nodup

/-- Well-formedness of the dependency graph: unique keys; a meta node has a
nonempty list of non-meta parents that are themselves keys; a non-meta node
has no parents. -/
def WFmd (md : List (Func × List Func)) : Prop :=
  (md.map Prod.fst).Nodup ∧
  ∀ q ∈ md,
    (is_meta q.1 = true → q.2 ≠ [] ∧ ∀ x ∈ q.2, is_meta x = false ∧ x ∈ md.map Prod.fst) ∧
    (is_meta q.1 = false → q.2 = [])

/-- The graph keys and the metas dict list the same meta functions. -/
def mdLink (st : St) : Prop :=
  ∀ f, is_meta f = true →
    (f ∈ st.metas.map Prod.fst ↔ f ∈ st.meta_deps.map Prod.fst)

/-- All invariants of the parse state together. -/
def WFAll (st : St) : Prop := WFSt st ∧ WFmd st.meta_deps ∧ mdLink st

/-- The errors of the two `raise ValueError("duplicate ...")` sites of
`add_func` (`duplicate function '%s'` at line 869 and
`duplicate spec for %s(%r)` at line 884 of `knn.py`). -/
def isDupErr : Err → Bool
  | .dupPlain _ => true
  | .dupAlpha _ _ => true
  | _ => false

/-- No stored alpha list repeats a value: `add_func` appends a new alpha
only after `list.index` fails to find it. -/
def WFnodup (st : St) : Prop :=
  ∀ q ∈ st.funcs ++ st.metas, ∀ as, q.2.alphas = some as → as.Nodup

/-!
## Theorems

General-purpose lemmas about the embedded operations first, then one
theorem per claim (with witnesses and counterexamples).
-/

@[simp] theorem ok_bind {α β : Type} (a : α) (f : α → Except Err β) :
    (Except.ok a : Except Err α) >>= f = f a := rfl

@[simp] theorem err_bind {α β : Type} (e : Err) (f : α → Except Err β) :
    (Except.error e : Except Err α) >>= f = .error e := rfl

@[simp] theorem pure_eq_ok {α : Type} (a : α) : (pure a : Except Err α) = .ok a := rfl

@[simp] theorem throw_eq_error {α : Type} (e : Err) :
    (throw e : Except Err α) = .error e := rfl

theorem sqrtFloor_monotone : Monotone sqrtFloor := by
  intro a b hab
  unfold sqrtFloor
  have h1 : Int.floor a ≤ Int.floor b := Int.floor_le_floor hab
  have h2 : Int.toNat (Int.floor a) ≤ Int.toNat (Int.floor b) := Int.toNat_le_toNat h1
  exact_mod_cast Nat.sqrt_le_sqrt h2

theorem nmin?_spec (a : Nat) (t : List Nat) :
    (t.foldl min a) ∈ a :: t ∧ ∀ n ∈ a :: t, t.foldl min a ≤ n := by
  induction t generalizing a with
  | nil => simp
  | cons b t ih =>
    have h := ih (min a b)
    simp only [List.foldl_cons]
    constructor
    · rcases List.mem_cons.mp h.1 with heq | hmem
      · rcases le_total a b with hab | hab
        · rw [heq, min_eq_left hab]
          simp
        · rw [heq, min_eq_right hab]
          simp
      · simp [hmem]
    · intro n hn
      rcases List.mem_cons.mp hn with rfl | hn2
      · exact le_trans (h.2 _ (List.mem_cons_self _ _)) (min_le_left _ _)
      · rcases List.mem_cons.mp hn2 with rfl | hn3
        · exact le_trans (h.2 _ (List.mem_cons_self _ _)) (min_le_right _ _)
        · exact h.2 _ (List.mem_cons.mpr (Or.inr hn3))

theorem nmin?_mem {xs : List Nat} {m : Nat} (h : nmin? xs = some m) : m ∈ xs := by
  cases xs with
  | nil => simp [nmin?] at h
  | cons a t =>
    simp [nmin?] at h
    subst h
    exact (nmin?_spec a t).1

theorem nmin?_le {xs : List Nat} {m : Nat} (h : nmin? xs = some m) :
    ∀ n ∈ xs, m ≤ n := by
  cases xs with
  | nil => simp [nmin?] at h
  | cons a t =>
    simp [nmin?] at h
    subst h
    exact (nmin?_spec a t).2

/-- **C1.** The cycle detection of `topological_sort` is dead code: on the
two-node dependency cycle `{0: {1}, 1: {0}}` the function returns the empty
order with no error, because the final check tests `available` (drained by
the `while` loop) instead of the nodes left in `deps`; the documented
`ValueError("dependency cycle found")` can never be raised. -/
theorem C1_cycle_check_dead :
    topological_sort [((0 : Nat), [1]), (1, [0])] = .ok [] ∧
    ∀ e, topological_sort [((0 : Nat), [1]), (1, [0])] ≠ .error e := by
  have h1 : topological_sort [((0 : Nat), [1]), (1, [0])] = .ok [] := by decide
  refine ⟨h1, fun e he => ?_⟩
  rw [h1] at he
  exact Except.noConfusion he

/-- **C2.** The execution plan is not rebuilt when `div_funcs` changes
between construction and `fit`: after changing `div_funcs` from `["kl"]` to
`["linear"]` and refitting, the estimator still carries the plan parsed
from `["kl"]`, which differs from the plan of `["linear"]`. -/
theorem C2_plan_not_rebuilt :
    ((mkEst ["kl"] [3] false (1/1000)).bind
        (fun e => fit sqrtFloor (fun _ k => List.replicate 4 ((List.range k).map (fun j => ((j : ℚ) + 1)))) 1 [4] false
          { e with div_funcs := ["linear"] })).map (fun e => e.plan?)
      = .ok ((_parse_specs ["kl"]).toOption) ∧
    (_parse_specs ["kl"]).toOption ≠ (_parse_specs ["linear"]).toOption := by
  decide

/-- **C5 (counterexample).** `_check_Ks` fails on a bag with *exactly*
`max_K` points (here 3 points and `max_K = 3`), although no bag has fewer
than `max_K` points, so "fails exactly when some bag has fewer points than
the max K" is false at the boundary. -/
theorem C5_cex_boundary :
    _check_Ks 3 [3] none = .error (.tooFewPoints 3 3) ∧ ¬ (3 < 3) := by
  decide

/-- **C5 (amended).** The insufficient-points check fails exactly when some
bag has *at most* `max_K` points (equivalently, unless every bag has
strictly more than `max_K` points); the error reports the required `K` and
the smallest bag size, and `fit` raises it (before the radius computation)
whenever the size check fails after specialization succeeded. -/
theorem C5_insufficient_points (maxK : Nat) (xs : List Nat) (hx : xs ≠ []) :
    ((∃ e, _check_Ks maxK xs none = .error e) ↔ ∃ n ∈ xs, n ≤ maxK) ∧
    (∀ e, _check_Ks maxK xs none = .error e →
      ∃ m, nmin? xs = some m ∧ m ≤ maxK ∧ e = .tooFewPoints maxK m) ∧
    (∀ (sqrtF : ℚ → ℚ) (nnX : Nat → Nat → List (List ℚ)) (dim : Nat) (skip : Bool)
        (st st1 st2 : Est) (m : Nat),
      _setup_args st = .ok st1 →
      _choose_funcs { st1 with dim? := some dim, sizes? := xs } dim xs none = .ok st2 →
      nmin? xs = some m → m ≤ st2.maxK?.getD 0 →
      fit sqrtF nnX dim xs skip st = .error (.tooFewPoints (st2.maxK?.getD 0) m)) := by
  obtain ⟨a, t, rfl⟩ : ∃ a t, xs = a :: t := by
    cases xs with
    | nil => exact absurd rfl hx
    | cons a t => exact ⟨a, t, rfl⟩
  have hmin : nmin? (a :: t) = some (t.foldl min a) := rfl
  refine ⟨?_, ?_, ?_⟩
  · constructor
    · rintro ⟨e, he⟩
      simp only [_check_Ks, nmin?] at he
      by_cases hge : maxK ≥ t.foldl min a
      · exact ⟨t.foldl min a, (nmin?_spec a t).1, hge⟩
      · rw [if_neg hge] at he
        exact Except.noConfusion he
    · rintro ⟨n, hn, hle⟩
      refine ⟨.tooFewPoints maxK (t.foldl min a), ?_⟩
      simp only [_check_Ks, nmin?]
      have hge : maxK ≥ t.foldl min a := le_trans ((nmin?_spec a t).2 n hn) hle
      rw [if_pos hge]
  · intro e he
    simp only [_check_Ks, nmin?] at he
    by_cases hge : maxK ≥ t.foldl min a
    · rw [if_pos hge] at he
      injection he with h
      exact ⟨t.foldl min a, hmin, hge, h.symm⟩
    · rw [if_neg hge] at he
      exact Except.noConfusion he
  · intro sqrtF nnX dim skip st st1 st2 m hsetup hchoose hm hle
    have hmm : t.foldl min a = m := by
      simp only [nmin?] at hm
      injection hm
    subst hmm
    have hchk : _check_Ks (st2.maxK?.getD 0) (a :: t) none =
        .error (.tooFewPoints (st2.maxK?.getD 0) (t.foldl min a)) := by
      simp only [_check_Ks, nmin?]
      rw [if_pos hle]
    simp only [fit, hsetup, hchoose, hchk]

/-- **C5 (witness).** Instantiation at `Ks = (5,)` and a bag of 2 points
(the spec's own testable property): `fit` fails with the data error naming
`K = 5` and the bag size 2. -/
theorem C5_witness :
    fit (fun q => q) (fun _ _ => [[]]) 1 [2] false
        ⟨["kl"], [5], false, 1/1000,
         some ⟨[(.kl, ⟨none, [0]⟩)], [], 0⟩, false, none, [], none, none⟩
      = .error (.tooFewPoints 5 2) := by
  have h := (C5_insufficient_points 5 [2] (by decide)).2.2
    (fun q => q) (fun _ _ => [[]]) 1 false
    ⟨["kl"], [5], false, 1/1000,
     some ⟨[(.kl, ⟨none, [0]⟩)], [], 0⟩, false, none, [], none, none⟩
    ⟨["kl"], [5], false, 1/1000,
     some ⟨[(.kl, ⟨none, [0]⟩)], [], 0⟩, false, none, [], none, none⟩
    ⟨["kl"], [5], false, 1/1000,
     some ⟨[(.kl, ⟨none, [0]⟩)], [], 0⟩, false, some 1, [2], some 5, none⟩
    2 (by with_unfolding_all decide) (by with_unfolding_all decide)
    (by with_unfolding_all decide) (by with_unfolding_all decide)
  exact h

/-- **C7.** Token resolution: a token whose alpha part is not a float
literal fails naming that part; a well-formed token with an unregistered
name fails naming the name; a parameter-presence mismatch fails naming the
function and the whole token; every well-formed registered token with
matching parameter presence is accepted.  (The float conversion runs before
the registry lookup, as in the source.) -/
theorem C7_token_resolution :
    (∀ s name a, splitSpec s = (name, some a) → parseFloat a = none →
      resolveToken s = .error (.malformedAlpha a)) ∧
    (∀ s name, splitSpec s = (name, none) → func_mapping name = none →
      resolveToken s = .error (.unknownFunc name)) ∧
    (∀ s name a q, splitSpec s = (name, some a) → parseFloat a = some q →
      func_mapping name = none → resolveToken s = .error (.unknownFunc name)) ∧
    (∀ s name f, splitSpec s = (name, none) → func_mapping name = some f →
      needs_alpha f = true → resolveToken s = .error (.missingAlpha name s)) ∧
    (∀ s name a q f, splitSpec s = (name, some a) → parseFloat a = some q →
      func_mapping name = some f → needs_alpha f = false →
      resolveToken s = .error (.extraAlpha name s)) ∧
    (∀ s name f, splitSpec s = (name, none) → func_mapping name = some f →
      needs_alpha f = false → resolveToken s = .ok (name, f, none)) ∧
    (∀ s name a q f, splitSpec s = (name, some a) → parseFloat a = some q →
      func_mapping name = some f → needs_alpha f = true →
      resolveToken s = .ok (name, f, some q)) := by
  refine ⟨?_, ?_, ?_, ?_, ?_, ?_, ?_⟩
  · intro s name a h1 h2
    simp [resolveToken, h1, h2]
  · intro s name h1 h2
    simp [resolveToken, h1, h2]
  · intro s name a q h1 h2 h3
    simp [resolveToken, h1, h2, h3]
  · intro s name f h1 h2 h3
    simp [resolveToken, h1, h2, h3]
  · intro s name a q f h1 h2 h3 h4
    simp [resolveToken, h1, h2, h3, h4]
  · intro s name f h1 h2 h3
    simp [resolveToken, h1, h2, h3]
  · intro s name a q f h1 h2 h3 h4
    simp [resolveToken, h1, h2, h3, h4]

/-- **C7 (witness).** The seven cases at concrete tokens: `renyi:x`
(malformed), `nope` and `nope:0.5` (unknown), `renyi` (alpha missing),
`kl:3` (alpha not needed), `kl` and `renyi:.8` (accepted). -/
theorem C7_witness :
    resolveToken "renyi:x" = .error (.malformedAlpha "x") ∧
    resolveToken "nope" = .error (.unknownFunc "nope") ∧
    resolveToken "nope:0.5" = .error (.unknownFunc "nope") ∧
    resolveToken "renyi" = .error (.missingAlpha "renyi" "renyi") ∧
    resolveToken "kl:3" = .error (.extraAlpha "kl" "kl:3") ∧
    resolveToken "kl" = .ok ("kl", .kl, none) ∧
    resolveToken "renyi:.8" = .ok ("renyi", .renyi, some (4/5)) := by
  refine ⟨?_, ?_, ?_, ?_, ?_, ?_, ?_⟩
  · exact C7_token_resolution.1 _ "renyi" "x" (by decide) (by decide)
  · exact C7_token_resolution.2.1 _ "nope" (by decide) (by decide)
  · exact C7_token_resolution.2.2.1 _ "nope" "0.5" (1/2) (by decide)
      (by with_unfolding_all decide) (by decide)
  · exact C7_token_resolution.2.2.2.1 _ "renyi" .renyi (by decide) (by decide) (by decide)
  · exact C7_token_resolution.2.2.2.2.1 _ "kl" "3" 3 .kl (by decide)
      (by with_unfolding_all decide) (by decide) (by decide)
  · exact C7_token_resolution.2.2.2.2.2.1 _ "kl" .kl (by decide) (by decide) (by decide)
  · exact C7_token_resolution.2.2.2.2.2.2 _ "renyi" ".8" (4/5) .renyi (by decide)
      (by with_unfolding_all decide) (by decide) (by decide)

theorem getD_eq_getElem_of_lt {l : List ℚ} {i : Nat} (h : i < l.length) (d : ℚ) :
    l.getD i d = l[i] := by
  simp [List.getD, List.getElem?_eq_getElem h]

/-- Adjacent monotonicity of the selected `Ks` columns of a sorted row. -/
theorem chain_cols (row0 : List ℚ) (maxK : Nat)
    (hp : List.Pairwise (· ≤ ·) row0) (hl : row0.length = maxK + 1) :
    ∀ Ks : List Nat, List.Chain' (· ≤ ·) Ks → (∀ K ∈ Ks, K ≤ maxK) →
      List.Chain' (fun K1 K2 => row0.getD K1 0 ≤ row0.getD K2 0) Ks := by
  intro Ks
  induction Ks with
  | nil => intro _ _; exact List.chain'_nil
  | cons k1 t ih =>
    intro hch hb
    cases t with
    | nil => exact List.chain'_singleton _
    | cons k2 t2 =>
      rw [List.chain'_cons] at hch ⊢
      have hk1 : k1 < row0.length := by
        rw [hl]; exact Nat.lt_succ_of_le (hb k1 (by simp))
      have hk2 : k2 < row0.length := by
        rw [hl]; exact Nat.lt_succ_of_le (hb k2 (by simp))
      constructor
      · rw [getD_eq_getElem_of_lt hk1, getD_eq_getElem_of_lt hk2]
        rcases Nat.lt_or_ge k1 k2 with hlt | hge
        · exact List.pairwise_iff_getElem.mp hp k1 k2 hk1 hk2 hlt
        · have : k1 = k2 := le_antisymm hch.1 hge
          subst this
          exact le_refl _
      · exact ih hch.2 (fun K hK => hb K (by simp [hK]))

/-- **C8 (amended).** Every entry of every rho row is at least `min_dist`,
and, provided the neighbor index returns rows of `max_K + 1` distances
sorted by rank, the square root is monotone, *and the requested `Ks`
sequence is itself non-decreasing* (with each `K` at most `max_K`), every
row of every rho array is non-decreasing across its columns.  The self
match (column 0) is excluded by both column selections. -/
theorem C8_rho_floor_monotone
    (sqrtF : ℚ → ℚ) (nn : Nat → Nat → List (List ℚ)) (sizes : List Nat)
    (saveAll : Bool) (Ks : List Nat) (maxK : Nat) (md : ℚ)
    (rhos : List (List (List ℚ)))
    (hmono : Monotone sqrtF)
    (hsorted : ∀ i row, row ∈ nn i (maxK + 1) → List.Chain' (· ≤ ·) row)
    (hlen : ∀ i row, row ∈ nn i (maxK + 1) → row.length = maxK + 1)
    (hKs : List.Chain' (· ≤ ·) Ks)
    (hKb : ∀ K ∈ Ks, K ≤ maxK)
    (hok : _get_rhos sqrtF nn sizes saveAll Ks maxK md = .ok rhos) :
    ∀ bag ∈ rhos, ∀ row ∈ bag, (∀ x ∈ row, md ≤ x) ∧ List.Chain' (· ≤ ·) row := by
  have hval : rhos = rhosVal sqrtF nn sizes.length saveAll Ks maxK md := by
    unfold _get_rhos at hok
    cases hchk : _check_Ks maxK sizes none with
    | error e =>
      simp only [hchk] at hok
      exact Except.noConfusion hok
    | ok u =>
      simp only [hchk] at hok
      injection hok with hok
      exact hok.symm
  subst hval
  intro bag hbag row hrow
  unfold rhosVal at hbag
  obtain ⟨i, _hi, rfl⟩ := List.mem_map.mp hbag
  obtain ⟨row0, hrow0, rfl⟩ := List.mem_map.mp hrow
  constructor
  · intro x hx
    obtain ⟨d, _, rfl⟩ := List.mem_map.mp hx
    exact le_max_left _ _
  · rw [List.chain'_map]
    have hsel : List.Chain' (· ≤ ·)
        (if saveAll then row0.drop 1 else Ks.map (fun K => row0.getD K 0)) := by
      split
      · exact List.chain'_iff_pairwise.mpr
          ((List.chain'_iff_pairwise.mp (hsorted i row0 hrow0)).sublist
            (List.drop_sublist 1 row0))
      · rw [List.chain'_map]
        exact chain_cols row0 maxK
          (List.chain'_iff_pairwise.mp (hsorted i row0 hrow0))
          (hlen i row0 hrow0) Ks hKs hKb
    exact hsel.imp (fun a b hab => max_le_max (le_refl md) (hmono hab))

/-- **C8 (counterexample).** With a sorted neighbor row of squared
distances `[0,1,4,9,16,25]` but the requested `Ks = (5, 3)` out of order,
the rho row is `[5, 3]`, which is *not* non-decreasing, refuting the claim
as stated (without the ordering proviso on `Ks`). -/
theorem C8_cex_unsorted_Ks :
    _get_rhos sqrtFloor (fun _ _ => List.replicate 6 [(0:ℚ),1,4,9,16,25]) [6]
        false [5,3] 5 (1/1000)
      = .ok [List.replicate 6 [(5:ℚ), 3]] ∧
    List.Chain' (· ≤ ·) [(0:ℚ),1,4,9,16,25] ∧
    ¬ List.Chain' (· ≤ ·) [(5:ℚ), 3] := by
  refine ⟨by with_unfolding_all decide, ?_, ?_⟩
  · simp only [List.chain'_cons, List.chain'_singleton, and_true]
    norm_num
  · simp only [List.chain'_cons, List.chain'_singleton, and_true]
    norm_num

/-- **C8 (witness).** The amended statement at a concrete sorted index and
sorted `Ks = (3, 5)`: the entries of the row `[3, 5]` are clamped to at
least `1/1000` and the row is non-decreasing. -/
theorem C8_witness :
    ((1:ℚ)/1000 ≤ 3 ∧ (1:ℚ)/1000 ≤ 5) ∧ List.Chain' (· ≤ ·) [(3:ℚ), 5] := by
  have h := C8_rho_floor_monotone sqrtFloor
    (fun _ _ => List.replicate 2 [(0:ℚ),1,4,9,16,25]) [6] false [3,5] 5 (1/1000)
    [List.replicate 2 [(3:ℚ), 5]]
    sqrtFloor_monotone
    (by intro i row hr
        simp only [List.mem_replicate] at hr
        rw [hr.2]
        simp only [List.chain'_cons, List.chain'_singleton, and_true]
        norm_num)
    (by intro i row hr
        simp only [List.mem_replicate] at hr
        rw [hr.2]
        decide)
    (by simp only [List.chain'_cons, List.chain'_singleton, and_true]
        norm_num)
    (by decide)
    (by with_unfolding_all decide)
  have h2 := h (List.replicate 2 [(3:ℚ), 5]) (by simp) [(3:ℚ), 5]
    (by simp [List.mem_replicate])
  exact ⟨⟨h2.1 3 (by simp), h2.1 5 (by simp)⟩, h2.2⟩

theorem chooseMax_ge (l : List (Func × FuncInfoZ)) (e : Except Err Nat) :
    ∀ (acc r : Nat), chooseMax l e acc = .ok r → acc ≤ r := by
  induction l with
  | nil =>
    intro acc r h
    simp only [chooseMax] at h
    injection h with h
    exact le_of_eq h
  | cons x t ih =>
    intro acc r h
    simp only [chooseMax] at h
    by_cases hc : needs_all_ks x.1 && chooser_returns_ks x.1
    · rw [if_pos hc] at h
      cases e with
      | error err => exact Except.noConfusion h
      | ok k => exact le_trans (le_max_left _ _) (ih _ _ h)
    · rw [if_neg hc] at h
      exact ih _ _ h

/-- Frame lemma for `_choose_funcs`: on success it only updates `max_K_`,
never decreasing it, and the plan must have been present. -/
theorem choose_funcs_spec {st : Est} {d : Nat} {xs : List Nat}
    {ys : Option (List Nat)} {st2 : Est}
    (h : _choose_funcs st d xs ys = .ok st2) :
    ∃ p m, st.plan? = some p ∧ st2 = { st with maxK? := some m } ∧
      st.maxK?.getD 0 ≤ m := by
  unfold _choose_funcs at h
  cases hp : st.plan? with
  | none =>
    simp only [hp] at h
    exact Except.noConfusion h
  | some p =>
    simp only [hp] at h
    cases hk : nmax? st.Ks with
    | none =>
      simp only [hk] at h
      exact Except.noConfusion h
    | some kmax =>
      simp only [hk] at h
      cases hf : chooseMax p.funcs (jsCoreBounds st.Ks xs ys)
          (max kmax (st.maxK?.getD 0)) with
      | error err =>
        simp only [hf] at h
        exact Except.noConfusion h
      | ok mk =>
        simp only [hf] at h
        injection h with h
        exact ⟨p, mk, rfl, h.symm,
          le_trans (le_max_right _ _) (chooseMax_ge _ _ _ _ hf)⟩

theorem check_Ks_weaken_X {k : Nat} {xs ys : List Nat}
    (h : _check_Ks k xs (some ys) = .ok ()) : _check_Ks k xs none = .ok () := by
  unfold _check_Ks at h ⊢
  cases hx : nmin? xs with
  | none =>
    simp only [hx] at h
    exact Except.noConfusion h
  | some xm =>
    simp only [hx] at h ⊢
    cases hy : nmin? ys with
    | none =>
      simp only [hy] at h
      exact Except.noConfusion h
    | some ym =>
      simp only [hy] at h
      by_cases hge : k ≥ min xm ym
      · simp only [if_pos hge] at h
        exact Except.noConfusion h
      · have hxk : ¬ (k ≥ xm) :=
          fun hk => hge (le_trans (min_le_left _ _) hk)
        rw [if_neg hxk]

theorem check_Ks_weaken_Y {k : Nat} {xs ys : List Nat}
    (h : _check_Ks k xs (some ys) = .ok ()) : _check_Ks k ys none = .ok () := by
  unfold _check_Ks at h ⊢
  cases hx : nmin? xs with
  | none =>
    simp only [hx] at h
    exact Except.noConfusion h
  | some xm =>
    simp only [hx] at h
    cases hy : nmin? ys with
    | none =>
      simp only [hy] at h
      exact Except.noConfusion h
    | some ym =>
      simp only [hy] at h ⊢
      by_cases hge : k ≥ min xm ym
      · simp only [if_pos hge] at h
        exact Except.noConfusion h
      · have hyk : ¬ (k ≥ ym) :=
          fun hk => hge (le_trans (min_le_right _ _) hk)
        rw [if_neg hyk]

theorem get_rhos_of_check {sqrtF : ℚ → ℚ} {nn : Nat → Nat → List (List ℚ)}
    {xs : List Nat} {sa : Bool} {Ks : List Nat} {k : Nat} {md : ℚ}
    (h : _check_Ks k xs none = .ok ()) :
    _get_rhos sqrtF nn xs sa Ks k md = .ok (rhosVal sqrtF nn xs.length sa Ks k md) := by
  unfold _get_rhos
  simp only [h]

/-- **C6.** If specialization at transform time raises the effective
`max_K_` above the value cached at fit time while radii are cached, the
transform does not fail: it warns, discards the cached source radii, and
the radii handed to the divergence kernel are freshly recomputed at the new
`max_K_` (never the stale ones computed at the lower value). -/
theorem C6_maxK_growth_recompute
    (sqrtF : ℚ → ℚ) (nnX nnY : Nat → Nat → List (List ℚ)) (Ysizes : List Nat)
    (st st1 : Est) (m0 d : Nat) (r : List (List (List ℚ)))
    (h0 : st.maxK? = some m0)
    (hd : st.dim? = some d)
    (hr : st.rhos? = some r)
    (hch : _choose_funcs st d st.sizes? (some Ysizes) = .ok st1)
    (hgrow : m0 < st1.maxK?.getD 0)
    (hck : _check_Ks (st1.maxK?.getD 0) st.sizes? (some Ysizes) = .ok ()) :
    (transform sqrtF nnX nnY Ysizes st).map
        (fun o => (o.warned, o.divIn.Xrhos, o.divIn.maxK))
      = .ok (true,
             rhosVal sqrtF nnX st.sizes?.length st.saveAll? st.Ks
               (st1.maxK?.getD 0) st.min_dist,
             st1.maxK?.getD 0) := by
  obtain ⟨p, m1, hp, hst1, _hle⟩ := choose_funcs_spec hch
  subst hst1
  simp only [Option.getD_some] at hgrow hck ⊢
  unfold transform
  simp only [h0, hd, hch, Option.getD_some]
  have hcond : ((({ st with maxK? := some m1 } : Est).rhos?.isSome &&
      decide (m0 < m1)) = true) := by
    simp [hr, hgrow]
  simp only [hck, hp, hr, get_rhos_of_check (check_Ks_weaken_X hck),
    Option.isSome_some, Bool.true_and, decide_eq_true_eq]
  rw [if_pos hgrow]
  cases hds : (st.do_sym || doSymForced p) with
  | false =>
    simp only [Bool.false_eq_true, ite_false]
    rfl
  | true =>
    simp only [ite_true, get_rhos_of_check (check_Ks_weaken_Y hck)]
    rfl

/-- **C6 (witness).** The Jensen-Shannon scenario: fit on one bag of 5
points with `Ks = (2,)` caches `max_K_ = 2`; transforming against one bag
of 4 points raises the chooser bound to 3, and transform returns the
warning plus radii recomputed at `max_K_ = 3`. -/
theorem C6_witness :
    (transform sqrtFloor
        (fun _ k => List.replicate 2 ((List.range k).map (fun j => ((j * j : Nat) : ℚ))))
        (fun _ k => List.replicate 2 ((List.range k).map (fun j => ((j * j : Nat) : ℚ))))
        [4]
        ⟨["js"], [2], false, 1,
         some ⟨[(.jensen_shannon_core, ⟨none, [-1]⟩)],
               [(.jensen_shannon, ⟨none, [0], [-1]⟩)], 1⟩,
         true, some 1, [5], some 2,
         some [[[1]]]⟩).map
        (fun o => (o.warned, o.divIn.Xrhos, o.divIn.maxK))
      = .ok (true,
             rhosVal sqrtFloor
               (fun _ k => List.replicate 2 ((List.range k).map (fun j => ((j * j : Nat) : ℚ))))
               1 true [2] 3 1,
             3) := by
  exact C6_maxK_growth_recompute sqrtFloor _ _ [4]
    ⟨["js"], [2], false, 1,
     some ⟨[(.jensen_shannon_core, ⟨none, [-1]⟩)],
           [(.jensen_shannon, ⟨none, [0], [-1]⟩)], 1⟩,
     true, some 1, [5], some 2, some [[[1]]]⟩
    ⟨["js"], [2], false, 1,
     some ⟨[(.jensen_shannon_core, ⟨none, [-1]⟩)],
           [(.jensen_shannon, ⟨none, [0], [-1]⟩)], 1⟩,
     true, some 1, [5], some 3, some [[[1]]]⟩
    2 1 [[[1]]]
    rfl rfl rfl
    (by with_unfolding_all decide)
    (by decide)
    (by decide)

theorem lookupA_mem {β : Type} {l : List (Func × β)} {k : Func} {v : β}
    (h : lookupA l k = some v) : (k, v) ∈ l := by
  induction l with
  | nil => simp [lookupA] at h
  | cons x t ih =>
    simp only [lookupA] at h
    by_cases hx : x.1 = k
    · rw [if_pos hx] at h
      injection h with h
      have hkv : (k, v) = x := by rw [← hx, ← h]
      exact List.mem_cons.mpr (Or.inl hkv)
    · rw [if_neg hx] at h
      exact List.mem_cons.mpr (Or.inr (ih h))

theorem mapM_ok_mem {α β : Type} (g : α → Except Err β) :
    ∀ (l : List α) (r : List β), l.mapM g = .ok r → ∀ b ∈ r, ∃ a ∈ l, g a = .ok b := by
  intro l
  induction l with
  | nil =>
    intro r h b hb
    simp only [List.mapM_nil, pure_eq_ok] at h
    injection h with h
    rw [← h] at hb
    simp at hb
  | cons x t ih =>
    intro r h b hb
    rw [List.mapM_cons] at h
    cases hx : g x with
    | error e =>
      rw [hx] at h
      simp only [err_bind] at h
      exact Except.noConfusion h
    | ok bx =>
      rw [hx] at h
      simp only [ok_bind] at h
      cases ht : (t.mapM g : Except Err (List β)) with
      | error e =>
        rw [ht] at h
        simp only [err_bind] at h
        exact Except.noConfusion h
      | ok bs =>
        rw [ht] at h
        simp only [ok_bind, pure_eq_ok] at h
        injection h with h
        rw [← h] at hb
        rcases List.mem_cons.mp hb with rfl | hb2
        · exact ⟨x, by simp, hx⟩
        · obtain ⟨a, ha, hga⟩ := ih bs ht b hb2
          exact ⟨a, by simp [ha], hga⟩

/-- `fillOne` on a meta function with a single no-alpha requirement yields
a single dependency slot. -/
theorem fillOne_single_noAlpha {fz mz : List (Func × FuncInfoZ)} {f : Func}
    {z : FuncInfoZ} {d : List Int} {g : Func} {tr : Bool}
    (hreq : needs_results f = [⟨g, .noAlpha, tr⟩])
    (h : fillOne fz mz f z = .ok d) : ∃ p, d = [p] := by
  unfold fillOne at h
  rw [hreq] at h
  simp only [List.foldlM_cons, List.foldlM_nil] at h
  cases hl : lookupA (if is_meta g then mz else fz) g with
  | none =>
    rw [hl] at h
    simp only [err_bind, throw_eq_error] at h
    exact Except.noConfusion h
  | some ri =>
    rw [hl] at h
    simp only [ok_bind, pure_eq_ok] at h
    cases hp : ri.pos with
    | nil =>
      rw [hp] at h
      simp only [throw_eq_error, err_bind] at h
      exact Except.noConfusion h
    | cons p t =>
      cases t with
      | nil =>
        rw [hp] at h
        simp only [ok_bind, pure_eq_ok, List.nil_append] at h
        injection h with h
        exact ⟨p, h.symm⟩
      | cons q t2 =>
        rw [hp] at h
        simp only [throw_eq_error, err_bind] at h
        exact Except.noConfusion h

/-- In a successful plan, the deps list of a scheduled meta function with a
single no-alpha requirement is a single slot. -/
theorem plan_metas_deps_single {specs : List String} {plan : Plan}
    (h : _parse_specs specs = .ok plan) {f : Func} {mi : MetaInfoZ}
    (hmem : (f, mi) ∈ plan.metas) {g : Func} {tr : Bool}
    (hreq : needs_results f = [⟨g, .noAlpha, tr⟩]) :
    ∃ p, mi.deps = [p] := by
  unfold _parse_specs at h
  cases hst : addSpecs specs 0 ⟨[], [], []⟩ with
  | error e =>
    rw [hst] at h
    simp only [err_bind] at h
    exact Except.noConfusion h
  | ok st =>
    rw [hst] at h
    simp only [ok_bind] at h
    unfold finishPlan at h
    rcases hrn : renumberSt st with ⟨fz, mz, c⟩
    simp only [hrn] at h
    cases hm1 : (mz.mapM (fun p => do
        let d ← fillOne fz mz p.1 p.2
        pure (p.1, MetaInfoZ.mk p.2.alphas p.2.pos d)) :
        Except Err (List (Func × MetaInfoZ))) with
    | error e =>
      rw [hm1] at h
      simp only [err_bind] at h
      exact Except.noConfusion h
    | ok mzF =>
      rw [hm1] at h
      simp only [ok_bind] at h
      cases hts : (topological_sort st.meta_deps : Except Err (List Func)) with
      | error e =>
        rw [hts] at h
        simp only [err_bind] at h
        exact Except.noConfusion h
      | ok order =>
        rw [hts] at h
        simp only [ok_bind] at h
        cases hm2 : ((order.filter (fun f => is_meta f)).mapM (fun f =>
            match lookupA mzF f with
            | some mi => pure (f, mi)
            | none => throw .internal) : Except Err (List (Func × MetaInfoZ))) with
        | error e =>
          rw [hm2] at h
          simp only [err_bind] at h
          exact Except.noConfusion h
        | ok mos =>
          rw [hm2] at h
          simp only [ok_bind, pure_eq_ok] at h
          injection h with h
          have hmm : (f, mi) ∈ mos := by
            have hpm : plan.metas = mos := by rw [← h]
            rw [← hpm]
            exact hmem
          obtain ⟨f1, _hf1, hg2⟩ := mapM_ok_mem _ _ _ hm2 (f, mi) hmm
          have hlk : lookupA mzF f = some mi := by
            cases hl : lookupA mzF f1 with
            | none =>
              rw [hl] at hg2
              simp only [throw_eq_error] at hg2
              exact Except.noConfusion hg2
            | some x =>
              rw [hl] at hg2
              simp only [pure_eq_ok] at hg2
              injection hg2 with hg2
              obtain ⟨h1, h2⟩ := Prod.mk.injEq .. |>.mp hg2
              subst h1
              subst h2
              exact hl
          have hmemF : (f, mi) ∈ mzF := lookupA_mem hlk
          obtain ⟨⟨f2, z⟩, _hz, hg1⟩ := mapM_ok_mem _ _ _ hm1 (f, mi) hmemF
          cases hfo : fillOne fz mz f2 z with
          | error e =>
            rw [hfo] at hg1
            simp only [err_bind] at hg1
            exact Except.noConfusion hg1
          | ok d =>
            rw [hfo] at hg1
            simp only [ok_bind, pure_eq_ok] at hg1
            injection hg1 with hg1
            obtain ⟨h1, h2⟩ := Prod.mk.injEq .. |>.mp hg1
            subst h1
            have hdeps : mi.deps = d := by rw [← h2]
            rw [hdeps]
            exact fillOne_single_noAlpha hreq hfo

/-- **C9.** A scheduled meta function that needs Y-side rho arrays
(`needs_rhos[1]`, i.e. `l2` and `jensen_shannon`) forces the symmetric
pass: its requirement carries `needs_transpose`, so the derived `do_sym`
set of `transform` is nonempty (truthy), and on any successful transform
the Y-side radii handed to `_finalize` are present (not `None`). -/
theorem C9_Yrhos_forced (specs : List String) (plan : Plan)
    (h : _parse_specs specs = .ok plan) :
    ∀ f mi, (f, mi) ∈ plan.metas → (needs_rhos f).2 = true →
      doSymForced plan = true ∧
      (∀ (sqrtF : ℚ → ℚ) (nnX nnY : Nat → Nat → List (List ℚ)) (Ysizes : List Nat)
          (st : Est) (out : TransOut),
        st.plan? = some plan →
        transform sqrtF nnX nnY Ysizes st = .ok out →
        out.divIn.Yrhos.isSome = true) := by
  intro f mi hmem hrho
  obtain ⟨g, hreq⟩ : ∃ g, needs_results f = [⟨g, .noAlpha, true⟩] := by
    cases f
    case l2 => exact ⟨.linear, rfl⟩
    case jensen_shannon => exact ⟨.jensen_shannon_core, rfl⟩
    all_goals exact absurd hrho (by decide)
  obtain ⟨pd, hdeps⟩ := plan_metas_deps_single h hmem hreq
  have hforce : doSymForced plan = true := by
    unfold doSymForced
    rw [List.any_eq_true]
    refine ⟨(f, mi), hmem, ?_⟩
    show ((mi.deps.zip (needs_results f)).any (fun pr => pr.2.needs_transpose)) = true
    rw [hdeps, hreq]
    rfl
  refine ⟨hforce, ?_⟩
  intro sqrtF nnX nnY Ysizes st out hpl htr
  unfold transform at htr
  cases h0 : st.maxK? with
  | none =>
    simp only [h0] at htr
    exact Except.noConfusion htr
  | some m0 =>
    simp only [h0] at htr
    cases h1 : st.dim? with
    | none =>
      simp only [h1] at htr
      exact Except.noConfusion htr
    | some dim =>
      simp only [h1] at htr
      cases hc : _choose_funcs st dim st.sizes? (some Ysizes) with
      | error e =>
        simp only [hc] at htr
        exact Except.noConfusion htr
      | ok st1 =>
        simp only [hc] at htr
        obtain ⟨p1, m1, hp1, hst1, _⟩ := choose_funcs_spec hc
        have hplan1 : st1.plan? = some plan := by
          rw [hst1]
          show st.plan? = some plan
          exact hpl
        cases hck : _check_Ks (st1.maxK?.getD 0) st1.sizes? (some Ysizes) with
        | error e =>
          simp only [hck] at htr
          exact Except.noConfusion htr
        | ok u =>
          simp only [hck] at htr
          cases hxr : (match (if st1.rhos?.isSome && decide (m0 < st1.maxK?.getD 0)
                then (none, true)
                else (st1.rhos?, false) :
                Option (List (List (List ℚ))) × Bool).1 with
              | some r => Except.ok r
              | none => _get_rhos sqrtF nnX st1.sizes? st1.saveAll? st1.Ks
                  (st1.maxK?.getD 0) st1.min_dist) with
          | error e =>
            simp only [hxr] at htr
            exact Except.noConfusion htr
          | ok Xrhos =>
            simp only [hxr] at htr
            rw [hplan1] at htr
            simp only [hforce, Bool.or_true, ite_true] at htr
            cases hyr : _get_rhos sqrtF nnY Ysizes st1.saveAll? st1.Ks
                (st1.maxK?.getD 0) st1.min_dist with
            | error e =>
              simp only [hyr] at htr
              exact Except.noConfusion htr
            | ok r =>
              simp only [hyr] at htr
              injection htr with htr
              rw [← htr]
              rfl

/-- **C9 (witness).** For the plan of `['l2']` (whose `l2` meta needs
Y-side rhos): the symmetric pass is forced, and a concrete transform run
returns Y-side radii even though `do_sym=False` was configured. -/
theorem C9_witness :
    doSymForced ⟨[(.linear, ⟨none, [-1]⟩)], [(.l2, ⟨none, [0], [-1]⟩)], 1⟩ = true ∧
    (TransOut.mk
        ⟨[[[1]]], some [[[1]]], [2], 2, false, 2, true,
         ⟨[(.linear, ⟨none, [-1]⟩)], [(.l2, ⟨none, [0], [-1]⟩)], 1⟩⟩
        false).divIn.Yrhos.isSome = true := by
  have h := C9_Yrhos_forced ["l2"]
    ⟨[(.linear, ⟨none, [-1]⟩)], [(.l2, ⟨none, [0], [-1]⟩)], 1⟩
    (by decide) .l2 ⟨none, [0], [-1]⟩ (by decide) (by decide)
  refine ⟨h.1, ?_⟩
  exact h.2 sqrtFloor (fun _ k => [(List.range k).map (fun j => (j:ℚ))])
    (fun _ k => [(List.range k).map (fun j => (j:ℚ))]) [4]
    ⟨["l2"], [2], false, 1,
     some ⟨[(.linear, ⟨none, [-1]⟩)], [(.l2, ⟨none, [0], [-1]⟩)], 1⟩,
     false, some 1, [4], some 2, none⟩
    (TransOut.mk
      ⟨[[[1]]], some [[[1]]], [2], 2, false, 2, true,
       ⟨[(.linear, ⟨none, [-1]⟩)], [(.l2, ⟨none, [0], [-1]⟩)], 1⟩⟩
      false)
    rfl (by with_unfolding_all decide)

@[simp] theorem exbind_ok {α β : Type} (a : α) (f : α → Except Err β) :
    Except.bind (Except.ok a) f = f a := rfl

@[simp] theorem exbind_err {α β : Type} (e : Err) (f : α → Except Err β) :
    Except.bind (Except.error e : Except Err α) f = Except.error e := rfl

@[simp] theorem exmap_ok {α β : Type} (f : α → β) (a : α) :
    Except.map f (Except.ok a : Except Err α) = .ok (f a) := rfl

@[simp] theorem exmap_err {α β : Type} (f : α → β) (e : Err) :
    Except.map f (Except.error e : Except Err α) = .error e := rfl

/-- The estimator produced by the constructor: the given parameters, a plan
parsed from `div_funcs`, and no fitted state. -/
theorem mkEst_spec {dfs : List String} {Ks : List Nat} {ds : Bool} {md : ℚ}
    {e0 : Est} (h : mkEst dfs Ks ds md = .ok e0) :
    ∃ p sa, e0 = ⟨dfs, Ks, ds, md, some p, sa, none, [], none, none⟩ := by
  unfold mkEst _setup_args at h
  cases hk : nmin? Ks with
  | none =>
    simp only [hk] at h
    exact Except.noConfusion h
  | some m =>
    simp only [hk] at h
    by_cases hm : m < 1
    · rw [if_pos hm] at h
      exact Except.noConfusion h
    · rw [if_neg hm] at h
      simp only [Option.isSome_none, Bool.false_eq_true, if_false] at h
      cases hp : _parse_specs dfs with
      | error e =>
        simp only [hp] at h
        exact Except.noConfusion h
      | ok p =>
        simp only [hp] at h
        injection h with h
        exact ⟨p, p.funcs.any (fun q => needs_all_ks q.1), h.symm⟩

/-- When the plan is already cached, a successful `_setup_args` is the
identity. -/
theorem setup_id_of_plan_some {st st' : Est} (hp : st.plan?.isSome = true)
    (h : _setup_args st = .ok st') : st' = st := by
  unfold _setup_args at h
  cases hk : nmin? st.Ks with
  | none =>
    simp only [hk] at h
    exact Except.noConfusion h
  | some m =>
    simp only [hk] at h
    by_cases hm : m < 1
    · rw [if_pos hm] at h
      exact Except.noConfusion h
    · rw [if_neg hm] at h
      simp only [hp, if_true] at h
      injection h with h
      exact h.symm

/-- `_choose_funcs` only reads the plan, `Ks` and `max_K_`, and only writes
`max_K_`. -/
theorem choose_funcs_congr (st st' : Est) (d : Nat) (xs : List Nat)
    (ys : Option (List Nat))
    (hplan : st'.plan? = st.plan?) (hKs : st'.Ks = st.Ks)
    (hmax : st'.maxK? = st.maxK?) :
    _choose_funcs st' d xs ys
      = (_choose_funcs st d xs ys).map (fun s => { st' with maxK? := s.maxK? }) := by
  unfold _choose_funcs
  rw [hplan, hKs, hmax]
  cases hsp : st.plan? with
  | none => simp only [hsp, exmap_err]
  | some p =>
    simp only [hsp]
    cases hsk : nmax? st.Ks with
    | none => simp only [hsk, exmap_err]
    | some kmax =>
      simp only [hsk]
      cases hcm : chooseMax p.funcs (jsCoreBounds st.Ks xs ys)
          (max kmax (st.maxK?.getD 0)) with
      | error e => simp only [hcm, exmap_err]
      | ok mk => simp only [hcm, exmap_ok]

theorem setup_args_rhos {st st' : Est} (h : _setup_args st = .ok st') :
    st'.rhos? = st.rhos? := by
  unfold _setup_args at h
  cases hk : nmin? st.Ks with
  | none =>
    simp only [hk] at h
    exact Except.noConfusion h
  | some m =>
    simp only [hk] at h
    by_cases hm : m < 1
    · rw [if_pos hm] at h
      exact Except.noConfusion h
    · rw [if_neg hm] at h
      by_cases hp : st.plan?.isSome
      · simp only [hp, if_true] at h
        injection h with h
        rw [← h]
      · simp only [hp, Bool.false_eq_true, if_false] at h
        cases hps : _parse_specs st.div_funcs with
        | error e =>
          simp only [hps] at h
          exact Except.noConfusion h
        | ok p =>
          simp only [hps] at h
          injection h with h
          rw [← h]

/-- `fit` with `skip_rhos` leaves the cached radii untouched and stores the
given features. -/
theorem fit_true_spec {sqrtF : ℚ → ℚ} {nnX : Nat → Nat → List (List ℚ)}
    {dim : Nat} {sizes : List Nat} {st st1 : Est}
    (h : fit sqrtF nnX dim sizes true st = .ok st1) :
    st1.rhos? = st.rhos? ∧ st1.sizes? = sizes := by
  unfold fit at h
  cases hsu : _setup_args st with
  | error e =>
    simp only [hsu] at h
    exact Except.noConfusion h
  | ok e1 =>
    simp only [hsu] at h
    cases hcf : _choose_funcs { e1 with dim? := some dim, sizes? := sizes } dim sizes none with
    | error e =>
      simp only [hcf] at h
      exact Except.noConfusion h
    | ok s1 =>
      simp only [hcf] at h
      cases hck : _check_Ks (s1.maxK?.getD 0) sizes none with
      | error e =>
        simp only [hck] at h
        exact Except.noConfusion h
      | ok u =>
        simp only [hck, if_true] at h
        injection h with h
        obtain ⟨_, m2, _, hframe, _⟩ := choose_funcs_spec hcf
        subst h
        constructor
        · have hx : s1.rhos? = e1.rhos? := by rw [hframe]
          rw [hx]
          exact setup_args_rhos hsu
        · rw [hframe]

/-- Eager `fit` equals `fit` with `skip_rhos` followed by storing the radii
computed at the fitted `max_K_`. -/
theorem fit_skip_vs_eager (sqrtF : ℚ → ℚ) (nnX : Nat → Nat → List (List ℚ))
    (dim : Nat) (sizes : List Nat) (st : Est) :
    fit sqrtF nnX dim sizes false st
      = (fit sqrtF nnX dim sizes true st).map
          (fun s => { s with rhos? := some (rhosVal sqrtF nnX sizes.length
            s.saveAll? s.Ks (s.maxK?.getD 0) s.min_dist) }) := by
  unfold fit
  cases hsu : _setup_args st with
  | error e => simp only [hsu, exmap_err]
  | ok e1 =>
    simp only [hsu]
    cases hcf : _choose_funcs { e1 with dim? := some dim, sizes? := sizes } dim sizes none with
    | error e => simp only [hcf, exmap_err]
    | ok s1 =>
      simp only [hcf]
      cases hck : _check_Ks (s1.maxK?.getD 0) sizes none with
      | error e => simp only [hck, exmap_err]
      | ok u =>
        cases u
        simp only [hck, if_true, Bool.false_eq_true, if_false, exmap_ok]
        rw [get_rhos_of_check hck]

/-- Transforming with eagerly-computed radii (at the state's own `max_K_`)
yields the same divergence-stage inputs as transforming with no cached
radii at all: if `max_K_` grows the cache is dropped and recomputed, and
otherwise the cache already equals the lazy computation. -/
theorem transform_fresh_rhos_congr (sqrtF : ℚ → ℚ)
    (nnX nnY : Nat → Nat → List (List ℚ)) (Ysizes : List Nat) (st stF : Est)
    (h0 : st.rhos? = none)
    (hF : stF = { st with rhos? := some (rhosVal sqrtF nnX st.sizes?.length
        st.saveAll? st.Ks (st.maxK?.getD 0) st.min_dist) }) :
    Except.map (fun o => o.divIn) (transform sqrtF nnX nnY Ysizes stF)
    = Except.map (fun o => o.divIn) (transform sqrtF nnX nnY Ysizes st) := by
  have hFdf : stF.div_funcs = st.div_funcs := by rw [hF]
  have hFKs : stF.Ks = st.Ks := by rw [hF]
  have hFds : stF.do_sym = st.do_sym := by rw [hF]
  have hFmd : stF.min_dist = st.min_dist := by rw [hF]
  have hFpl : stF.plan? = st.plan? := by rw [hF]
  have hFsa : stF.saveAll? = st.saveAll? := by rw [hF]
  have hFdm : stF.dim? = st.dim? := by rw [hF]
  have hFsz : stF.sizes? = st.sizes? := by rw [hF]
  have hFmx : stF.maxK? = st.maxK? := by rw [hF]
  have hFrh : stF.rhos? = some (rhosVal sqrtF nnX st.sizes?.length
      st.saveAll? st.Ks (st.maxK?.getD 0) st.min_dist) := by rw [hF]
  unfold transform
  cases hm : st.maxK? with
  | none => simp only [hFmx, hm, exmap_err]
  | some m1 =>
    simp only [hFmx, hm]
    cases hd : st.dim? with
    | none => simp only [hFdm, hd, exmap_err]
    | some dim =>
      simp only [hFdm, hd, hFsz]
      rw [choose_funcs_congr st stF dim st.sizes? (some Ysizes) hFpl hFKs hFmx]
      cases hc : _choose_funcs st dim st.sizes? (some Ysizes) with
      | error e => simp only [hc, exmap_err]
      | ok s1 =>
        simp only [hc, exmap_ok]
        obtain ⟨p1, m2, hp1, hframe, hle⟩ := choose_funcs_spec hc
        simp only [hm, Option.getD_some] at hle
        have hs1mx : s1.maxK? = some m2 := by rw [hframe]
        have hs1sz : s1.sizes? = st.sizes? := by rw [hframe]
        have hs1rh : s1.rhos? = none := by rw [hframe]; exact h0
        have hs1pl : s1.plan? = st.plan? := by rw [hframe]
        have hs1Ks : s1.Ks = st.Ks := by rw [hframe]
        have hs1sa : s1.saveAll? = st.saveAll? := by rw [hframe]
        have hs1md : s1.min_dist = st.min_dist := by rw [hframe]
        have hs1ds : s1.do_sym = st.do_sym := by rw [hframe]
        have hs1df : s1.div_funcs = st.div_funcs := by rw [hframe]
        simp only [hs1mx, hs1sz, hs1rh, hs1pl, hs1Ks, hs1sa, hs1md, hs1ds,
          hs1df, hFrh, hFsz, hFsa, hFKs, hFmd, hFds, hFdf, hFpl,
          Option.getD_some]
        cases hck : _check_Ks m2 st.sizes? (some Ysizes) with
        | error e => simp only [hck, exmap_err]
        | ok u =>
          cases u
          simp only [hck, Option.isSome_none, Option.isSome_some,
            Bool.false_and, Bool.true_and, Bool.false_eq_true, if_false,
            decide_eq_true_eq]
          rw [get_rhos_of_check (check_Ks_weaken_X hck)]
          by_cases hlt : m1 < m2
          · rw [if_pos hlt]
            cases hpl : st.plan? with
            | none => simp only [exmap_err]
            | some p1x =>
              simp only []
              cases hds : (st.do_sym || doSymForced p1x) with
              | false => rfl
              | true =>
                cases hyr : _get_rhos sqrtF nnY Ysizes st.saveAll? st.Ks m2
                    st.min_dist with
                | error e => rfl
                | ok yr => rfl
          · rw [if_neg hlt]
            have hm2 : m2 = m1 := le_antisymm (Nat.not_lt.mp hlt) hle
            subst hm2
            simp only [hm, Option.getD_some]

/-- **C10.** For a freshly constructed estimator, `fit(X, skip_rhos=True)`
leaves the cached radii unset and the next `transform` computes them
lazily; the divergence-stage inputs (hence the returned tensor, a
deterministic function of them and of the index parameters) are identical
to those after an eager `fit(X)`. -/
theorem C10_skip_rhos_equivalent
    (sqrtF : ℚ → ℚ) (nnX nnY : Nat → Nat → List (List ℚ))
    (dfs : List String) (Ks : List Nat) (ds : Bool) (md : ℚ)
    (dim : Nat) (sizes Ysizes : List Nat) :
    Except.map (fun o => o.divIn)
      (Except.bind (Except.bind (mkEst dfs Ks ds md)
          (fun e => fit sqrtF nnX dim sizes true e))
        (fun e => transform sqrtF nnX nnY Ysizes e))
    = Except.map (fun o => o.divIn)
      (Except.bind (Except.bind (mkEst dfs Ks ds md)
          (fun e => fit sqrtF nnX dim sizes false e))
        (fun e => transform sqrtF nnX nnY Ysizes e)) := by
  cases hmk : mkEst dfs Ks ds md with
  | error e => simp only [exbind_err, exmap_err]
  | ok e0 =>
    simp only [exbind_ok]
    rw [fit_skip_vs_eager]
    cases hft : fit sqrtF nnX dim sizes true e0 with
    | error e => simp only [exmap_err, exbind_err]
    | ok st1 =>
      simp only [exmap_ok, exbind_ok]
      obtain ⟨hr, hs⟩ := fit_true_spec hft
      obtain ⟨p, sa, he0⟩ := mkEst_spec hmk
      have h0 : st1.rhos? = none := by
        rw [hr, he0]
      have hsz : sizes.length = st1.sizes?.length := by rw [hs]
      rw [hsz]
      exact (transform_fresh_rhos_congr sqrtF nnX nnY Ysizes st1 _ h0 rfl).symm

/-! ### Counting and association-list lemmas for the slot accounting -/

@[simp] theorem cnt_nil {α : Type} [DecidableEq α] (a : α) : cnt a [] = 0 := rfl

@[simp] theorem cnt_cons {α : Type} [DecidableEq α] (a b : α) (t : List α) :
    cnt a (b :: t) = (if b = a then 1 else 0) + cnt a t := rfl

@[simp] theorem cnt_append {α : Type} [DecidableEq α] (a : α) (l1 l2 : List α) :
    cnt a (l1 ++ l2) = cnt a l1 + cnt a l2 := by
  induction l1 with
  | nil => simp
  | cons b t ih => simp [ih]; omega

theorem cnt_pos_iff_mem {α : Type} [DecidableEq α] {a : α} {l : List α} :
    0 < cnt a l ↔ a ∈ l := by
  induction l with
  | nil => simp
  | cons b t ih =>
    by_cases hb : b = a
    · subst hb
      simp
    · simp [hb, ih, Ne.symm hb]

theorem cnt_perm {α : Type} [DecidableEq α] {l1 l2 : List α} (h : l1.Perm l2) :
    ∀ a, cnt a l1 = cnt a l2 := by
  induction h with
  | nil => intro a; rfl
  | cons x _ ih => intro a; simp [ih a]
  | swap x y t => intro a; simp; omega
  | trans _ _ ih1 ih2 => intro a; rw [ih1 a, ih2 a]

theorem cnt_map_pair {γ β : Type} [DecidableEq γ] [DecidableEq β]
    (g f0 : γ) (x : β) (l : List β) :
    cnt (f0, x) (l.map (fun y => (g, y))) = if f0 = g then cnt x l else 0 := by
  induction l with
  | nil => simp
  | cons b t ih =>
    simp only [List.map_cons, cnt_cons, ih]
    by_cases hg : f0 = g
    · subst hg
      by_cases hb : b = x
      · subst hb
        simp
      · have hne : (f0, b) ≠ (f0, x) := by
          intro hc
          injection hc with h1 h2
          exact hb h2
        simp [hb, hne]
    · have hne : (g, b) ≠ (f0, x) := fun hc => hg (congrArg Prod.fst hc).symm
      simp [hg, hne]

theorem cnt_filterMap_pairs {β : Type} [DecidableEq β]
    (a : Option ℚ) (n : β) (l : List (Option ℚ × Option β)) :
    cnt (a, n) (l.filterMap (fun pr => pr.2.map (fun j => (pr.1, j))))
      = cnt (a, some n) l := by
  induction l with
  | nil => simp
  | cons b t ih =>
    rcases b with ⟨b1, b2⟩
    cases b2 with
    | none =>
      have hne : (b1, (none : Option β)) ≠ (a, some n) := by
        intro hc
        exact Option.noConfusion (congrArg Prod.snd hc)
      simp [hne, ih]
    | some m =>
      have hred : ((b1, some m) :: t).filterMap (fun pr => pr.2.map (fun j => (pr.1, j)))
          = (b1, m) :: t.filterMap (fun pr => pr.2.map (fun j => (pr.1, j))) := rfl
      rw [hred]
      simp only [cnt_cons, ih]
      have hiff : ((b1, m) = (a, n)) ↔ ((b1, some m) = (a, some n)) := by
        constructor
        · intro hc
          injection hc with h1 h2
          rw [h1, h2]
        · intro hc
          injection hc with h1 h2
          injection h2 with h2
          rw [h1, h2]
      rw [if_congr hiff rfl rfl]

theorem cnt_set {α : Type} [DecidableEq α] :
    ∀ (l : List α) (idx : Nat) (h : idx < l.length) (w y : α),
      cnt y (l.set idx w) + cnt y [l.get ⟨idx, h⟩] = cnt y l + cnt y [w]
  | [], idx, h, _, _ => absurd h (by simp)
  | b :: t, 0, _, w, y => by simp [cnt]; omega
  | b :: t, idx + 1, h, w, y => by
    have h2 : idx < t.length := by
      simp only [List.length_cons] at h
      omega
    have ih := cnt_set t idx h2 w y
    have hset : (b :: t).set (idx + 1) w = b :: t.set idx w := rfl
    have hget : (b :: t).get ⟨idx + 1, h⟩ = t.get ⟨idx, h2⟩ := rfl
    rw [hset, hget]
    simp only [cnt_cons, cnt_nil] at ih ⊢
    omega

theorem zip_append_eq {β γ : Type} :
    ∀ (l1 : List β) (l2 : List γ) (x : β) (y : γ), l1.length = l2.length →
      (l1 ++ [x]).zip (l2 ++ [y]) = l1.zip l2 ++ [(x, y)]
  | [], [], x, y, _ => rfl
  | [], b :: t, x, y, h => by simp at h
  | a :: s, [], x, y, h => by simp at h
  | a :: s, b :: t, x, y, h => by
    simp only [List.length_cons, Nat.succ.injEq] at h
    simp [List.zip_cons_cons, zip_append_eq s t x y h]

theorem zip_set_right {β γ : Type} :
    ∀ (l1 : List β) (l2 : List γ) (idx : Nat) (h1 : idx < l1.length)
      (v : γ), l1.zip (l2.set idx v) = (l1.zip l2).set idx (l1.get ⟨idx, h1⟩, v)
  | [], _, idx, h1, _ => absurd h1 (by simp)
  | a :: s, [], idx, h1, v => by simp
  | a :: s, b :: t, 0, h1, v => by simp [List.zip_cons_cons]
  | a :: s, b :: t, idx + 1, h1, v => by
    have h2 : idx < s.length := by
      simp only [List.length_cons] at h1
      omega
    have hset : (b :: t).set (idx + 1) v = b :: t.set idx v := rfl
    rw [hset, List.zip_cons_cons, zip_set_right s t idx h2 v]
    rfl

theorem zip_snd_of_len {β γ : Type} :
    ∀ (l1 : List β) (l2 : List γ), l1.length = l2.length →
      (l1.zip l2).map Prod.snd = l2
  | [], [], _ => rfl
  | [], b :: t, h => by simp at h
  | a :: s, [], h => by simp at h
  | a :: s, b :: t, h => by
    simp only [List.length_cons, Nat.succ.injEq] at h
    simp [List.zip_cons_cons, zip_snd_of_len s t h]

theorem idxOf?_lt_length {l : List (Option ℚ)} {a : Option ℚ} :
    ∀ {idx : Nat}, idxOf? l a = some idx → idx < l.length := by
  induction l with
  | nil => intro idx h; simp [idxOf?] at h
  | cons b t ih =>
    intro idx h
    simp only [idxOf?] at h
    by_cases hb : b = a
    · rw [if_pos hb] at h
      injection h with h
      subst h
      simp
    · rw [if_neg hb] at h
      cases ht : idxOf? t a with
      | none => rw [ht] at h; exact Option.noConfusion h
      | some j =>
        rw [ht] at h
        have h3 : some (j + 1) = some idx := h
        injection h3 with h3
        subst h3
        have := ih ht
        simp only [List.length_cons]
        omega

theorem idxOf?_get {l : List (Option ℚ)} {a : Option ℚ} :
    ∀ {idx : Nat} (h : idxOf? l a = some idx) (hh : idx < l.length),
      l.get ⟨idx, hh⟩ = a := by
  induction l with
  | nil => intro idx h; simp [idxOf?] at h
  | cons b t ih =>
    intro idx h hh
    simp only [idxOf?] at h
    by_cases hb : b = a
    · rw [if_pos hb] at h
      injection h with h
      subst h
      exact hb
    · rw [if_neg hb] at h
      cases ht : idxOf? t a with
      | none => rw [ht] at h; exact Option.noConfusion h
      | some j =>
        rw [ht] at h
        have h3 : some (j + 1) = some idx := h
        injection h3 with h3
        subst h3
        exact ih ht (by simp only [List.length_cons] at hh; omega)

theorem lookupA_none_iff {β : Type} (l : List (Func × β)) (k : Func) :
    lookupA l k = none ↔ k ∉ l.map Prod.fst := by
  induction l with
  | nil => simp [lookupA]
  | cons x t ih =>
    simp only [lookupA, List.map_cons, List.mem_cons]
    by_cases hx : x.1 = k
    · simp [hx]
    · simp [hx, ih, Ne.symm hx]

theorem lookupA_decomp {β : Type} {l : List (Func × β)} {k : Func} {v : β}
    (h : lookupA l k = some v) :
    ∃ l1 l2, l = l1 ++ (k, v) :: l2 ∧ k ∉ l1.map Prod.fst ∧
      ∀ w, setA l k w = l1 ++ (k, w) :: l2 := by
  induction l with
  | nil => simp [lookupA] at h
  | cons x t ih =>
    simp only [lookupA] at h
    by_cases hx : x.1 = k
    · rw [if_pos hx] at h
      injection h with h
      refine ⟨[], t, ?_, by simp, ?_⟩
      · have : x = (k, v) := by
          rcases x with ⟨x1, x2⟩
          simp only at hx h
          rw [hx, h]
        simp [this]
      · intro w
        simp [setA, hx]
    · rw [if_neg hx] at h
      obtain ⟨l1, l2, he, hn, hs⟩ := ih h
      refine ⟨x :: l1, l2, by simp [he], ?_, ?_⟩
      · simp only [List.map_cons, List.mem_cons, not_or]
        exact ⟨Ne.symm hx, hn⟩
      · intro w
        simp [setA, hx, hs w]

theorem setA_append_of_none {β : Type} {l : List (Func × β)} {k : Func}
    (h : lookupA l k = none) (v : β) : setA l k v = l ++ [(k, v)] := by
  induction l with
  | nil => rfl
  | cons x t ih =>
    simp only [lookupA] at h
    by_cases hx : x.1 = k
    · rw [if_pos hx] at h
      exact Option.noConfusion h
    · rw [if_neg hx] at h
      simp [setA, hx, ih h]

@[simp] theorem someL_nil : someL [] = [] := rfl

@[simp] theorem someL_cons (x : Func × FuncInfo) (l : List (Func × FuncInfo)) :
    someL (x :: l) = (somePairs x.2).map (fun y => (x.1, y)) ++ someL l := by
  simp [someL]

@[simp] theorem someL_append (l1 l2 : List (Func × FuncInfo)) :
    someL (l1 ++ l2) = someL l1 ++ someL l2 := by
  simp [someL]

@[simp] theorem triZ_nil : triZ [] = [] := rfl

@[simp] theorem triZ_cons (x : Func × FuncInfoZ) (l : List (Func × FuncInfoZ)) :
    triZ (x :: l) = (pairsZ x.2).map (fun y => (x.1, y)) ++ triZ l := by
  simp [triZ]

@[simp] theorem triZ_append (l1 l2 : List (Func × FuncInfoZ)) :
    triZ (l1 ++ l2) = triZ l1 ++ triZ l2 := by
  simp [triZ]

/-- Every meta estimator in the registry has exactly one requirement, on a
base (non-meta) function, and a requirement on a function without a
parameter never supplies an alpha. -/
theorem meta_req (f : Func) (hm : is_meta f = true) :
    ∃ g ra tr, needs_results f = [⟨g, ra, tr⟩] ∧ is_meta g = false ∧
      (needs_alpha g = false → ra = .noAlpha) := by
  cases f
  case bhattacharyya =>
    exact ⟨.alpha_div, .fixed (1/2), false, rfl, rfl, fun h => absurd h (by decide)⟩
  case hellinger =>
    exact ⟨.alpha_div, .fixed (1/2), false, rfl, rfl, fun h => absurd h (by decide)⟩
  case renyi =>
    exact ⟨.alpha_div, .same, false, rfl, rfl, fun h => absurd h (by decide)⟩
  case tsallis =>
    exact ⟨.alpha_div, .same, false, rfl, rfl, fun h => absurd h (by decide)⟩
  case l2 =>
    exact ⟨.linear, .noAlpha, true, rfl, rfl, fun _ => rfl⟩
  case jensen_shannon =>
    exact ⟨.jensen_shannon_core, .noAlpha, true, rfl, rfl, fun _ => rfl⟩
  all_goals exact absurd hm (by decide)

theorem getD_of_lt {α : Type} [Inhabited α] {l : List α} {i : Nat}
    (h : i < l.length) (d : α) : l.getD i d = l.get ⟨i, h⟩ := by
  simp [List.getD, List.getElem?_eq_getElem h]

theorem zip_get_eq {β γ : Type} :
    ∀ (l1 : List β) (l2 : List γ) (i : Nat) (h1 : i < l1.length)
      (h2 : i < l2.length) (hz : i < (l1.zip l2).length),
      (l1.zip l2).get ⟨i, hz⟩ = (l1.get ⟨i, h1⟩, l2.get ⟨i, h2⟩)
  | [], _, i, h1, _, _ => absurd h1 (by simp)
  | a :: s, [], i, _, h2, _ => absurd h2 (by simp)
  | a :: s, b :: t, 0, _, _, _ => rfl
  | a :: s, b :: t, i + 1, h1, h2, hz =>
    zip_get_eq s t i (by simpa using h1) (by simpa using h2) (by simpa using hz)

/-- `add_func` updating an existing entry with a dependency-only occurrence
(`pos=None`): the entry stays well-formed and the caller-visible slots do
not change. -/
theorem updateExisting_none {fname : String} {f : Func} {alpha : Option ℚ}
    {info info2 : FuncInfo} {app : Bool}
    (hwf : WFinfo f info)
    (h : updateExisting fname f alpha none info = .ok (info2, app)) :
    WFinfo f info2 ∧ ∀ y : Option ℚ × Nat,
      cnt y (somePairs info2) = cnt y (somePairs info) := by
  unfold updateExisting at h
  cases hia : info.alphas with
  | none =>
    simp only [WFinfo, hia] at hwf
    obtain ⟨hna, q, hpos⟩ := hwf
    simp only [hna, Bool.not_false, if_true] at h
    injection h with h
    obtain ⟨h1, _⟩ := Prod.mk.injEq .. |>.mp h
    subst h1
    exact ⟨by simp only [WFinfo, hia]; exact ⟨hna, q, hpos⟩, fun y => rfl⟩
  | some as =>
    simp only [WFinfo, hia] at hwf
    obtain ⟨hna, hlen⟩ := hwf
    simp only [hna, Bool.not_true, Bool.false_eq_true, if_false, hia] at h
    cases hidx : idxOf? as alpha with
    | none =>
      simp only [hidx, pure_eq_ok] at h
      injection h with h
      obtain ⟨h1, _⟩ := Prod.mk.injEq .. |>.mp h
      subst h1
      constructor
      · simp only [WFinfo]
        refine ⟨hna, ?_⟩
        simp [hlen]
      · intro y
        have hz : (as ++ [alpha]).zip (info.pos ++ [none])
            = as.zip info.pos ++ [(alpha, (none : Option Nat))] :=
          zip_append_eq as info.pos alpha none hlen
        rcases y with ⟨b, m⟩
        have e2 : cnt (b, m) (somePairs ⟨some (as ++ [alpha]), info.pos ++ [none]⟩)
            = cnt (b, some m) (as.zip info.pos ++ [(alpha, (none : Option Nat))]) := by
          unfold somePairs
          rw [cnt_filterMap_pairs]
          simp only [pairsN]
          rw [hz]
        rw [e2, cnt_append]
        have e3 : cnt (b, some m) [(alpha, (none : Option Nat))] = 0 := by
          simp only [cnt_cons, cnt_nil]
          have : (alpha, (none : Option Nat)) ≠ (b, some m) := by
            intro hc
            exact Option.noConfusion (by injection hc)
          simp [this]
        rw [e3]
        have e4 : cnt (b, m) (somePairs info) = cnt (b, some m) (as.zip info.pos) := by
          unfold somePairs
          rw [cnt_filterMap_pairs]
          simp only [pairsN, hia]
        rw [e4]
        omega
    | some idx =>
      simp only [hidx, pure_eq_ok] at h
      injection h with h
      obtain ⟨h1, _⟩ := Prod.mk.injEq .. |>.mp h
      subst h1
      exact ⟨by simp only [WFinfo, hia]; exact ⟨hna, hlen⟩, fun y => rfl⟩

/-- `add_func` updating an existing entry with a caller slot (`pos=i`): the
entry stays well-formed and the visible slots gain exactly `(alpha, i)`. -/
theorem updateExisting_ok {fname : String} {f : Func} {alpha : Option ℚ} {i : Nat}
    {info info2 : FuncInfo} {app : Bool}
    (hwf : WFinfo f info) (htk : needs_alpha f = false → alpha = none)
    (h : updateExisting fname f alpha (some i) info = .ok (info2, app)) :
    WFinfo f info2 ∧
    ∀ y : Option ℚ × Nat,
      cnt y (somePairs info2) = cnt y (somePairs info)
        + (if (alpha, i) = y then 1 else 0) := by
  unfold updateExisting at h
  cases hia : info.alphas with
  | none =>
    simp only [WFinfo, hia] at hwf
    obtain ⟨hna, q, hpos⟩ := hwf
    simp only [hna, Bool.not_false, if_true] at h
    by_cases hne : info.pos ≠ [none]
    · rw [if_pos hne] at h
      exact Except.noConfusion h
    · rw [if_neg hne] at h
      have hpe : info.pos = [none] := not_not.mp hne
      injection h with h
      obtain ⟨h1, _⟩ := Prod.mk.injEq .. |>.mp h
      subst h1
      have hal : alpha = none := htk hna
      subst hal
      constructor
      · simp only [WFinfo, hia]
        exact ⟨hna, some i, rfl⟩
      · intro y
        have e1 : somePairs ⟨info.alphas, [some i]⟩ = [((none : Option ℚ), i)] := by
          simp [somePairs, pairsN, hia]
        have e2 : somePairs info = [] := by
          simp [somePairs, pairsN, hia, hpe]
        rw [e1, e2]
        simp [cnt]
  | some as =>
    simp only [WFinfo, hia] at hwf
    obtain ⟨hna, hlen⟩ := hwf
    simp only [hna, Bool.not_true, Bool.false_eq_true, if_false, hia] at h
    cases hidx : idxOf? as alpha with
    | none =>
      simp only [hidx, pure_eq_ok] at h
      injection h with h
      obtain ⟨h1, _⟩ := Prod.mk.injEq .. |>.mp h
      subst h1
      constructor
      · simp only [WFinfo]
        refine ⟨hna, ?_⟩
        simp [hlen]
      · intro y
        rcases y with ⟨b, m⟩
        have hz : (as ++ [alpha]).zip (info.pos ++ [some i])
            = as.zip info.pos ++ [(alpha, some i)] :=
          zip_append_eq as info.pos alpha (some i) hlen
        have e2 : cnt (b, m) (somePairs ⟨some (as ++ [alpha]), info.pos ++ [some i]⟩)
            = cnt (b, some m) (as.zip info.pos ++ [(alpha, some i)]) := by
          unfold somePairs
          rw [cnt_filterMap_pairs]
          simp only [pairsN]
          rw [hz]
        rw [e2, cnt_append]
        have e4 : cnt (b, m) (somePairs info) = cnt (b, some m) (as.zip info.pos) := by
          unfold somePairs
          rw [cnt_filterMap_pairs]
          simp only [pairsN, hia]
        rw [e4]
        have e5 : cnt (b, some m) [(alpha, some i)] = if (alpha, i) = (b, m) then 1 else 0 := by
          simp only [cnt_cons, cnt_nil]
          have hiff : ((alpha, some i) = (b, some m)) ↔ ((alpha, i) = (b, m)) := by
            constructor
            · intro hc
              injection hc with hc1 hc2
              injection hc2 with hc2
              rw [hc1, hc2]
            · intro hc
              injection hc with hc1 hc2
              rw [hc1, hc2]
          rw [if_congr hiff rfl rfl]
          simp
        rw [e5]
    | some idx =>
      simp only [hidx] at h
      cases hgd : info.pos.getD idx none with
      | some v =>
        simp only [hgd] at h
        exact Except.noConfusion h
      | none =>
        simp only [hgd, pure_eq_ok] at h
        injection h with h
        obtain ⟨h1, _⟩ := Prod.mk.injEq .. |>.mp h
        subst h1
        have hlt : idx < as.length := idxOf?_lt_length hidx
        have hlt2 : idx < info.pos.length := by omega
        have hget : as.get ⟨idx, hlt⟩ = alpha := idxOf?_get hidx hlt
        have hgn : info.pos.get ⟨idx, hlt2⟩ = none := by
          have := getD_of_lt hlt2 (none : Option Nat)
          rw [this] at hgd
          exact hgd
        constructor
        · simp only [WFinfo, hia]
          refine ⟨hna, ?_⟩
          simp [hlen]
        · intro y
          rcases y with ⟨b, m⟩
          have hzl : idx < (as.zip info.pos).length := by
            simp [List.length_zip]
            omega
          have hz : as.zip (info.pos.set idx (some i))
              = (as.zip info.pos).set idx (alpha, some i) := by
            rw [zip_set_right as info.pos idx hlt (some i), hget]
          have hold : (as.zip info.pos).get ⟨idx, hzl⟩ = (alpha, (none : Option Nat)) := by
            rw [zip_get_eq as info.pos idx hlt hlt2 hzl, hget, hgn]
          have hcs := cnt_set (as.zip info.pos) idx hzl (alpha, some i) (b, some m)
          rw [hold] at hcs
          have e2 : cnt (b, m) (somePairs ⟨some as, info.pos.set idx (some i)⟩)
              = cnt (b, some m) ((as.zip info.pos).set idx (alpha, some i)) := by
            unfold somePairs
            rw [cnt_filterMap_pairs]
            simp only [pairsN]
            rw [hz]
          have e4 : cnt (b, m) (somePairs info) = cnt (b, some m) (as.zip info.pos) := by
            unfold somePairs
            rw [cnt_filterMap_pairs]
            simp only [pairsN, hia]
          have e6 : cnt (b, some m) [(alpha, (none : Option Nat))] = 0 := by
            simp only [cnt_cons, cnt_nil]
            have : (alpha, (none : Option Nat)) ≠ (b, some m) := by
              intro hc
              exact Option.noConfusion (by injection hc)
            simp [this]
          have e7 : cnt (b, some m) [(alpha, some i)]
              = if (alpha, i) = (b, m) then 1 else 0 := by
            simp only [cnt_cons, cnt_nil]
            have hiff : ((alpha, some i) = (b, some m)) ↔ ((alpha, i) = (b, m)) := by
              constructor
              · intro hc
                injection hc with hc1 hc2
                injection hc2 with hc2
                rw [hc1, hc2]
              · intro hc
                injection hc with hc1 hc2
                rw [hc1, hc2]
            rw [if_congr hiff rfl rfl]
            simp
          rw [e2, e4]
          rw [e6, e7] at hcs
          omega

theorem lookupA_some_mem_keys {β : Type} {l : List (Func × β)} {k : Func} {v : β}
    (h : lookupA l k = some v) : k ∈ l.map Prod.fst :=
  List.mem_map.mpr ⟨(k, v), lookupA_mem h, rfl⟩

theorem setA_keys_of_some {β : Type} {l : List (Func × β)} {k : Func} {v : β}
    (h : lookupA l k = some v) (w : β) :
    (setA l k w).map Prod.fst = l.map Prod.fst := by
  obtain ⟨l1, l2, he, _, hs⟩ := lookupA_decomp h
  rw [hs w, he]
  simp

theorem mem_setA_of_some {β : Type} {l : List (Func × β)} {k : Func} {v : β}
    (hnd : (l.map Prod.fst).Nodup) (h : lookupA l k = some v) {w : β}
    {q : Func × β} (hq : q ∈ setA l k w) : q = (k, w) ∨ (q ∈ l ∧ q.1 ≠ k) := by
  obtain ⟨l1, l2, he, hn1, hs⟩ := lookupA_decomp h
  rw [hs w] at hq
  have hn2 : k ∉ l2.map Prod.fst := by
    rw [he] at hnd
    simp only [List.map_append, List.map_cons] at hnd
    have := List.Nodup.of_append_right hnd
    exact (List.nodup_cons.mp this).1
  rcases List.mem_append.mp hq with h1 | h2
  · refine Or.inr ⟨by rw [he]; exact List.mem_append.mpr (Or.inl h1), ?_⟩
    intro hc
    exact hn1 (hc ▸ List.mem_map.mpr ⟨q, h1, rfl⟩)
  · rcases List.mem_cons.mp h2 with h3 | h4
    · exact Or.inl h3
    · refine Or.inr ⟨by rw [he]; exact List.mem_append.mpr (Or.inr (List.mem_cons.mpr (Or.inr h4))), ?_⟩
      intro hc
      exact hn2 (hc ▸ List.mem_map.mpr ⟨q, h4, rfl⟩)

theorem mem_touchKey {md : List (Func × List Func)} {g : Func}
    {q : Func × List Func} (h : q ∈ touchKey md g) :
    q ∈ md ∨ (lookupA md g = none ∧ q = (g, [])) := by
  unfold touchKey at h
  cases hl : lookupA md g with
  | some ps =>
    rw [hl] at h
    exact Or.inl h
  | none =>
    rw [hl] at h
    rcases List.mem_append.mp h with h1 | h2
    · exact Or.inl h1
    · exact Or.inr ⟨rfl, List.mem_singleton.mp h2⟩

theorem touchKey_keys_iff (md : List (Func × List Func)) (g : Func) (x : Func) :
    x ∈ (touchKey md g).map Prod.fst ↔ x ∈ md.map Prod.fst ∨ x = g := by
  unfold touchKey
  cases hl : lookupA md g with
  | some ps =>
    constructor
    · exact Or.inl
    · rintro (h1 | rfl)
      · exact h1
      · exact lookupA_some_mem_keys hl
  | none => simp

theorem touchKey_nodup {md : List (Func × List Func)} {g : Func}
    (hnd : (md.map Prod.fst).Nodup) :
    ((touchKey md g).map Prod.fst).Nodup := by
  unfold touchKey
  cases hl : lookupA md g with
  | some ps => exact hnd
  | none =>
    simp only [List.map_append, List.map_cons, List.map_nil]
    rw [List.nodup_append]
    exact ⟨hnd, List.nodup_singleton g,
      fun x hx hg => ((lookupA_none_iff md g).mp hl)
        (by rcases List.mem_singleton.mp hg with rfl; exact hx)⟩

theorem addEdge_keys_iff (md : List (Func × List Func)) (f dep : Func) (x : Func) :
    x ∈ (addEdge md f dep).map Prod.fst ↔ x ∈ md.map Prod.fst ∨ x = f := by
  unfold addEdge
  cases hl : lookupA md f with
  | some ps =>
    rw [setA_keys_of_some hl]
    constructor
    · exact Or.inl
    · rintro (h1 | rfl)
      · exact h1
      · exact lookupA_some_mem_keys hl
  | none => simp

theorem addEdge_nodup {md : List (Func × List Func)} {f dep : Func}
    (hnd : (md.map Prod.fst).Nodup) :
    ((addEdge md f dep).map Prod.fst).Nodup := by
  unfold addEdge
  cases hl : lookupA md f with
  | some ps =>
    rw [setA_keys_of_some hl]
    exact hnd
  | none =>
    simp only [List.map_append, List.map_cons, List.map_nil]
    rw [List.nodup_append]
    exact ⟨hnd, List.nodup_singleton f,
      fun x hx hg => ((lookupA_none_iff md f).mp hl)
        (by rcases List.mem_singleton.mp hg with rfl; exact hx)⟩

theorem mem_addEdge {md : List (Func × List Func)} {f dep : Func}
    {q : Func × List Func} (hnd : (md.map Prod.fst).Nodup)
    (h : q ∈ addEdge md f dep) :
    (q ∈ md ∧ q.1 ≠ f) ∨
    (∃ ps, lookupA md f = some ps ∧ (f, ps) ∈ md ∧
      q = (f, if dep ∈ ps then ps else ps ++ [dep])) ∨
    (lookupA md f = none ∧ q = (f, [dep])) := by
  unfold addEdge at h
  cases hl : lookupA md f with
  | some ps =>
    rw [hl] at h
    rcases mem_setA_of_some hnd hl h with h1 | h2
    · exact Or.inr (Or.inl ⟨ps, rfl, lookupA_mem hl, h1⟩)
    · exact Or.inl h2
  | none =>
    rw [hl] at h
    rcases List.mem_append.mp h with h1 | h2
    · refine Or.inl ⟨h1, ?_⟩
      intro hc
      exact ((lookupA_none_iff md f).mp hl) (hc ▸ List.mem_map.mpr ⟨q, h1, rfl⟩)
    · exact Or.inr (Or.inr ⟨rfl, List.mem_singleton.mp h2⟩)

/-- One dependency-edge registration (`meta_deps[f].add(g)` plus the
defaultdict touch of `g`) preserves the graph invariant and adds exactly the
keys `f` and `g`. -/
theorem md_step {md : List (Func × List Func)} {f g : Func}
    (hmd : WFmd md) (hf : is_meta f = true) (hg : is_meta g = false) :
    WFmd (touchKey (addEdge md f g) g) ∧
    ∀ x, x ∈ (touchKey (addEdge md f g) g).map Prod.fst ↔
      (x ∈ md.map Prod.fst ∨ x = f ∨ x = g) := by
  obtain ⟨hnd, hent⟩ := hmd
  have hkeys : ∀ x, x ∈ (touchKey (addEdge md f g) g).map Prod.fst ↔
      (x ∈ md.map Prod.fst ∨ x = f ∨ x = g) := by
    intro x
    rw [touchKey_keys_iff, addEdge_keys_iff]
    tauto
  refine ⟨⟨touchKey_nodup (addEdge_nodup hnd), ?_⟩, hkeys⟩
  intro q hq
  have hgKeys : g ∈ (touchKey (addEdge md f g) g).map Prod.fst := by
    rw [hkeys]
    exact Or.inr (Or.inr rfl)
  rcases mem_touchKey hq with hq1 | ⟨_, rfl⟩
  · rcases mem_addEdge hnd hq1 with ⟨hqm, _⟩ | ⟨ps, hl, hpm, rfl⟩ | ⟨_, rfl⟩
    · obtain ⟨hmeta, hbase⟩ := hent q hqm
      refine ⟨fun hqf => ?_, hbase⟩
      obtain ⟨hne, helem⟩ := hmeta hqf
      refine ⟨hne, fun x hx => ?_⟩
      obtain ⟨hxb, hxk⟩ := helem x hx
      exact ⟨hxb, (hkeys x).mpr (Or.inl hxk)⟩
    · obtain ⟨hmeta, _⟩ := hent (f, ps) hpm
      obtain ⟨hne, helem⟩ := hmeta hf
      constructor
      · intro _
        constructor
        · by_cases hmem : g ∈ ps
          · simpa [hmem] using hne
          · simp only [hmem, if_false]
            intro hc
            exact hne (List.append_eq_nil.mp hc).1
        · intro x hx
          simp only at hx
          by_cases hmem : g ∈ ps
          · rw [if_pos hmem] at hx
            obtain ⟨hxb, hxk⟩ := helem x hx
            exact ⟨hxb, (hkeys x).mpr (Or.inl hxk)⟩
          · rw [if_neg hmem] at hx
            rcases List.mem_append.mp hx with hx1 | hx2
            · obtain ⟨hxb, hxk⟩ := helem x hx1
              exact ⟨hxb, (hkeys x).mpr (Or.inl hxk)⟩
            · rcases List.mem_singleton.mp hx2 with rfl
              exact ⟨hg, hgKeys⟩
      · intro hcontra
        rw [hf] at hcontra
        exact Bool.noConfusion hcontra
    · constructor
      · intro _
        refine ⟨by simp, fun x hx => ?_⟩
        rcases List.mem_singleton.mp hx with rfl
        exact ⟨hg, hgKeys⟩
      · intro hcontra
        rw [hf] at hcontra
        exact Bool.noConfusion hcontra
  · constructor
    · intro hcontra
      rw [hg] at hcontra
      exact Bool.noConfusion hcontra
    · intro _
      rfl

theorem WFinfo_fresh (f : Func) (alpha : Option ℚ) (pos : Option Nat) :
    WFinfo f ⟨if needs_alpha f then some [alpha] else none, [pos]⟩ := by
  cases hna : needs_alpha f
  · simp only [WFinfo, hna, Bool.false_eq_true, if_false]
    exact ⟨trivial, pos, rfl⟩
  · simp only [WFinfo, hna, if_true]
    exact ⟨trivial, rfl⟩

theorem someL_fresh (f : Func) (alpha : Option ℚ) (i : Nat)
    (htk : needs_alpha f = false → alpha = none) :
    (somePairs ⟨if needs_alpha f then some [alpha] else none, [some i]⟩).map
      (fun y => (f, y)) = [(f, alpha, i)] := by
  cases hna : needs_alpha f
  · rw [htk hna]
    simp [somePairs, pairsN, hna]
  · simp [somePairs, pairsN, hna]

theorem somePairs_fresh_none (g : Func) (al : Option ℚ) :
    somePairs ⟨if needs_alpha g then some [al] else none, [none]⟩ = [] := by
  cases hna : needs_alpha g <;> simp [somePairs, pairsN, hna]

/-- The recursive `add_func(req.func, alpha=req_alpha)` call for a base
dependency: the visible slots, the metas dict and the dependency graph are
all unchanged, and the state stays well-formed. -/
theorem addFuncBase_none {fname : String} {g : Func} {al : Option ℚ} {st st2 : St}
    (hg : is_meta g = false) (hwf : WFSt st)
    (h : addFuncBase fname g al none st = .ok st2) :
    (∀ y, cnt y (stSome st2) = cnt y (stSome st)) ∧ WFSt st2 ∧
    st2.metas = st.metas ∧ st2.meta_deps = st.meta_deps := by
  obtain ⟨hw1, hw2, hw3, hw4⟩ := hwf
  unfold addFuncBase at h
  simp only [hg, Bool.false_eq_true, if_false] at h
  cases hl : lookupA st.funcs g with
  | none =>
    simp only [hl, pure_eq_ok] at h
    injection h with h
    subst h
    refine ⟨?_, ⟨?_, hw2, ?_, hw4⟩, rfl, rfl⟩
    · intro y
      simp [stSome, setA_append_of_none hl, somePairs_fresh_none g al]
    · intro q hq
      simp only [setA_append_of_none hl] at hq
      rcases List.mem_append.mp hq with h1 | h2
      · exact hw1 q h1
      · rcases List.mem_singleton.mp h2 with rfl
        exact ⟨hg, WFinfo_fresh g al none⟩
    · simp only [setA_append_of_none hl, List.map_append, List.map_cons, List.map_nil]
      rw [List.nodup_append]
      exact ⟨hw3, List.nodup_singleton g,
        fun x hx hg2 => ((lookupA_none_iff st.funcs g).mp hl)
          (by rcases List.mem_singleton.mp hg2 with rfl; exact hx)⟩
  | some info =>
    simp only [hl] at h
    cases hu : updateExisting fname g al none info with
    | error e =>
      simp only [hu, err_bind] at h
      exact Except.noConfusion h
    | ok pr =>
      rcases pr with ⟨info2, app⟩
      simp only [hu, ok_bind, pure_eq_ok] at h
      injection h with h
      subst h
      have hwfi : WFinfo g info := (hw1 (g, info) (lookupA_mem hl)).2
      obtain ⟨hwfi2, hcnt⟩ := updateExisting_none hwfi hu
      obtain ⟨l1, l2, he, hn1, hs⟩ := lookupA_decomp hl
      refine ⟨?_, ⟨?_, hw2, ?_, hw4⟩, rfl, rfl⟩
      · intro y
        rcases y with ⟨fy, py⟩
        have e1 : stSome { st with funcs := setA st.funcs g info2 }
            = someL (l1 ++ (g, info2) :: l2) ++ someL st.metas := by
          show someL (setA st.funcs g info2 ++ st.metas) = _
          rw [hs info2, someL_append]
        have e2 : stSome st = someL (l1 ++ (g, info) :: l2) ++ someL st.metas := by
          show someL (st.funcs ++ st.metas) = _
          rw [he, someL_append]
        rw [e1, e2]
        simp only [someL_append, someL_cons, cnt_append]
        rw [cnt_map_pair g fy py, cnt_map_pair g fy py]
        by_cases hfy : fy = g
        · rw [if_pos hfy, if_pos hfy, hcnt py]
        · rw [if_neg hfy, if_neg hfy]
      · intro q hq
        rcases mem_setA_of_some hw3 hl hq with rfl | ⟨hqm, _⟩
        · exact ⟨hg, hwfi2⟩
        · exact hw1 q hqm
      · rw [setA_keys_of_some hl]
        exact hw3

theorem nodup_append_fresh {β : Type} {l : List (Func × β)} {k : Func}
    (hnd : (l.map Prod.fst).Nodup) (hfree : lookupA l k = none) (v : β) :
    ((l ++ [(k, v)]).map Prod.fst).Nodup := by
  simp only [List.map_append, List.map_cons, List.map_nil]
  rw [List.nodup_append]
  exact ⟨hnd, List.nodup_singleton k,
    fun x hx hk => ((lookupA_none_iff l k).mp hfree)
      (by rcases List.mem_singleton.mp hk with rfl; exact hx)⟩

/-- One caller token registered by `add_func(func, alpha, pos=i)`: all parse
invariants are preserved and the caller-visible slot triples gain exactly
`(func, alpha, i)`. -/
theorem addFunc_inv {fname : String} {f : Func} {alpha : Option ℚ} {i : Nat}
    {st st2 : St}
    (hwa : WFAll st) (htk : needs_alpha f = false → alpha = none)
    (h : addFunc fname f alpha (some i) st = .ok st2) :
    WFAll st2 ∧ ∀ y, cnt y (stSome st2) = cnt y (stSome st)
      + (if (f, alpha, i) = y then 1 else 0) := by
  obtain ⟨⟨hw1, hw2, hw3, hw4⟩, hmd, hlink⟩ := hwa
  unfold addFunc at h
  cases hm : is_meta f with
  | false =>
    simp only [hm, Bool.false_eq_true, if_false, Bool.and_false] at h
    cases hl : lookupA st.funcs f with
    | none =>
      simp only [hl, pure_eq_ok] at h
      injection h with h
      subst h
      refine ⟨⟨⟨?_, hw2, ?_, hw4⟩, hmd, hlink⟩, ?_⟩
      · intro q hq
        simp only [setA_append_of_none hl] at hq
        rcases List.mem_append.mp hq with h1 | h2
        · exact hw1 q h1
        · rcases List.mem_singleton.mp h2 with rfl
          exact ⟨hm, WFinfo_fresh f alpha (some i)⟩
      · rw [setA_append_of_none hl]
        exact nodup_append_fresh hw3 hl _
      · intro y
        simp only [stSome]
        rw [setA_append_of_none hl]
        simp only [someL_append, someL_cons, someL_nil, cnt_append,
          List.append_nil]
        rw [someL_fresh f alpha i htk]
        simp only [cnt_cons, cnt_nil]
        omega
    | some info =>
      simp only [hl] at h
      cases hu : updateExisting fname f alpha (some i) info with
      | error e =>
        simp only [hu, err_bind] at h
        exact Except.noConfusion h
      | ok pr =>
        rcases pr with ⟨info2, app⟩
        simp only [hu, ok_bind, Bool.and_false, Bool.false_eq_true, if_false,
          pure_eq_ok] at h
        injection h with h
        subst h
        have hwfi : WFinfo f info := (hw1 (f, info) (lookupA_mem hl)).2
        obtain ⟨hwfi2, hcnt⟩ := updateExisting_ok hwfi htk hu
        obtain ⟨l1, l2, he, hn1, hs⟩ := lookupA_decomp hl
        refine ⟨⟨⟨?_, hw2, ?_, hw4⟩, hmd, hlink⟩, ?_⟩
        · intro q hq
          rcases mem_setA_of_some hw3 hl hq with rfl | ⟨hqm, _⟩
          · exact ⟨hm, hwfi2⟩
          · exact hw1 q hqm
        · rw [setA_keys_of_some hl]
          exact hw3
        · intro y
          rcases y with ⟨fy, py⟩
          have e1 : stSome { st with funcs := setA st.funcs f info2 }
              = someL (l1 ++ (f, info2) :: l2) ++ someL st.metas := by
            show someL (setA st.funcs f info2 ++ st.metas) = _
            rw [hs info2, someL_append]
          have e2 : stSome st = someL (l1 ++ (f, info) :: l2) ++ someL st.metas := by
            show someL (st.funcs ++ st.metas) = _
            rw [he, someL_append]
          rw [e1, e2]
          simp only [someL_append, someL_cons, cnt_append]
          rw [cnt_map_pair f fy py, cnt_map_pair f fy py]
          by_cases hfy : fy = f
          · subst hfy
            simp only [eq_self_iff_true, if_true]
            rw [hcnt py]
            have hiff : ((fy, alpha, i) = (fy, py)) ↔ ((alpha, i) = py) := by
              constructor
              · intro hc
                injection hc with hc1 hc2
              · intro hc
                rw [hc]
            rw [if_congr hiff.symm rfl rfl]
            omega
          · rw [if_neg hfy, if_neg hfy]
            have hne : (f, alpha, i) ≠ (fy, py) := by
              intro hc
              injection hc with hc1 hc2
              exact hfy hc1.symm
            rw [if_neg hne]
            omega
  | true =>
    obtain ⟨g, ra, tr, hreq, hgb, hgtok⟩ := meta_req f hm
    have htkg : needs_alpha g = false → reqAlphaOf ra alpha = none := by
      intro hng
      rw [hgtok hng]
      rfl
    simp only [hm, if_true, Bool.and_true] at h
    cases hl : lookupA st.metas f with
    | none =>
      simp only [hl] at h
      -- the meta entry is fresh: register it, then its single dependency
      -- plus the `meta_deps` edges
      unfold addDeps at h
      rw [hreq] at h
      simp only [List.foldlM_cons, List.foldlM_nil] at h
      have hwfa : WFSt { st with metas := setA st.metas f (FuncInfo.mk (if needs_alpha f then some [alpha] else none) [some i]) } := by
        refine ⟨hw1, ?_, hw3, ?_⟩
        · intro q hq
          simp only [setA_append_of_none hl] at hq
          rcases List.mem_append.mp hq with h1 | h2
          · exact hw2 q h1
          · rcases List.mem_singleton.mp h2 with rfl
            exact ⟨hm, WFinfo_fresh f alpha (some i)⟩
        · show ((setA st.metas f _).map Prod.fst).Nodup
          rw [setA_append_of_none hl]
          exact nodup_append_fresh hw4 hl _
      cases hb : addFuncBase fname g (reqAlphaOf ra alpha) none { st with metas := setA st.metas f (FuncInfo.mk (if needs_alpha f then some [alpha] else none) [some i]) } with
      | error e =>
        simp only [hb, err_bind] at h
        exact Except.noConfusion h
      | ok stb =>
        simp only [hb, ok_bind, if_true, pure_eq_ok] at h
        injection h with h
        subst h
        obtain ⟨hcb, hwfb, hmetasb, hmdb⟩ := addFuncBase_none hgb hwfa hb
        have hmetasb2 : stb.metas = st.metas ++ [(f, FuncInfo.mk (if needs_alpha f then some [alpha] else none) [some i])] := by
          rw [hmetasb]
          show setA st.metas f _ = _
          rw [setA_append_of_none hl]
        have hmdb2 : stb.meta_deps = st.meta_deps := hmdb
        obtain ⟨hmdstep, hkeys⟩ := md_step hmd hm hgb
        refine ⟨⟨?_, ?_, ?_⟩, ?_⟩
        · exact hwfb
        · show WFmd (touchKey (addEdge stb.meta_deps f g) g)
          rw [hmdb2]
          exact hmdstep
        · intro x hx
          show x ∈ stb.metas.map Prod.fst ↔
            x ∈ ((touchKey (addEdge stb.meta_deps f g) g).map Prod.fst)
          rw [hmetasb2, hmdb2, hkeys x]
          simp only [List.map_append, List.map_cons, List.map_nil,
            List.mem_append, List.mem_cons, List.not_mem_nil, or_false]
          constructor
          · rintro (h1 | rfl)
            · exact Or.inl ((hlink x hx).mp h1)
            · exact Or.inr (Or.inl rfl)
          · rintro (h1 | rfl | rfl)
            · exact Or.inl ((hlink x hx).mpr h1)
            · exact Or.inr rfl
            · rw [hgb] at hx
              exact Bool.noConfusion hx
        · intro y
          have e0 : stSome { stb with meta_deps := touchKey (addEdge stb.meta_deps f g) g } = stSome stb := rfl
          rw [e0, hcb y]
          simp only [stSome]
          rw [setA_append_of_none hl]
          simp only [someL_append, someL_cons, someL_nil, cnt_append,
            List.append_nil]
          rw [someL_fresh f alpha i htk]
          simp only [cnt_cons, cnt_nil]
          omega
    | some info =>
      simp only [hl] at h
      cases hu : updateExisting fname f alpha (some i) info with
      | error e =>
        simp only [hu, err_bind] at h
        exact Except.noConfusion h
      | ok pr =>
        rcases pr with ⟨info2, app⟩
        simp only [hu, ok_bind] at h
        have hwfi : WFinfo f info := (hw2 (f, info) (lookupA_mem hl)).2
        obtain ⟨hwfi2, hcnt⟩ := updateExisting_ok hwfi htk hu
        obtain ⟨l1, l2, he, hn1, hs⟩ := lookupA_decomp hl
        have hwfa : WFSt { st with metas := setA st.metas f info2 } := by
          refine ⟨hw1, ?_, hw3, ?_⟩
          · intro q hq
            rcases mem_setA_of_some hw4 hl hq with rfl | ⟨hqm, _⟩
            · exact ⟨hm, hwfi2⟩
            · exact hw2 q hqm
          · show ((setA st.metas f info2).map Prod.fst).Nodup
            rw [setA_keys_of_some hl]
            exact hw4
        have hlink2 : mdLink { st with metas := setA st.metas f info2 } := by
          intro x hx
          show x ∈ (setA st.metas f info2).map Prod.fst ↔
            x ∈ st.meta_deps.map Prod.fst
          rw [setA_keys_of_some hl]
          exact hlink x hx
        have hcntA : ∀ y, cnt y (stSome { st with metas := setA st.metas f info2 })
            = cnt y (stSome st) + (if (f, alpha, i) = y then 1 else 0) := by
          intro y
          rcases y with ⟨fy, py⟩
          have e1 : stSome { st with metas := setA st.metas f info2 }
              = someL st.funcs ++ someL (l1 ++ (f, info2) :: l2) := by
            show someL (st.funcs ++ setA st.metas f info2) = _
            rw [hs info2, someL_append]
          have e2 : stSome st = someL st.funcs ++ someL (l1 ++ (f, info) :: l2) := by
            show someL (st.funcs ++ st.metas) = _
            rw [he, someL_append]
          rw [e1, e2]
          simp only [someL_append, someL_cons, cnt_append]
          rw [cnt_map_pair f fy py, cnt_map_pair f fy py]
          by_cases hfy : fy = f
          · subst hfy
            simp only [eq_self_iff_true, if_true]
            rw [hcnt py]
            have hiff : ((fy, alpha, i) = (fy, py)) ↔ ((alpha, i) = py) := by
              constructor
              · intro hc
                injection hc with hc1 hc2
              · intro hc
                rw [hc]
            rw [if_congr hiff.symm rfl rfl]
            omega
          · rw [if_neg hfy, if_neg hfy]
            have hne : (f, alpha, i) ≠ (fy, py) := by
              intro hc
              injection hc with hc1 hc2
              exact hfy hc1.symm
            rw [if_neg hne]
            omega
        cases happ : app with
        | false =>
          rw [happ] at h
          simp only [Bool.false_eq_true, if_false, pure_eq_ok] at h
          injection h with h
          subst h
          exact ⟨⟨hwfa, hmd, hlink2⟩, hcntA⟩
        | true =>
          rw [happ] at h
          simp only [eq_self_iff_true, if_true] at h
          unfold addDeps at h
          rw [hreq] at h
          simp only [List.foldlM_cons, List.foldlM_nil] at h
          cases hb : addFuncBase fname g (reqAlphaOf ra alpha) none
              { st with metas := setA st.metas f info2 } with
          | error e =>
            simp only [hb, err_bind] at h
            exact Except.noConfusion h
          | ok stb =>
            simp only [hb, ok_bind, Bool.false_eq_true, if_false,
              pure_eq_ok] at h
            injection h with h
            subst h
            obtain ⟨hcb, hwfb, hmetasb, hmdb⟩ := addFuncBase_none hgb hwfa hb
            refine ⟨⟨hwfb, ?_, ?_⟩, ?_⟩
            · show WFmd stb.meta_deps
              rw [hmdb]
              exact hmd
            · intro x hx
              show x ∈ stb.metas.map Prod.fst ↔ x ∈ stb.meta_deps.map Prod.fst
              rw [hmetasb, hmdb]
              show x ∈ (setA st.metas f info2).map Prod.fst ↔ _
              rw [setA_keys_of_some hl]
              exact hlink x hx
            · intro y
              rw [hcb y]
              exact hcntA y

/-- The main loop of `_parse_specs` over resolved tokens: invariants hold
and the visible slot triples are exactly one `(func, alpha, index)` triple
per token. -/
theorem addTokens_inv :
    ∀ (ts : List (String × Func × Option ℚ)) (i : Nat) (st st2 : St),
      addTokens ts i st = .ok st2 → WFAll st → (∀ t ∈ ts, tokOK t) →
      WFAll st2 ∧ ∀ y, cnt y (stSome st2)
        = cnt y (stSome st) + cnt y (tokenTriples i ts) := by
  intro ts
  induction ts with
  | nil =>
    intro i st st2 h hwa _
    simp only [addTokens, pure_eq_ok] at h
    injection h with h
    subst h
    exact ⟨hwa, fun y => by simp [tokenTriples]⟩
  | cons t rest ih =>
    intro i st st2 h hwa htk
    rcases t with ⟨fname, f, alpha⟩
    simp only [addTokens] at h
    cases ha : addFunc fname f alpha (some i) st with
    | error e =>
      simp only [ha, err_bind] at h
      exact Except.noConfusion h
    | ok stm =>
      simp only [ha, ok_bind] at h
      have htk1 : tokOK (fname, f, alpha) := htk (fname, f, alpha) (by simp)
      obtain ⟨hwa1, hc1⟩ := addFunc_inv hwa htk1 ha
      obtain ⟨hwa2, hc2⟩ := ih (i + 1) stm st2 h hwa1
        (fun q hq => htk q (by simp [hq]))
      refine ⟨hwa2, fun y => ?_⟩
      rw [hc2 y, hc1 y]
      simp only [tokenTriples, cnt_cons]
      omega

/-- The tokens produced by `resolveToken` satisfy the parameter-presence
discipline. -/
theorem resolveToken_tokOK {s : String} {t : String × Func × Option ℚ}
    (h : resolveToken s = .ok t) : tokOK t := by
  unfold resolveToken at h
  rcases hsp : splitSpec s with ⟨name, alphaStr⟩
  rw [hsp] at h
  cases alphaStr with
  | none =>
    simp only [pure_eq_ok, ok_bind] at h
    cases hfm : func_mapping name with
    | none =>
      simp only [hfm, throw_eq_error, err_bind] at h
      exact Except.noConfusion h
    | some f =>
      simp only [hfm, pure_eq_ok, ok_bind] at h
      by_cases hna : needs_alpha f
      · simp only [hna, Option.isNone_none, Bool.and_true, if_true,
          throw_eq_error] at h
        exact Except.noConfusion h
      · simp only [Bool.not_eq_true] at hna
        simp only [hna, Option.isNone_none, Bool.false_and, Bool.and_true,
          Bool.false_eq_true, if_false, Bool.not_false, Option.isSome_none,
          Bool.and_false, pure_eq_ok] at h
        injection h with h
        subst h
        intro _
        rfl
  | some astr =>
    cases hpf : parseFloat astr with
    | none =>
      simp only [hpf, throw_eq_error, err_bind] at h
      exact Except.noConfusion h
    | some q =>
      simp only [hpf, pure_eq_ok, ok_bind] at h
      cases hfm : func_mapping name with
      | none =>
        simp only [hfm, throw_eq_error, err_bind] at h
        exact Except.noConfusion h
      | some f =>
        simp only [hfm, pure_eq_ok, ok_bind] at h
        by_cases hna : needs_alpha f
        · simp only [hna, Option.isNone_some, Bool.and_false,
            Bool.false_eq_true, if_false, Bool.not_true, Bool.false_and,
            pure_eq_ok] at h
          injection h with h
          subst h
          intro hc
          rw [hna] at hc
          exact Bool.noConfusion hc
        · simp only [Bool.not_eq_true] at hna
          simp only [hna, Option.isNone_some, Bool.and_false,
            Bool.false_eq_true, if_false, Bool.not_false, Option.isSome_some,
            Bool.true_and, Bool.and_true, if_true, throw_eq_error] at h
          exact Except.noConfusion h

theorem renumberPos_fst : ∀ (ps : List (Option Nat)) (c : Nat),
    (renumberPos c ps).1 = c + cnt none ps := by
  intro ps
  induction ps with
  | nil => intro c; simp [renumberPos]
  | cons p t ih =>
    intro c
    cases p with
    | some n =>
      rcases hr : renumberPos c t with ⟨c2, r⟩
      have h1 := ih c
      rw [hr] at h1
      simp only [renumberPos, hr, cnt_cons]
      simp only at h1
      simp [h1]
    | none =>
      rcases hr : renumberPos (c + 1) t with ⟨c2, r⟩
      have h1 := ih (c + 1)
      rw [hr] at h1
      simp only [renumberPos, hr, cnt_cons]
      simp only at h1
      simp [h1]
      omega

theorem renumberPos_len : ∀ (ps : List (Option Nat)) (c : Nat),
    (renumberPos c ps).2.length = ps.length := by
  intro ps
  induction ps with
  | nil => intro c; simp [renumberPos]
  | cons p t ih =>
    intro c
    cases p with
    | some n =>
      rcases hr : renumberPos c t with ⟨c2, r⟩
      have h1 := ih c
      rw [hr] at h1
      simp only [renumberPos, hr]
      simpa using h1
    | none =>
      rcases hr : renumberPos (c + 1) t with ⟨c2, r⟩
      have h1 := ih (c + 1)
      rw [hr] at h1
      simp only [renumberPos, hr]
      simpa using h1

theorem renumberPos_pos_cnt : ∀ (ps : List (Option Nat)) (c n : Nat),
    cnt ((n : Nat) : Int) (renumberPos c ps).2 = cnt (some n) ps := by
  intro ps
  induction ps with
  | nil => intro c n; simp [renumberPos]
  | cons p t ih =>
    intro c n
    cases p with
    | some m =>
      rcases hr : renumberPos c t with ⟨c2, r⟩
      have h1 := ih c n
      rw [hr] at h1
      simp only [renumberPos, hr, cnt_cons]
      simp only at h1
      rw [h1]
      have hiff : (((m : Nat) : Int) = ((n : Nat) : Int)) ↔ (some m = some n) := by
        constructor
        · intro hc
          rw [Option.some.injEq]
          exact_mod_cast hc
        · intro hc
          injection hc with hc
          rw [hc]
      rw [if_congr hiff rfl rfl]
    | none =>
      rcases hr : renumberPos (c + 1) t with ⟨c2, r⟩
      have h1 := ih (c + 1) n
      rw [hr] at h1
      simp only [renumberPos, hr, cnt_cons]
      simp only at h1
      rw [h1]
      have hne : ¬(-((c : Int) + 1) = ((n : Nat) : Int)) := by omega
      have hne2 : ¬((none : Option Nat) = some n) := by simp
      rw [if_neg hne, if_neg hne2]

theorem renumberPos_neg_cnt : ∀ (ps : List (Option Nat)) (c : Nat) (z : Int),
    z < 0 → cnt z (renumberPos c ps).2
      = if -(((renumberPos c ps).1 : Int)) ≤ z ∧ z < -(c : Int) then 1 else 0 := by
  intro ps
  induction ps with
  | nil =>
    intro c z hz
    simp only [renumberPos, cnt_nil]
    have : ¬(-((c : Int)) ≤ z ∧ z < -(c : Int)) := by omega
    rw [if_neg this]
  | cons p t ih =>
    intro c z hz
    cases p with
    | some n =>
      rcases hr : renumberPos c t with ⟨c2, r⟩
      have h1 := ih c z hz
      rw [hr] at h1
      simp only [renumberPos, hr, cnt_cons]
      simp only at h1
      rw [h1]
      have hne : ¬(((n : Nat) : Int) = z) := by omega
      rw [if_neg hne]
      omega
    | none =>
      rcases hr : renumberPos (c + 1) t with ⟨c2, r⟩
      have h1 := ih (c + 1) z hz
      rw [hr] at h1
      simp only [renumberPos, hr, cnt_cons]
      simp only at h1
      rw [h1]
      have hge : c + 1 ≤ c2 := by
        have := renumberPos_fst t (c + 1)
        rw [hr] at this
        simp only at this
        omega
      split_ifs <;> omega

theorem renumberPos_zip_cnt : ∀ (ps : List (Option Nat)) (as : List (Option ℚ))
    (c : Nat), as.length = ps.length → ∀ (a : Option ℚ) (n : Nat),
      cnt (a, ((n : Nat) : Int)) (as.zip (renumberPos c ps).2)
        = cnt (a, some n) (as.zip ps) := by
  intro ps
  induction ps with
  | nil =>
    intro as c hlen a n
    rcases as with _ | ⟨b, bs⟩
    · simp [renumberPos]
    · simp at hlen
  | cons p t ih =>
    intro as c hlen a n
    rcases as with _ | ⟨b, bs⟩
    · simp at hlen
    · simp only [List.length_cons, Nat.succ.injEq] at hlen
      cases p with
      | some m =>
        rcases hr : renumberPos c t with ⟨c2, r⟩
        have h1 := ih bs c hlen a n
        rw [hr] at h1
        simp only [renumberPos, hr, List.zip_cons_cons, cnt_cons]
        simp only at h1
        rw [h1]
        have hiff : ((b, ((m : Nat) : Int)) = (a, ((n : Nat) : Int)))
            ↔ ((b, some m) = (a, some n)) := by
          constructor
          · intro hc
            injection hc with hc1 hc2
            rw [hc1]
            have : m = n := by exact_mod_cast hc2
            rw [this]
          · intro hc
            injection hc with hc1 hc2
            injection hc2 with hc2
            rw [hc1, hc2]
        rw [if_congr hiff rfl rfl]
      | none =>
        rcases hr : renumberPos (c + 1) t with ⟨c2, r⟩
        have h1 := ih bs (c + 1) hlen a n
        rw [hr] at h1
        simp only [renumberPos, hr, List.zip_cons_cons, cnt_cons]
        simp only at h1
        rw [h1]
        have hne : ¬((b, -((c : Int) + 1)) = (a, ((n : Nat) : Int))) := by
          intro hc
          injection hc with hc1 hc2
          omega
        have hne2 : ¬((b, (none : Option Nat)) = (a, some n)) := by
          intro hc
          injection hc with hc1 hc2
          exact Option.noConfusion hc2
        rw [if_neg hne, if_neg hne2]

theorem entry_pos_cnt {f : Func} (info : FuncInfo) (c : Nat)
    (hwf : WFinfo f info) (a : Option ℚ) (n : Nat) :
    cnt (a, ((n : Nat) : Int)) (pairsZ ⟨info.alphas, (renumberPos c info.pos).2⟩)
      = cnt (a, n) (somePairs info) := by
  have hsp : cnt (a, n) (somePairs info) = cnt (a, some n) (pairsN info) := by
    unfold somePairs
    rw [cnt_filterMap_pairs]
  rw [hsp]
  cases hia : info.alphas with
  | none =>
    simp only [pairsZ, pairsN, hia]
    rw [cnt_map_pair none a, cnt_map_pair none a]
    by_cases ha : a = none
    · rw [if_pos ha, if_pos ha, renumberPos_pos_cnt]
    · rw [if_neg ha, if_neg ha]
  | some as =>
    simp only [WFinfo, hia] at hwf
    simp only [pairsZ, pairsN, hia]
    exact renumberPos_zip_cnt info.pos as c hwf.2 a n

theorem entry_neg_cnt {f : Func} (info : FuncInfo) (c : Nat) (z : Int)
    (hz : z < 0) (hwf : WFinfo f info) :
    cnt z ((pairsZ ⟨info.alphas, (renumberPos c info.pos).2⟩).map (fun y => y.2))
      = if -(((renumberPos c info.pos).1 : Int)) ≤ z ∧ z < -(c : Int)
        then 1 else 0 := by
  cases hia : info.alphas with
  | none =>
    simp only [pairsZ, hia, List.map_map]
    have : ((fun y => y.2) ∘ fun q => ((none : Option ℚ), q))
        = (id : Int → Int) := rfl
    rw [this, List.map_id]
    exact renumberPos_neg_cnt info.pos c z hz
  | some as =>
    simp only [WFinfo, hia] at hwf
    simp only [pairsZ, hia]
    have hlen : as.length = (renumberPos c info.pos).2.length := by
      rw [renumberPos_len]
      exact hwf.2
    have : (as.zip (renumberPos c info.pos).2).map (fun y => y.2)
        = (renumberPos c info.pos).2 := zip_snd_of_len as _ hlen
    rw [this]
    exact renumberPos_neg_cnt info.pos c z hz

theorem renumberList_keys : ∀ (l : List (Func × FuncInfo)) (c : Nat),
    ((renumberList c l).2).map Prod.fst = l.map Prod.fst := by
  intro l
  induction l with
  | nil => intro c; simp [renumberList]
  | cons q t ih =>
    intro c
    rcases q with ⟨g, info⟩
    rcases hp : renumberPos c info.pos with ⟨c1, qs⟩
    rcases hr : renumberList c1 t with ⟨c2, r⟩
    have h1 := ih c1
    rw [hr] at h1
    simp only [renumberList, hp, hr, List.map_cons]
    simp only at h1
    rw [h1]

theorem renumberList_ge : ∀ (l : List (Func × FuncInfo)) (c : Nat),
    c ≤ (renumberList c l).1 := by
  intro l
  induction l with
  | nil => intro c; simp [renumberList]
  | cons q t ih =>
    intro c
    rcases q with ⟨g, info⟩
    rcases hp : renumberPos c info.pos with ⟨c1, qs⟩
    rcases hr : renumberList c1 t with ⟨c2, r⟩
    have h1 := ih c1
    rw [hr] at h1
    simp only [renumberList, hp, hr]
    have h2 : c ≤ c1 := by
      have := renumberPos_fst info.pos c
      rw [hp] at this
      simp only at this
      omega
    simp only at h1
    omega

theorem renumberList_pos_cnt : ∀ (l : List (Func × FuncInfo)) (c : Nat),
    (∀ q ∈ l, WFinfo q.1 q.2) → ∀ (g : Func) (a : Option ℚ) (n : Nat),
      cnt (g, a, ((n : Nat) : Int)) (triZ (renumberList c l).2)
        = cnt (g, a, n) (someL l) := by
  intro l
  induction l with
  | nil => intro c _ g a n; simp [renumberList]
  | cons q t ih =>
    intro c hwf g a n
    rcases q with ⟨k, info⟩
    rcases hp : renumberPos c info.pos with ⟨c1, qs⟩
    rcases hr : renumberList c1 t with ⟨c2, r⟩
    have h1 := ih c1 (fun q hq => hwf q (by simp [hq])) g a n
    rw [hr] at h1
    simp only [renumberList, hp, hr, triZ_cons, someL_cons, cnt_append]
    simp only at h1
    rw [h1]
    rw [cnt_map_pair k g (a, ((n : Nat) : Int)), cnt_map_pair k g (a, n)]
    by_cases hg : g = k
    · rw [if_pos hg, if_pos hg]
      have hwfk : WFinfo k info := hwf (k, info) (by simp)
      have := entry_pos_cnt (f := k) info c hwfk a n
      rw [hp] at this
      simp only at this
      rw [this]
    · rw [if_neg hg, if_neg hg]

theorem renumberList_neg_cnt : ∀ (l : List (Func × FuncInfo)) (c : Nat),
    (∀ q ∈ l, WFinfo q.1 q.2) → ∀ (z : Int), z < 0 →
      cnt z ((triZ (renumberList c l).2).map (fun t => t.2.2))
        = if -(((renumberList c l).1 : Int)) ≤ z ∧ z < -(c : Int)
          then 1 else 0 := by
  intro l
  induction l with
  | nil =>
    intro c _ z hz
    simp only [renumberList, triZ_nil, List.map_nil, cnt_nil]
    have : ¬(-((c : Int)) ≤ z ∧ z < -(c : Int)) := by omega
    rw [if_neg this]
  | cons q t ih =>
    intro c hwf z hz
    rcases q with ⟨k, info⟩
    rcases hp : renumberPos c info.pos with ⟨c1, qs⟩
    rcases hr : renumberList c1 t with ⟨c2, r⟩
    have h1 := ih c1 (fun q hq => hwf q (by simp [hq])) z hz
    rw [hr] at h1
    simp only [renumberList, hp, hr, triZ_cons, List.map_append, cnt_append]
    simp only at h1
    rw [h1]
    have hwfk : WFinfo k info := hwf (k, info) (by simp)
    have hent := entry_neg_cnt (f := k) info c z hz hwfk
    rw [hp] at hent
    simp only at hent
    have hmap : (((pairsZ ⟨info.alphas, qs⟩).map (fun y => (k, y))).map
        (fun t => t.2.2)) = (pairsZ ⟨info.alphas, qs⟩).map (fun y => y.2) := by
      simp [List.map_map]
    rw [hmap, hent]
    have hge1 : c ≤ c1 := by
      have := renumberPos_fst info.pos c
      rw [hp] at this
      simp only at this
      omega
    have hge2 : c1 ≤ c2 := by
      have := renumberList_ge t c1
      rw [hr] at this
      exact this
    split_ifs <;> omega

theorem discardNode_keys {α : Type} [DecidableEq α] (n : α)
    (deps : List (α × List α)) :
    (discardNode n deps).map Prod.fst = deps.map Prod.fst := by
  simp [discardNode, List.map_map]

theorem moveAvailable_parts {α : Type} (deps : List (α × List α)) :
    (moveAvailable deps).1 = deps.filter (fun p => !p.2.isEmpty) ∧
    (moveAvailable deps).2 = (deps.filter (fun p => p.2.isEmpty)).map Prod.fst :=
  ⟨rfl, rfl⟩

theorem filter_isEmpty_split {α : Type} (deps : List (α × List α)) :
    (deps.filter (fun p => !p.2.isEmpty) ++ deps.filter (fun p => p.2.isEmpty)).Perm
      deps := by
  have hpp := List.filter_append_perm (fun (pr : α × List α) => !pr.2.isEmpty) deps
  have hff : deps.filter (fun pr => !(!pr.2.isEmpty))
      = deps.filter (fun pr => pr.2.isEmpty) := by
    apply List.filter_congr
    intro x _
    simp [Bool.not_not]
  rw [hff] at hpp
  exact hpp

/-- The drain loop of `topological_sort`: with enough fuel, parents always
among the available nodes, and every dependency list nonempty, the loop
empties `available` and emits every node exactly once. -/
theorem tsortGo_spec {α : Type} [DecidableEq α] :
    ∀ (fuel : Nat) (deps : List (α × List α)) (avail order : List α),
      deps.length + avail.length ≤ fuel →
      (∀ q ∈ deps, q.2 ≠ [] ∧ ∀ x ∈ q.2, x ∈ avail) →
      ∃ ord2, tsortGo fuel deps avail order = ([], ord2) ∧
        ord2.Perm (order ++ deps.map Prod.fst ++ avail) := by
  intro fuel
  induction fuel with
  | zero =>
    intro deps avail order hfuel hinv
    cases avail with
    | nil =>
      refine ⟨order, rfl, ?_⟩
      have hdeps : deps = [] := by
        rw [List.eq_nil_iff_forall_not_mem]
        intro q hq
        obtain ⟨hne, hsub⟩ := hinv q hq
        cases hqe : q.2 with
        | nil => exact hne hqe
        | cons x xs =>
          have hx : x ∈ ([] : List α) := hsub x (by rw [hqe]; simp)
          simp at hx
      rw [hdeps]
      simp
    | cons n rest =>
      simp only [List.length_cons] at hfuel
      omega
  | succ fuel ih =>
    intro deps avail order hfuel hinv
    cases avail with
    | nil =>
      refine ⟨order, rfl, ?_⟩
      have hdeps : deps = [] := by
        rw [List.eq_nil_iff_forall_not_mem]
        intro q hq
        obtain ⟨hne, hsub⟩ := hinv q hq
        cases hqe : q.2 with
        | nil => exact hne hqe
        | cons x xs =>
          have hx : x ∈ ([] : List α) := hsub x (by rw [hqe]; simp)
          simp at hx
      rw [hdeps]
      simp
    | cons n rest =>
      rcases hmv : moveAvailable (discardNode n deps) with ⟨deps3, more⟩
      have hd3 : deps3 = (discardNode n deps).filter (fun p => !p.2.isEmpty) := by
        have := (moveAvailable_parts (discardNode n deps)).1
        rw [hmv] at this
        exact this
      have hmore : more = ((discardNode n deps).filter
          (fun p => p.2.isEmpty)).map Prod.fst := by
        have := (moveAvailable_parts (discardNode n deps)).2
        rw [hmv] at this
        exact this
      have hsplit : (deps3.map Prod.fst ++ more).Perm (deps.map Prod.fst) := by
        rw [hd3, hmore, ← List.map_append]
        have := (filter_isEmpty_split (discardNode n deps)).map Prod.fst
        rw [discardNode_keys] at this
        exact this
      have hlen3 : deps3.length + more.length = deps.length := by
        have h1 := (filter_isEmpty_split (discardNode n deps)).length_eq
        simp only [List.length_append] at h1
        have h2 : (discardNode n deps).length = deps.length := by
          simp [discardNode]
        rw [hd3, hmore]
        simp only [List.length_map]
        omega
      have hfuel2 : deps3.length + (rest ++ more).length ≤ fuel := by
        simp only [List.length_append, List.length_cons] at hfuel ⊢
        omega
      have hinv2 : ∀ q ∈ deps3, q.2 ≠ [] ∧ ∀ x ∈ q.2, x ∈ rest ++ more := by
        intro q hq
        rw [hd3] at hq
        have hq2 := List.mem_filter.mp hq
        obtain ⟨hqd, hqne⟩ := hq2
        constructor
        · intro hc
          rw [hc] at hqne
          simp at hqne
        · intro x hx
          obtain ⟨q0, hq0, hq0e⟩ := List.mem_map.mp hqd
          have hx2 : x ∈ q0.2.filter (fun y => y ≠ n) := by
            rw [← hq0e] at hx
            exact hx
          have hx3 := List.mem_filter.mp hx2
          have hxn : x ≠ n := by
            have := hx3.2
            simpa using this
          have hxa : x ∈ n :: rest := (hinv q0 hq0).2 x hx3.1
          rcases List.mem_cons.mp hxa with rfl | hxr
          · exact absurd rfl hxn
          · exact List.mem_append.mpr (Or.inl hxr)
      obtain ⟨ord2, heq, hperm⟩ := ih deps3 (rest ++ more) (order ++ [n])
        hfuel2 hinv2
      refine ⟨ord2, ?_, ?_⟩
      · show tsortGo (fuel + 1) deps (n :: rest) order = ([], ord2)
        simp only [tsortGo, hmv]
        exact heq
      · rw [List.perm_iff_count] at hperm ⊢
        intro a
        have h1 := hperm a
        have h2 : (deps3.map Prod.fst ++ more).count a
            = (deps.map Prod.fst).count a := hsplit.count_eq a
        simp only [List.count_append, List.count_cons, List.count_nil] at h1 h2 ⊢
        omega

/-- `topological_sort` on a well-formed dependency graph succeeds and emits
every node exactly once. -/
theorem tsort_perm {md : List (Func × List Func)} (hmd : WFmd md) :
    ∃ order, topological_sort md = .ok order ∧
      order.Perm (md.map Prod.fst) := by
  obtain ⟨hnd, hent⟩ := hmd
  rcases hmv : moveAvailable md with ⟨d0, a0⟩
  have hd0 : d0 = md.filter (fun p => !p.2.isEmpty) := by
    have := (moveAvailable_parts md).1
    rw [hmv] at this
    exact this
  have ha0 : a0 = (md.filter (fun p => p.2.isEmpty)).map Prod.fst := by
    have := (moveAvailable_parts md).2
    rw [hmv] at this
    exact this
  have hinv : ∀ q ∈ d0, q.2 ≠ [] ∧ ∀ x ∈ q.2, x ∈ a0 := by
    intro q hq
    rw [hd0] at hq
    obtain ⟨hqm, hqne⟩ := List.mem_filter.mp hq
    have hne : q.2 ≠ [] := by
      intro hc
      rw [hc] at hqne
      simp at hqne
    refine ⟨hne, ?_⟩
    intro x hx
    obtain ⟨hmeta, hbase⟩ := hent q hqm
    cases hqb : is_meta q.1 with
    | false => exact absurd (hbase hqb) hne
    | true =>
      obtain ⟨_, helem⟩ := hmeta hqb
      obtain ⟨hxb, hxk⟩ := helem x hx
      obtain ⟨qx, hqx, hqxe⟩ := List.mem_map.mp hxk
      have hx0 : qx.2 = [] := (hent qx hqx).2 (by rw [hqxe]; exact hxb)
      rw [ha0]
      refine List.mem_map.mpr ⟨qx, ?_, hqxe⟩
      rw [List.mem_filter]
      exact ⟨hqx, by rw [hx0]; rfl⟩
  obtain ⟨ord2, heq, hperm⟩ := tsortGo_spec (d0.length + a0.length) d0 a0 []
    (le_refl _) hinv
  refine ⟨ord2, ?_, ?_⟩
  · unfold topological_sort
    simp only [hmv, heq]
    rfl
  · have hsplit : (d0.map Prod.fst ++ a0).Perm (md.map Prod.fst) := by
      rw [hd0, ha0, ← List.map_append]
      exact (filter_isEmpty_split md).map Prod.fst
    rw [List.perm_iff_count] at hperm hsplit ⊢
    intro a
    have h1 := hperm a
    have h2 := hsplit a
    simp only [List.count_append, List.count_nil, List.nil_append] at h1 h2 ⊢
    omega

theorem pure_bind_ex {α β : Type} (a : α) (f : α → Except Err β) :
    (pure a : Except Err α) >>= f = f a := rfl

theorem mapM_fill_proj {fz mzAll : List (Func × FuncInfoZ)} :
    ∀ (mz : List (Func × FuncInfoZ)) (l2 : List (Func × MetaInfoZ)),
      (mz.mapM (fun p => do
        let d ← fillOne fz mzAll p.1 p.2
        pure (p.1, MetaInfoZ.mk p.2.alphas p.2.pos d)) : Except Err _) = .ok l2 →
      l2.map (fun q => (q.1, FuncInfoZ.mk q.2.alphas q.2.pos)) = mz := by
  intro mz
  induction mz with
  | nil =>
    intro l2 h
    simp only [List.mapM_nil, pure_eq_ok] at h
    injection h with h
    rw [← h]
    rfl
  | cons p t ih =>
    intro l2 h
    rw [List.mapM_cons] at h
    simp only [pure_eq_ok] at h
    cases hf : fillOne fz mzAll p.1 p.2 with
    | error e =>
      simp only [hf, err_bind] at h
      exact Except.noConfusion h
    | ok d =>
      simp only [hf, ok_bind] at h
      cases ht : (t.mapM (fun p => do
          let d ← fillOne fz mzAll p.1 p.2
          Except.ok (p.1, MetaInfoZ.mk p.2.alphas p.2.pos d)) :
          Except Err (List (Func × MetaInfoZ))) with
      | error e =>
        rw [ht] at h
        simp only [err_bind] at h
        exact Except.noConfusion h
      | ok bs =>
        rw [ht] at h
        simp only [ok_bind] at h
        injection h with h
        rw [← h]
        have hbs := ih bs (by simp only [pure_eq_ok]; exact ht)
        simp only [List.map_cons, hbs]

theorem mapM_lookup_eq {l : List (Func × MetaInfoZ)} :
    ∀ (ks : List Func) (mo : List (Func × MetaInfoZ)),
      (ks.mapM (fun f => match lookupA l f with
        | some mi => pure (f, mi)
        | none => throw .internal) : Except Err _) = .ok mo →
      mo = ks.filterMap (fun k => (lookupA l k).map (fun v => (k, v))) := by
  intro ks
  induction ks with
  | nil =>
    intro mo h
    simp only [List.mapM_nil, pure_eq_ok] at h
    injection h with h
    rw [← h]
    rfl
  | cons k t ih =>
    intro mo h
    rw [List.mapM_cons] at h
    simp only [pure_eq_ok] at h
    cases hlk : lookupA l k with
    | none =>
      simp only [hlk, throw_eq_error, err_bind] at h
      exact Except.noConfusion h
    | some v =>
      simp only [hlk, ok_bind] at h
      cases ht : (t.mapM (fun f => match lookupA l f with
          | some mi => Except.ok (f, mi)
          | none => throw .internal) : Except Err (List (Func × MetaInfoZ))) with
      | error e =>
        rw [ht] at h
        simp only [err_bind] at h
        exact Except.noConfusion h
      | ok bs =>
        rw [ht] at h
        simp only [ok_bind] at h
        injection h with h
        have hbs := ih bs (by simp only [pure_eq_ok]; exact ht)
        have hstep : ((k :: t).filterMap (fun x => (lookupA l x).map (fun w => (x, w))))
            = (k, v) :: t.filterMap (fun x => (lookupA l x).map (fun w => (x, w))) := by
          rw [List.filterMap_cons, hlk]
          rfl
        rw [← h, hstep, hbs]

theorem filterMap_lookup_self : ∀ (l : List (Func × MetaInfoZ)),
    (l.map Prod.fst).Nodup →
    (l.map Prod.fst).filterMap (fun k => (lookupA l k).map (fun v => (k, v))) = l := by
  intro l
  induction l with
  | nil => intro _; rfl
  | cons q t ih =>
    intro hnd
    rcases q with ⟨k, v⟩
    simp only [List.map_cons, List.nodup_cons] at hnd
    obtain ⟨hk, hnd2⟩ := hnd
    have hlk : lookupA ((k, v) :: t) k = some v := by
      show (if k = k then some v else lookupA t k) = some v
      rw [if_pos rfl]
    show ((k :: t.map Prod.fst).filterMap
        (fun x => (lookupA ((k, v) :: t) x).map (fun w => (x, w))))
      = (k, v) :: t
    have hstep : ((k :: t.map Prod.fst).filterMap
        (fun x => (lookupA ((k, v) :: t) x).map (fun w => (x, w))))
        = (k, v) :: (t.map Prod.fst).filterMap
          (fun x => (lookupA ((k, v) :: t) x).map (fun w => (x, w))) := by
      rw [List.filterMap_cons, hlk]
      rfl
    rw [hstep]
    have hcongr : (t.map Prod.fst).filterMap
        (fun x => (lookupA ((k, v) :: t) x).map (fun w => (x, w)))
        = (t.map Prod.fst).filterMap
          (fun x => (lookupA t x).map (fun w => (x, w))) := by
      apply List.filterMap_congr
      intro x hx
      have hxk : ¬(k = x) := by
        intro hc
        rw [hc] at hk
        exact hk hx
      have hlx : lookupA ((k, v) :: t) x = lookupA t x := by
        show (if k = x then some v else lookupA t x) = lookupA t x
        rw [if_neg hxk]
      rw [hlx]
    rw [hcongr, ih hnd2]

theorem lookup_mapM_perm {l : List (Func × MetaInfoZ)} {ks : List Func}
    {mo : List (Func × MetaInfoZ)}
    (hnd : (l.map Prod.fst).Nodup) (hperm : ks.Perm (l.map Prod.fst))
    (h : (ks.mapM (fun f => match lookupA l f with
      | some mi => pure (f, mi)
      | none => throw .internal) : Except Err _) = .ok mo) :
    mo.Perm l := by
  rw [mapM_lookup_eq ks mo h]
  have hp := hperm.filterMap (fun k => (lookupA l k).map (fun v => (k, v)))
  rw [filterMap_lookup_self l hnd] at hp
  exact hp

theorem cnt_triZ_perm {l1 l2 : List (Func × FuncInfoZ)} (h : l1.Perm l2) :
    ∀ t, cnt t (triZ l1) = cnt t (triZ l2) := by
  induction h with
  | nil => intro t; rfl
  | cons x _ ih =>
    intro t
    simp [triZ_cons, ih t]
  | swap x y l =>
    intro t
    simp [triZ_cons]
    omega
  | trans _ _ ih1 ih2 =>
    intro t
    rw [ih1 t, ih2 t]

theorem cnt_slots_perm {l1 l2 : List (Func × FuncInfoZ)} (h : l1.Perm l2) :
    ∀ z : Int, cnt z ((triZ l1).map (fun t => t.2.2))
      = cnt z ((triZ l2).map (fun t => t.2.2)) := by
  induction h with
  | nil => intro z; rfl
  | cons x _ ih =>
    intro z
    simp [triZ_cons, List.map_append, ih z]
  | swap x y l =>
    intro z
    simp [triZ_cons, List.map_append]
    omega
  | trans _ _ ih1 ih2 =>
    intro z
    rw [ih1 z, ih2 z]

/-- The meta keys of the dependency graph match the metas dict, as a
permutation. -/
theorem md_meta_keys_perm {st : St}
    (hw2 : ∀ q ∈ st.metas, is_meta q.1 = true ∧ WFinfo q.1 q.2)
    (hw4 : (st.metas.map Prod.fst).Nodup)
    (hmd : WFmd st.meta_deps) (hlink : mdLink st) :
    ((st.meta_deps.map Prod.fst).filter (fun f => is_meta f)).Perm
      (st.metas.map Prod.fst) := by
  obtain ⟨hnd, _⟩ := hmd
  have h1 : ((st.meta_deps.map Prod.fst).filter (fun f => is_meta f)).Nodup :=
    hnd.filter _
  refine (h1.subperm ?_).antisymm (hw4.subperm ?_)
  · intro x hx
    obtain ⟨hxk, hxm⟩ := List.mem_filter.mp hx
    exact (hlink x hxm).mpr hxk
  · intro x hx
    obtain ⟨q, hq, hqe⟩ := List.mem_map.mp hx
    have hxm : is_meta x = true := by
      rw [← hqe]
      exact (hw2 q hq).1
    rw [List.mem_filter]
    exact ⟨(hlink x hxm).mp hx, by rw [hxm]⟩

/-- The passes of `_parse_specs` after the spec loop preserve the
caller-visible slot triples exactly, and the hidden (negative) slots of the
finished plan are `-1 .. -n_meta_only_`, each exactly once. -/
theorem finishPlan_triples {st : St} {p : Plan}
    (hwa : WFAll st) (h : finishPlan st = .ok p) :
    (∀ (g : Func) (a : Option ℚ) (n : Nat),
      cnt (g, a, ((n : Nat) : Int)) (planTriples p) = cnt (g, a, n) (stSome st)) ∧
    (∀ z : Int, z < 0 → cnt z ((planTriples p).map (fun t => t.2.2))
      = if -((p.nMetaOnly : Int)) ≤ z then 1 else 0) := by
  obtain ⟨⟨hw1, hw2, hw3, hw4⟩, hmd, hlink⟩ := hwa
  unfold finishPlan at h
  rcases hrn : renumberSt st with ⟨fzl, mzl, c2⟩
  simp only [hrn] at h
  rcases hr1 : renumberList 0 st.funcs with ⟨c1, fz1⟩
  rcases hr2 : renumberList c1 st.metas with ⟨c2x, mz1⟩
  have hrn2 : fz1 = fzl ∧ mz1 = mzl ∧ c2x = c2 := by
    unfold renumberSt at hrn
    rw [hr1] at hrn
    simp only at hrn
    rw [hr2] at hrn
    simp only at hrn
    obtain ⟨e1, e23⟩ := Prod.mk.injEq .. |>.mp hrn
    obtain ⟨e2, e3⟩ := Prod.mk.injEq .. |>.mp e23
    exact ⟨e1, e2, e3⟩
  obtain ⟨he1, he2, he3⟩ := hrn2
  subst he1
  subst he2
  subst he3
  cases hm1 : (mz1.mapM (fun p => do
      let d ← fillOne fz1 mz1 p.1 p.2
      pure (p.1, MetaInfoZ.mk p.2.alphas p.2.pos d)) :
      Except Err (List (Func × MetaInfoZ))) with
  | error e =>
    rw [hm1] at h
    simp only [err_bind] at h
    exact Except.noConfusion h
  | ok mzF =>
    rw [hm1] at h
    simp only [ok_bind] at h
    obtain ⟨order0, hord, hperm⟩ := tsort_perm hmd
    rw [hord] at h
    simp only [ok_bind] at h
    cases hm2 : ((order0.filter (fun f => is_meta f)).mapM (fun f =>
        match lookupA mzF f with
        | some mi => pure (f, mi)
        | none => throw .internal) : Except Err (List (Func × MetaInfoZ))) with
    | error e =>
      rw [hm2] at h
      simp only [err_bind] at h
      exact Except.noConfusion h
    | ok mos =>
      rw [hm2] at h
      simp only [ok_bind, pure_eq_ok] at h
      injection h with h
      subst h
      have hproj : mzF.map (fun q => (q.1, FuncInfoZ.mk q.2.alphas q.2.pos))
          = mz1 := mapM_fill_proj mz1 mzF hm1
      have keysF : mzF.map Prod.fst = mz1.map Prod.fst := by
        have h5 : (mzF.map (fun q => (q.1, FuncInfoZ.mk q.2.alphas q.2.pos))).map
            Prod.fst = mz1.map Prod.fst := congrArg (List.map Prod.fst) hproj
        rw [List.map_map] at h5
        exact h5
      have keysM : mz1.map Prod.fst = st.metas.map Prod.fst := by
        have := renumberList_keys st.metas c1
        rw [hr2] at this
        exact this
      have ndF : (mzF.map Prod.fst).Nodup := by
        rw [keysF, keysM]
        exact hw4
      have filtperm : (order0.filter (fun f => is_meta f)).Perm
          (mzF.map Prod.fst) := by
        have hp1 := hperm.filter (fun f => is_meta f)
        have hp2 := md_meta_keys_perm hw2 hw4 hmd hlink
        rw [keysF, keysM]
        exact hp1.trans hp2
      have hmoperm : mos.Perm mzF := lookup_mapM_perm ndF filtperm hm2
      have hmosproj : (mos.map (fun q => (q.1, FuncInfoZ.mk q.2.alphas q.2.pos))).Perm
          mz1 := by
        have := hmoperm.map (fun q => (q.1, FuncInfoZ.mk q.2.alphas q.2.pos))
        rw [hproj] at this
        exact this
      have hwfF : ∀ q ∈ st.funcs, WFinfo q.1 q.2 := fun q hq => (hw1 q hq).2
      have hwfM : ∀ q ∈ st.metas, WFinfo q.1 q.2 := fun q hq => (hw2 q hq).2
      have hgeF : (0 : Nat) ≤ c1 := by omega
      have hge1 : c1 ≤ c2x := by
        have := renumberList_ge st.metas c1
        rw [hr2] at this
        exact this
      constructor
      · intro g a n
        show cnt (g, a, ((n : Nat) : Int)) (triZ fz1 ++ triZ (mos.map
          (fun q => (q.1, FuncInfoZ.mk q.2.alphas q.2.pos))))
          = cnt (g, a, n) (stSome st)
        rw [cnt_append]
        rw [cnt_triZ_perm hmosproj]
        have hf := renumberList_pos_cnt st.funcs 0 hwfF g a n
        rw [hr1] at hf
        simp only at hf
        have hmm := renumberList_pos_cnt st.metas c1 hwfM g a n
        rw [hr2] at hmm
        simp only at hmm
        rw [hf, hmm]
        show _ = cnt (g, a, n) (someL (st.funcs ++ st.metas))
        rw [someL_append, cnt_append]
      · intro z hz
        show cnt z (((triZ fz1 ++ triZ (mos.map
          (fun q => (q.1, FuncInfoZ.mk q.2.alphas q.2.pos)))).map (fun t => t.2.2)))
          = if -((c2x : Int)) ≤ z then 1 else 0
        rw [List.map_append, cnt_append]
        rw [cnt_slots_perm hmosproj]
        have hf := renumberList_neg_cnt st.funcs 0 hwfF z hz
        rw [hr1] at hf
        simp only at hf
        have hmm := renumberList_neg_cnt st.metas c1 hwfM z hz
        rw [hr2] at hmm
        simp only at hmm
        rw [hf, hmm]
        have hc0 : -(((0 : Nat) : Int)) = 0 := by norm_num
        split_ifs <;> omega

/-- Slot accounting for a whole resolved-token parse: the plan records one
visible slot triple `(func, alpha, j)` per token `j`, and the hidden slots
`-1 .. -n_meta_only_` each exactly once. -/
theorem parse_tokens_triples {ts : List (String × Func × Option ℚ)} {p : Plan}
    (htk : ∀ t ∈ ts, tokOK t) (h : parse_tokens ts = .ok p) :
    (∀ (g : Func) (a : Option ℚ) (n : Nat),
      cnt (g, a, ((n : Nat) : Int)) (planTriples p)
        = cnt (g, a, n) (tokenTriples 0 ts)) ∧
    (∀ z : Int, z < 0 → cnt z ((planTriples p).map (fun t => t.2.2))
      = if -((p.nMetaOnly : Int)) ≤ z then 1 else 0) := by
  unfold parse_tokens at h
  cases hst : addTokens ts 0 ⟨[], [], []⟩ with
  | error e =>
    rw [hst] at h
    simp only [err_bind] at h
    exact Except.noConfusion h
  | ok st =>
    rw [hst] at h
    simp only [ok_bind] at h
    have hwa0 : WFAll ⟨[], [], []⟩ := by
      refine ⟨⟨?_, ?_, ?_, ?_⟩, ⟨?_, ?_⟩, ?_⟩
      · intro q hq
        simp at hq
      · intro q hq
        simp at hq
      · simp
      · simp
      · simp
      · intro q hq
        simp at hq
      · intro f _
        simp
    obtain ⟨hwa, hcnt⟩ := addTokens_inv ts 0 _ st hst hwa0 htk
    have hcnt2 : ∀ y, cnt y (stSome st) = cnt y (tokenTriples 0 ts) := by
      intro y
      rw [hcnt y]
      simp [stSome]
    obtain ⟨hpos, hneg⟩ := finishPlan_triples hwa h
    exact ⟨fun g a n => by rw [hpos g a n, hcnt2], hneg⟩

/-- A successful `addSpecs` run is token resolution followed by the
resolved-token loop (the two interleave errors differently, but agree on
success). -/
theorem addSpecs_ok : ∀ (specs : List String) (i : Nat) (st st2 : St),
    addSpecs specs i st = .ok st2 →
    ∃ ts, specs.mapM resolveToken = .ok ts ∧ addTokens ts i st = .ok st2 := by
  intro specs
  induction specs with
  | nil =>
    intro i st st2 h
    exact ⟨[], rfl, h⟩
  | cons s rest ih =>
    intro i st st2 h
    simp only [addSpecs] at h
    cases hr : resolveToken s with
    | error e =>
      rw [hr] at h
      simp only [err_bind] at h
      exact Except.noConfusion h
    | ok t =>
      rcases t with ⟨fname, f, alpha⟩
      rw [hr] at h
      simp only [ok_bind] at h
      cases ha : addFunc fname f alpha (some i) st with
      | error e =>
        rw [ha] at h
        simp only [err_bind] at h
        exact Except.noConfusion h
      | ok stm =>
        rw [ha] at h
        simp only [ok_bind] at h
        obtain ⟨ts2, hm, ht⟩ := ih (i + 1) stm st2 h
        refine ⟨(fname, f, alpha) :: ts2, ?_, ?_⟩
        · rw [List.mapM_cons, hr]
          simp only [ok_bind, hm, pure_eq_ok]
        · simp only [addTokens, ha, ok_bind]
          exact ht

theorem mapM_ok_length {α β : Type} (g : α → Except Err β) :
    ∀ (l : List α) (r : List β), l.mapM g = .ok r → r.length = l.length := by
  intro l
  induction l with
  | nil =>
    intro r h
    simp only [List.mapM_nil, pure_eq_ok] at h
    injection h with h
    rw [← h]
    rfl
  | cons x t ih =>
    intro r h
    rw [List.mapM_cons] at h
    cases hx : g x with
    | error e =>
      rw [hx] at h
      simp only [err_bind] at h
      exact Except.noConfusion h
    | ok b =>
      rw [hx] at h
      simp only [ok_bind] at h
      cases ht : (t.mapM g : Except Err (List β)) with
      | error e =>
        rw [ht] at h
        simp only [err_bind] at h
        exact Except.noConfusion h
      | ok bs =>
        rw [ht] at h
        simp only [ok_bind, pure_eq_ok] at h
        injection h with h
        rw [← h]
        simp [ih bs ht]

/-- `_parse_specs` through the token bridge. -/
theorem parse_specs_tokens {specs : List String} {p : Plan}
    (h : _parse_specs specs = .ok p) :
    ∃ ts, specs.mapM resolveToken = .ok ts ∧ ts.length = specs.length ∧
      (∀ t ∈ ts, tokOK t) ∧ parse_tokens ts = .ok p := by
  unfold _parse_specs at h
  cases hst : addSpecs specs 0 ⟨[], [], []⟩ with
  | error e =>
    rw [hst] at h
    simp only [err_bind] at h
    exact Except.noConfusion h
  | ok st =>
    rw [hst] at h
    simp only [ok_bind] at h
    obtain ⟨ts, hm, ht⟩ := addSpecs_ok specs 0 _ st hst
    refine ⟨ts, hm, mapM_ok_length _ _ _ hm, ?_, ?_⟩
    · intro t htm
      obtain ⟨s, _, hs⟩ := mapM_ok_mem _ _ _ hm t htm
      exact resolveToken_tokOK hs
    · unfold parse_tokens
      rw [ht]
      simp only [ok_bind]
      exact h

/-- The constructor stores the plan parsed from its own `div_funcs`. -/
theorem mkEst_plan {dfs : List String} {Ks : List Nat} {ds : Bool} {md : ℚ}
    {e0 : Est} (h : mkEst dfs Ks ds md = .ok e0) :
    ∃ p, _parse_specs dfs = .ok p ∧ e0.plan? = some p ∧ e0.div_funcs = dfs := by
  unfold mkEst _setup_args at h
  cases hk : nmin? Ks with
  | none =>
    simp only [hk] at h
    exact Except.noConfusion h
  | some m =>
    simp only [hk] at h
    by_cases hm : m < 1
    · rw [if_pos hm] at h
      exact Except.noConfusion h
    · rw [if_neg hm] at h
      simp only [Option.isSome_none, Bool.false_eq_true, if_false] at h
      cases hp : _parse_specs dfs with
      | error e =>
        simp only [hp] at h
        exact Except.noConfusion h
      | ok p =>
        simp only [hp] at h
        injection h with h
        subst h
        exact ⟨p, rfl, rfl, rfl⟩

/-- `fit` on an estimator with a cached plan keeps the plan and the spec
list. -/
theorem fit_frame {sqrtF : ℚ → ℚ} {nnX : Nat → Nat → List (List ℚ)}
    {dim : Nat} {sizes : List Nat} {skip : Bool} {st st1 : Est}
    (hp : st.plan?.isSome = true)
    (h : fit sqrtF nnX dim sizes skip st = .ok st1) :
    st1.plan? = st.plan? ∧ st1.div_funcs = st.div_funcs := by
  unfold fit at h
  cases hsu : _setup_args st with
  | error e =>
    simp only [hsu] at h
    exact Except.noConfusion h
  | ok e1 =>
    simp only [hsu] at h
    have he1 : e1 = st := setup_id_of_plan_some hp hsu
    subst he1
    cases hcf : _choose_funcs { e1 with dim? := some dim, sizes? := sizes }
        dim sizes none with
    | error e =>
      simp only [hcf] at h
      exact Except.noConfusion h
    | ok s1 =>
      simp only [hcf] at h
      obtain ⟨_, m2, _, hframe, _⟩ := choose_funcs_spec hcf
      have hs1p : s1.plan? = e1.plan? := by rw [hframe]
      have hs1d : s1.div_funcs = e1.div_funcs := by rw [hframe]
      cases hck : _check_Ks (s1.maxK?.getD 0) sizes none with
      | error e =>
        simp only [hck] at h
        exact Except.noConfusion h
      | ok u =>
        cases u
        simp only [hck] at h
        cases hskip : skip with
        | true =>
          rw [hskip] at h
          simp only [if_true] at h
          injection h with h
          subst h
          exact ⟨hs1p, hs1d⟩
        | false =>
          rw [hskip] at h
          simp only [Bool.false_eq_true, if_false] at h
          cases hgr : _get_rhos sqrtF nnX sizes s1.saveAll? s1.Ks
              (s1.maxK?.getD 0) s1.min_dist with
          | error e =>
            simp only [hgr] at h
            exact Except.noConfusion h
          | ok r =>
            simp only [hgr] at h
            injection h with h
            subst h
            exact ⟨hs1p, hs1d⟩

/-- A successful `transform` hands the divergence kernel the cached plan,
with the raw function axis sized `len(div_funcs) + n_meta_only_`. -/
theorem transform_plan_nOut {sqrtF : ℚ → ℚ}
    {nnX nnY : Nat → Nat → List (List ℚ)} {Ysizes : List Nat}
    {st : Est} {out : TransOut}
    (h : transform sqrtF nnX nnY Ysizes st = .ok out) :
    ∃ p, st.plan? = some p ∧ out.divIn.plan = p ∧
      out.divIn.nOut = st.div_funcs.length + p.nMetaOnly := by
  unfold transform at h
  cases h0 : st.maxK? with
  | none =>
    simp only [h0] at h
    exact Except.noConfusion h
  | some m0 =>
    simp only [h0] at h
    cases h1 : st.dim? with
    | none =>
      simp only [h1] at h
      exact Except.noConfusion h
    | some dim =>
      simp only [h1] at h
      cases hc : _choose_funcs st dim st.sizes? (some Ysizes) with
      | error e =>
        simp only [hc] at h
        exact Except.noConfusion h
      | ok s1 =>
        simp only [hc] at h
        obtain ⟨p1, m1, hp1, hframe, _⟩ := choose_funcs_spec hc
        have hs1p : s1.plan? = some p1 := by rw [hframe]; exact hp1
        have hs1d : s1.div_funcs = st.div_funcs := by rw [hframe]
        cases hck : _check_Ks (s1.maxK?.getD 0) s1.sizes? (some Ysizes) with
        | error e =>
          simp only [hck] at h
          exact Except.noConfusion h
        | ok u =>
          cases u
          simp only [hck] at h
          cases hxr : (match (if s1.rhos?.isSome && decide (m0 < s1.maxK?.getD 0)
                then (none, true)
                else (s1.rhos?, false) :
                Option (List (List (List ℚ))) × Bool).1 with
              | some r => Except.ok r
              | none => _get_rhos sqrtF nnX s1.sizes? s1.saveAll? s1.Ks
                  (s1.maxK?.getD 0) s1.min_dist) with
          | error e =>
            simp only [hxr] at h
            exact Except.noConfusion h
          | ok Xrhos =>
            simp only [hxr] at h
            rw [hs1p] at h
            cases hyr : (if (s1.do_sym || doSymForced p1) then
                   match _get_rhos sqrtF nnY Ysizes s1.saveAll? s1.Ks
                       (s1.maxK?.getD 0) s1.min_dist with
                   | .error e => (.error e :
                       Except Err (Option (List (List (List ℚ)))))
                   | .ok r => .ok (some r)
                 else .ok none) with
            | error e =>
              simp only [hyr] at h
              exact Except.noConfusion h
            | ok Yr =>
              simp only [hyr] at h
              injection h with h
              subst h
              refine ⟨p1, hp1, rfl, ?_⟩
              show s1.div_funcs.length + p1.nMetaOnly = _
              rw [hs1d]

theorem tokenTriples_cnt_out :
    ∀ (ts : List (String × Func × Option ℚ)) (i : Nat) (g : Func)
      (a : Option ℚ) (j : Nat), (j < i ∨ i + ts.length ≤ j) →
      cnt (g, a, j) (tokenTriples i ts) = 0 := by
  intro ts
  induction ts with
  | nil => intro i g a j _; rfl
  | cons t rest ih =>
    intro i g a j hj
    rcases t with ⟨nm, f, al⟩
    simp only [tokenTriples, cnt_cons]
    have hne : (f, al, i) ≠ (g, a, j) := by
      intro hc
      injection hc with hc1 hc2
      injection hc2 with hc2 hc3
      simp only [List.length_cons] at hj
      omega
    rw [if_neg hne]
    have := ih (i + 1) g a j (by simp only [List.length_cons] at hj; omega)
    omega

theorem tokenTriples_cnt_at :
    ∀ (ts : List (String × Func × Option ℚ)) (i j : Nat) (hj : j < ts.length)
      (g : Func) (a : Option ℚ),
      cnt (g, a, i + j) (tokenTriples i ts)
        = if (ts.get ⟨j, hj⟩).2.1 = g ∧ (ts.get ⟨j, hj⟩).2.2 = a
          then 1 else 0 := by
  intro ts
  induction ts with
  | nil => intro i j hj; simp at hj
  | cons t rest ih =>
    intro i j hj g a
    rcases t with ⟨nm, f, al⟩
    cases j with
    | zero =>
      simp only [tokenTriples, cnt_cons, Nat.add_zero, List.get]
      have hrest : cnt (g, a, i) (tokenTriples (i + 1) rest) = 0 :=
        tokenTriples_cnt_out rest (i + 1) g a i (Or.inl (by omega))
      rw [hrest]
      have hiff : ((f, al, i) = (g, a, i)) ↔ (f = g ∧ al = a) := by
        constructor
        · intro hc
          injection hc with hc1 hc2
          injection hc2 with hc2 hc3
          exact ⟨hc1, hc2⟩
        · rintro ⟨rfl, rfl⟩
          rfl
      rw [if_congr hiff rfl rfl]
      omega
    | succ j2 =>
      simp only [tokenTriples, cnt_cons, List.get]
      have hne : (f, al, i) ≠ (g, a, i + (j2 + 1)) := by
        intro hc
        injection hc with hc1 hc2
        injection hc2 with hc2 hc3
        omega
      rw [if_neg hne]
      have hidx : i + (j2 + 1) = (i + 1) + j2 := by omega
      rw [hidx]
      have := ih (i + 1) j2 (by simp only [List.length_cons] at hj; omega) g a
      rw [this]
      omega

theorem filter_eq_single_of_cnt {γ : Type} [DecidableEq γ] {sel : γ → Bool} :
    ∀ {l : List γ} {x : γ}, sel x = true → cnt x l = 1 →
      (∀ y, sel y = true → y ≠ x → cnt y l = 0) → l.filter sel = [x] := by
  intro l
  induction l with
  | nil =>
    intro x hsel h1 h0
    simp [cnt] at h1
  | cons b t ih =>
    intro x hsel h1 h0
    by_cases hbx : b = x
    · subst hbx
      simp only [cnt_cons, eq_self_iff_true, if_true] at h1
      have hct : cnt b t = 0 := by omega
      have hft : t.filter sel = [] := by
        rw [List.eq_nil_iff_forall_not_mem]
        intro y hy
        obtain ⟨hyt, hsy⟩ := List.mem_filter.mp hy
        by_cases hyb : y = b
        · subst hyb
          have : 0 < cnt y t := cnt_pos_iff_mem.mpr hyt
          omega
        · have h2 := h0 y hsy hyb
          simp only [cnt_cons] at h2
          have : 0 < cnt y t := cnt_pos_iff_mem.mpr hyt
          omega
      rw [List.filter_cons_of_pos hsel, hft]
    · have hsbf : ¬(sel b = true) := by
        intro hsb
        have h2 := h0 b hsb hbx
        simp only [cnt_cons, eq_self_iff_true, if_true] at h2
        omega
      rw [List.filter_cons_of_neg hsbf]
      apply ih hsel
      · simp only [cnt_cons, if_neg hbx] at h1
        omega
      · intro y hsy hyx
        have h2 := h0 y hsy hyx
        simp only [cnt_cons] at h2
        omega

/-- **C4.** For every estimator built by the constructor, fitted and
transformed successfully: after `_finalize` drops the hidden rows and (with
`do_sym` unset) the direction axis, the output shape is
`len(div_funcs) × nK × nX × nY` (the direction axis present exactly when
`do_sym` was requested); the plan places, for each caller token `j`, exactly
one visible slot triple `(func_j, alpha_j, j)` — so row `j` of the returned
tensor is token `j`'s function, in the caller's original order; the hidden
dependency-only slots are exactly `-1 .. -n_meta_only_` (the trailing rows
of the raw function axis, dropped before return), and every slot is in
range. -/
theorem C4_output_axis
    (dfs : List String) (Ks : List Nat) (ds : Bool) (md : ℚ)
    (sqrtF : ℚ → ℚ) (nnX nnY : Nat → Nat → List (List ℚ))
    (dim : Nat) (sizes Ysizes : List Nat) (skip : Bool)
    (st0 st1 : Est) (out : TransOut) (nK nX nY : Nat)
    (hmk : mkEst dfs Ks ds md = .ok st0)
    (hfit : fit sqrtF nnX dim sizes skip st0 = .ok st1)
    (htr : transform sqrtF nnX nnY Ysizes st1 = .ok out) :
    ∃ ts, dfs.mapM resolveToken = .ok ts ∧ ts.length = dfs.length ∧
      (_finalize_shape out.divIn.nOut nK nX nY ds out.divIn.plan.nMetaOnly
        = dfs.length :: nK :: nX :: nY :: (if ds then [2] else [])) ∧
      (∀ (j : Nat) (hj : j < ts.length),
        (planTriples out.divIn.plan).filter
            (fun t => t.2.2 = ((j : Nat) : Int))
          = [((ts.get ⟨j, hj⟩).2.1, (ts.get ⟨j, hj⟩).2.2, ((j : Nat) : Int))]) ∧
      (∀ z : Int, z < 0 →
        cnt z ((planTriples out.divIn.plan).map (fun t => t.2.2))
          = if -((out.divIn.plan.nMetaOnly : Int)) ≤ z then 1 else 0) ∧
      (∀ s ∈ (planTriples out.divIn.plan).map (fun t => t.2.2),
        -((out.divIn.plan.nMetaOnly : Int)) ≤ s ∧ s < (dfs.length : Int)) := by
  obtain ⟨p, hps, hpl0, hdf0⟩ := mkEst_plan hmk
  have hpl0s : st0.plan?.isSome = true := by
    rw [hpl0]
    rfl
  obtain ⟨hfp, hfd⟩ := fit_frame hpl0s hfit
  obtain ⟨p2, hp2, hop, hnout⟩ := transform_plan_nOut htr
  have hp2p : p2 = p := by
    rw [hfp, hpl0] at hp2
    injection hp2 with hp2
    exact hp2.symm
  rw [hp2p] at hop hnout
  obtain ⟨ts, hmres, hlen, htok, hptok⟩ := parse_specs_tokens hps
  obtain ⟨hpos, hneg⟩ := parse_tokens_triples htok hptok
  have hshape : ∀ h0 : Nat, _finalize_shape (dfs.length + h0) nK nX nY ds h0
      = dfs.length :: nK :: nX :: nY :: (if ds then [2] else []) := by
    intro h0
    by_cases hh : h0 = 0
    · subst hh
      simp only [_finalize_shape, ne_eq, not_true_eq_false, if_false,
        Nat.add_zero]
      cases ds <;> simp
    · simp only [_finalize_shape, ne_eq, hh, not_false_eq_true, if_true]
      cases ds <;> simp [Nat.add_sub_cancel]
  refine ⟨ts, hmres, hlen, ?_, ?_, ?_, ?_⟩
  · rw [hop, hnout, hfd, hdf0]
    exact hshape p.nMetaOnly
  · intro j hj
    rw [hop]
    apply filter_eq_single_of_cnt
    · simp
    · rw [hpos]
      have hta := tokenTriples_cnt_at ts 0 j hj (ts.get ⟨j, hj⟩).2.1
        (ts.get ⟨j, hj⟩).2.2
      rw [Nat.zero_add] at hta
      rw [hta, if_pos ⟨rfl, rfl⟩]
    · intro y hsy hyx
      rcases y with ⟨gy, ay, sy⟩
      have hsy2 : sy = ((j : Nat) : Int) := by
        have := of_decide_eq_true hsy
        exact this
      subst hsy2
      rw [hpos]
      have hta := tokenTriples_cnt_at ts 0 j hj gy ay
      rw [Nat.zero_add] at hta
      rw [hta]
      have hne2 : ¬((ts.get ⟨j, hj⟩).2.1 = gy ∧ (ts.get ⟨j, hj⟩).2.2 = ay) := by
        rintro ⟨e1, e2⟩
        apply hyx
        rw [← e1, ← e2]
      rw [if_neg hne2]
  · intro z hz
    rw [hop]
    exact hneg z hz
  · intro s hs
    rw [hop] at hs ⊢
    by_cases hsneg : s < 0
    · constructor
      · have h2 := hneg s hsneg
        have h3 : 0 < cnt s ((planTriples p).map (fun t => t.2.2)) :=
          cnt_pos_iff_mem.mpr hs
        by_contra hcon
        rw [if_neg hcon] at h2
        omega
      · omega
    · push_neg at hsneg
      obtain ⟨t, htmem, hts⟩ := List.mem_map.mp hs
      have hsn : ((s.toNat : Nat) : Int) = s := Int.toNat_of_nonneg hsneg
      have h3 : 0 < cnt (t.1, t.2.1, s) (planTriples p) := by
        apply cnt_pos_iff_mem.mpr
        rw [← hts]
        show (t.1, t.2.1, t.2.2) ∈ _
        exact htmem
      rw [← hsn] at h3
      rw [hpos t.1 t.2.1 s.toNat] at h3
      have hnlt : s.toNat < ts.length := by
        by_contra hge
        push_neg at hge
        have h0cnt := tokenTriples_cnt_out ts 0 t.1 t.2.1 s.toNat
          (Or.inr (by omega))
        omega
      constructor
      · omega
      · rw [hlen] at hnlt
        omega

/-- **C4 (witness).** The pipeline on `['hellinger']` with `Ks = (1,)` and
one bag of 3 points: the raw function axis has 2 rows (1 caller row plus 1
hidden `alpha_div` row at slot `-1`); the finalized shape is
`[1, 1, 3, 3]`; row 0 belongs to the `hellinger` token. -/
theorem C4_witness :
    ∃ ts, List.mapM resolveToken ["hellinger"] = Except.ok ts ∧
      ts.length = 1 ∧
      (_finalize_shape 2 1 3 3 false 1 = [1, 1, 3, 3]) ∧
      (∀ (j : Nat) (hj : j < ts.length),
        (planTriples ⟨[(.alpha_div, ⟨some [some (1/2)], [-1]⟩)],
            [(.hellinger, ⟨none, [0], [-1]⟩)], 1⟩).filter
            (fun t => t.2.2 = ((j : Nat) : Int))
          = [((ts.get ⟨j, hj⟩).2.1, (ts.get ⟨j, hj⟩).2.2, ((j : Nat) : Int))]) ∧
      (∀ z : Int, z < 0 →
        cnt z ((planTriples ⟨[(.alpha_div, ⟨some [some (1/2)], [-1]⟩)],
            [(.hellinger, ⟨none, [0], [-1]⟩)], 1⟩).map (fun t => t.2.2))
          = if -(((1 : Nat) : Int)) ≤ z then 1 else 0) ∧
      (∀ s ∈ (planTriples ⟨[(.alpha_div, ⟨some [some (1/2)], [-1]⟩)],
          [(.hellinger, ⟨none, [0], [-1]⟩)], 1⟩).map (fun t => t.2.2),
        -(((1 : Nat) : Int)) ≤ s ∧ s < ((1 : Nat) : Int)) := by
  exact C4_output_axis ["hellinger"] [1] false 1 (fun q => q)
    (fun _ k => List.replicate 3 ((List.range k).map (fun j => (j : ℚ))))
    (fun _ k => List.replicate 3 ((List.range k).map (fun j => (j : ℚ))))
    1 [3] [3] false
    ⟨["hellinger"], [1], false, 1,
     some ⟨[(.alpha_div, ⟨some [some (1/2)], [-1]⟩)],
           [(.hellinger, ⟨none, [0], [-1]⟩)], 1⟩,
     false, none, [], none, none⟩
    ⟨["hellinger"], [1], false, 1,
     some ⟨[(.alpha_div, ⟨some [some (1/2)], [-1]⟩)],
           [(.hellinger, ⟨none, [0], [-1]⟩)], 1⟩,
     false, some 1, [3], some 1, some [[[1], [1], [1]]]⟩
    ⟨⟨[[[1], [1], [1]]], none, [1], 1, false, 2, false,
      ⟨[(.alpha_div, ⟨some [some (1/2)], [-1]⟩)],
       [(.hellinger, ⟨none, [0], [-1]⟩)], 1⟩⟩, false⟩
    1 3 3
    (by with_unfolding_all decide)
    (by with_unfolding_all decide)
    (by with_unfolding_all decide)

/-! ### Duplicate requests: alpha lists never repeat, and a repeated
request hits one of the two duplicate `raise` sites of `add_func` -/

theorem WFAll_empty : WFAll ⟨[], [], []⟩ := by
  refine ⟨⟨?_, ?_, ?_, ?_⟩, ⟨?_, ?_⟩, ?_⟩
  · intro q hq
    simp at hq
  · intro q hq
    simp at hq
  · simp
  · simp
  · simp
  · intro q hq
    simp at hq
  · intro f _
    simp

theorem WFnodup_empty : WFnodup ⟨[], [], []⟩ := by
  intro q hq
  simp at hq

theorem idxOf?_none_not_mem {l : List (Option ℚ)} {a : Option ℚ}
    (h : idxOf? l a = none) : a ∉ l := by
  induction l with
  | nil => simp
  | cons b t ih =>
    simp only [idxOf?] at h
    by_cases hb : b = a
    · rw [if_pos hb] at h
      exact Option.noConfusion h
    · rw [if_neg hb] at h
      cases ht : idxOf? t a with
      | some j =>
        rw [ht] at h
        have h2 : some (j + 1) = (none : Option Nat) := h
        exact Option.noConfusion h2
      | none =>
        intro hm
        rcases List.mem_cons.mp hm with hm1 | hm2
        · exact hb hm1.symm
        · exact ih ht hm2

theorem zip_mem_fst {β γ : Type} :
    ∀ (l1 : List β) (l2 : List γ) (x : β) (y : γ), (x, y) ∈ l1.zip l2 → x ∈ l1 := by
  intro l1
  induction l1 with
  | nil =>
    intro l2 x y h
    simp at h
  | cons a s ih =>
    intro l2 x y h
    cases l2 with
    | nil => simp at h
    | cons b t =>
      rw [List.zip_cons_cons] at h
      rcases List.mem_cons.mp h with h1 | h2
      · injection h1 with h1a h1b
        exact List.mem_cons.mpr (Or.inl h1a)
      · exact List.mem_cons.mpr (Or.inr (ih t x y h2))

/-- In a zip whose left side has no duplicates, a left value determines the
right value. -/
theorem zip_alpha_unique {β : Type} :
    ∀ (as : List (Option ℚ)) (ps : List β), as.Nodup →
      ∀ (a : Option ℚ) (s1 s2 : β),
        (a, s1) ∈ as.zip ps → (a, s2) ∈ as.zip ps → s1 = s2 := by
  intro as
  induction as with
  | nil =>
    intro ps _ a s1 s2 h1 _
    simp at h1
  | cons a0 t ih =>
    intro ps hnd a s1 s2 h1 h2
    cases ps with
    | nil => simp at h1
    | cons p0 pt =>
      rw [List.zip_cons_cons] at h1 h2
      have hnd2 := List.nodup_cons.mp hnd
      rcases List.mem_cons.mp h1 with e1 | m1
      · rcases List.mem_cons.mp h2 with e2 | m2
        · injection e1 with e1a e1b
          injection e2 with e2a e2b
          rw [e1b, e2b]
        · exfalso
          injection e1 with e1a e1b
          subst e1a
          exact hnd2.1 (zip_mem_fst t pt a s2 m2)
      · rcases List.mem_cons.mp h2 with e2 | m2
        · exfalso
          injection e2 with e2a e2b
          subst e2a
          exact hnd2.1 (zip_mem_fst t pt a s1 m1)
        · exact ih pt hnd2.2 a s1 s2 m1 m2

/-- Within one well-formed entry whose alpha list has no repeats, an alpha
value owns at most one visible slot. -/
theorem somePairs_unique {f : Func} {info : FuncInfo}
    (hwf : WFinfo f info) (hnd : ∀ as, info.alphas = some as → as.Nodup)
    {a : Option ℚ} {s1 s2 : Nat}
    (h1 : (a, s1) ∈ somePairs info) (h2 : (a, s2) ∈ somePairs info) :
    s1 = s2 := by
  cases hia : info.alphas with
  | none =>
    simp only [WFinfo, hia] at hwf
    obtain ⟨_, q, hpos⟩ := hwf
    cases q with
    | none =>
      have he : somePairs info = [] := by
        simp [somePairs, pairsN, hia, hpos]
      rw [he] at h1
      simp at h1
    | some j =>
      have he : somePairs info = [((none : Option ℚ), j)] := by
        simp [somePairs, pairsN, hia, hpos]
      rw [he] at h1 h2
      have h1e := List.mem_singleton.mp h1
      have h2e := List.mem_singleton.mp h2
      injection h1e with h1a h1b
      injection h2e with h2a h2b
      rw [h1b, h2b]
  | some as =>
    have hasnd : as.Nodup := hnd as hia
    have hm1 : (a, some s1) ∈ as.zip info.pos := by
      have h1b := h1
      simp only [somePairs, pairsN, hia] at h1b
      obtain ⟨pr, hpr, hmap⟩ := List.mem_filterMap.mp h1b
      rcases pr with ⟨pa, pb⟩
      cases pb with
      | none =>
        have h3 : (none : Option (Option ℚ × Nat)) = some (a, s1) := hmap
        exact Option.noConfusion h3
      | some j =>
        have h3 : some (pa, j) = some (a, s1) := hmap
        injection h3 with h3
        injection h3 with h3a h3b
        rw [← h3a, ← h3b]
        exact hpr
    have hm2 : (a, some s2) ∈ as.zip info.pos := by
      have h2b := h2
      simp only [somePairs, pairsN, hia] at h2b
      obtain ⟨pr, hpr, hmap⟩ := List.mem_filterMap.mp h2b
      rcases pr with ⟨pa, pb⟩
      cases pb with
      | none =>
        have h3 : (none : Option (Option ℚ × Nat)) = some (a, s2) := hmap
        exact Option.noConfusion h3
      | some j =>
        have h3 : some (pa, j) = some (a, s2) := hmap
        injection h3 with h3
        injection h3 with h3a h3b
        rw [← h3a, ← h3b]
        exact hpr
    have := zip_alpha_unique as info.pos hasnd a (some s1) (some s2) hm1 hm2
    injection this

theorem mem_someL_decomp {l : List (Func × FuncInfo)} {f : Func}
    {y : Option ℚ × Nat} (h : (f, y) ∈ someL l) :
    ∃ q ∈ l, q.1 = f ∧ y ∈ somePairs q.2 := by
  induction l with
  | nil => simp at h
  | cons x t ih =>
    rw [someL_cons] at h
    rcases List.mem_append.mp h with h1 | h2
    · obtain ⟨y2, hy2, he⟩ := List.mem_map.mp h1
      injection he with hea heb
      exact ⟨x, List.mem_cons.mpr (Or.inl rfl), hea, heb ▸ hy2⟩
    · obtain ⟨q, hq, hk, hy⟩ := ih h2
      exact ⟨q, List.mem_cons.mpr (Or.inr hq), hk, hy⟩

theorem entry_unique_by_key {β : Type} :
    ∀ {l : List (Func × β)}, (l.map Prod.fst).Nodup →
      ∀ {q1 q2 : Func × β}, q1 ∈ l → q2 ∈ l → q1.1 = q2.1 → q1 = q2 := by
  intro l
  induction l with
  | nil =>
    intro _ q1 q2 h1
    simp at h1
  | cons x t ih =>
    intro hnd q1 q2 h1 h2 hk
    simp only [List.map_cons, List.nodup_cons] at hnd
    rcases List.mem_cons.mp h1 with e1 | m1
    · rcases List.mem_cons.mp h2 with e2 | m2
      · rw [e1, e2]
      · exfalso
        apply hnd.1
        rw [e1] at hk
        rw [hk]
        exact List.mem_map.mpr ⟨q2, m2, rfl⟩
    · rcases List.mem_cons.mp h2 with e2 | m2
      · exfalso
        apply hnd.1
        rw [e2] at hk
        rw [← hk]
        exact List.mem_map.mpr ⟨q1, m1, rfl⟩
      · exact ih hnd.2 m1 m2 hk

/-- In a well-formed parse state with duplicate-free alpha lists, a pair
`(func, alpha)` owns at most one caller-visible slot. -/
theorem stSome_unique {st : St} (hwf : WFSt st) (hnd : WFnodup st)
    {f : Func} {a : Option ℚ} {s1 s2 : Nat}
    (h1 : (f, a, s1) ∈ stSome st) (h2 : (f, a, s2) ∈ stSome st) : s1 = s2 := by
  obtain ⟨hw1, hw2, hw3, hw4⟩ := hwf
  have hkeys : ((st.funcs ++ st.metas).map Prod.fst).Nodup := by
    rw [List.map_append, List.nodup_append]
    refine ⟨hw3, hw4, ?_⟩
    intro x hx1 hx2
    obtain ⟨q1, hq1, he1⟩ := List.mem_map.mp hx1
    obtain ⟨q2, hq2, he2⟩ := List.mem_map.mp hx2
    have hb1 : is_meta x = false := he1 ▸ (hw1 q1 hq1).1
    have hb2 : is_meta x = true := he2 ▸ (hw2 q2 hq2).1
    rw [hb1] at hb2
    exact Bool.noConfusion hb2
  obtain ⟨q1, hq1, hk1, hy1⟩ :=
    mem_someL_decomp (show (f, (a, s1)) ∈ someL (st.funcs ++ st.metas) from h1)
  obtain ⟨q2, hq2, hk2, hy2⟩ :=
    mem_someL_decomp (show (f, (a, s2)) ∈ someL (st.funcs ++ st.metas) from h2)
  have heq : q1 = q2 := entry_unique_by_key hkeys hq1 hq2 (by rw [hk1, hk2])
  subst heq
  have hwfi : WFinfo q1.1 q1.2 := by
    rcases List.mem_append.mp hq1 with hm | hm
    · exact (hw1 q1 hm).2
    · exact (hw2 q1 hm).2
  have hndq : ∀ as, q1.2.alphas = some as → as.Nodup := fun as hs => hnd q1 hq1 as hs
  exact somePairs_unique hwfi hndq hy1 hy2

/-- `add_func` never creates a repeated alpha value in one entry: the
append branch fires only after `list.index` failed. -/
theorem updateExisting_nodup {fname : String} {f : Func} {alpha : Option ℚ}
    {pos : Option Nat} {info info2 : FuncInfo} {app : Bool}
    (h : updateExisting fname f alpha pos info = .ok (info2, app))
    (hnd : ∀ as, info.alphas = some as → as.Nodup) :
    ∀ as, info2.alphas = some as → as.Nodup := by
  unfold updateExisting at h
  cases hna : needs_alpha f with
  | false =>
    simp only [hna, Bool.not_false, if_true] at h
    cases pos with
    | none =>
      simp only [pure_eq_ok] at h
      injection h with h
      obtain ⟨h1, _⟩ := Prod.mk.injEq .. |>.mp h
      subst h1
      exact hnd
    | some i =>
      by_cases hpe : info.pos ≠ [none]
      · rw [if_pos hpe] at h
        simp only [throw_eq_error] at h
        exact Except.noConfusion h
      · rw [if_neg hpe] at h
        simp only [pure_eq_ok] at h
        injection h with h
        obtain ⟨h1, _⟩ := Prod.mk.injEq .. |>.mp h
        subst h1
        exact hnd
  | true =>
    simp only [hna, Bool.not_true, Bool.false_eq_true, if_false] at h
    cases hia : info.alphas with
    | none =>
      simp only [hia, throw_eq_error] at h
      exact Except.noConfusion h
    | some as0 =>
      simp only [hia] at h
      cases hidx : idxOf? as0 alpha with
      | none =>
        simp only [hidx, pure_eq_ok] at h
        injection h with h
        obtain ⟨h1, _⟩ := Prod.mk.injEq .. |>.mp h
        subst h1
        intro as has
        have has2 : some (as0 ++ [alpha]) = some as := has
        injection has2 with has2
        rw [← has2]
        have hnm : alpha ∉ as0 := idxOf?_none_not_mem hidx
        have hnd0 : as0.Nodup := hnd as0 hia
        rw [List.nodup_append]
        refine ⟨hnd0, List.nodup_singleton alpha, ?_⟩
        intro x hx hxs
        rcases List.mem_singleton.mp hxs with rfl
        exact hnm hx
      | some idx =>
        simp only [hidx] at h
        cases pos with
        | none =>
          simp only [pure_eq_ok] at h
          injection h with h
          obtain ⟨h1, _⟩ := Prod.mk.injEq .. |>.mp h
          subst h1
          exact hnd
        | some i =>
          cases hgd : info.pos.getD idx none with
          | some v =>
            simp only [hgd, throw_eq_error] at h
            exact Except.noConfusion h
          | none =>
            simp only [hgd, pure_eq_ok] at h
            injection h with h
            obtain ⟨h1, _⟩ := Prod.mk.injEq .. |>.mp h
            subst h1
            intro as has
            have has2 : some as0 = some as := has
            injection has2 with has2
            rw [← has2]
            exact hnd as0 hia

/-- A dependency-only update (`pos=None`) of a well-formed entry never
raises: both duplicate checks require a caller slot. -/
theorem updateExisting_none_ok (fname : String) (g : Func) (alpha : Option ℚ)
    (info : FuncInfo) (hwf : WFinfo g info) :
    ∃ r, updateExisting fname g alpha none info = .ok r := by
  unfold updateExisting
  cases hna : needs_alpha g with
  | false =>
    simp only [hna, Bool.not_false, if_true]
    exact ⟨(info, false), rfl⟩
  | true =>
    simp only [hna, Bool.not_true, Bool.false_eq_true, if_false]
    cases hia : info.alphas with
    | none =>
      simp only [WFinfo, hia] at hwf
      rw [hwf.1] at hna
      exact Bool.noConfusion hna
    | some as =>
      cases hidx : idxOf? as alpha with
      | none =>
        refine ⟨(⟨some (as ++ [alpha]), info.pos ++ [none]⟩, true), ?_⟩
        simp only [hidx, pure_eq_ok]
      | some idx =>
        refine ⟨(info, false), ?_⟩
        simp only [hidx, pure_eq_ok]

/-- On a well-formed entry, the only reachable `raise` sites of the update
branch of `add_func` are the two duplicate errors. -/
theorem updateExisting_err {fname : String} {f : Func} {alpha : Option ℚ}
    {pos : Option Nat} {info : FuncInfo} {e : Err}
    (hwf : WFinfo f info)
    (h : updateExisting fname f alpha pos info = .error e) :
    isDupErr e = true := by
  unfold updateExisting at h
  cases hna : needs_alpha f with
  | false =>
    simp only [hna, Bool.not_false, if_true] at h
    cases pos with
    | none =>
      simp only [pure_eq_ok] at h
      exact Except.noConfusion h
    | some i =>
      by_cases hpe : info.pos ≠ [none]
      · rw [if_pos hpe] at h
        simp only [throw_eq_error] at h
        injection h with h
        rw [← h]
        rfl
      · rw [if_neg hpe] at h
        simp only [pure_eq_ok] at h
        exact Except.noConfusion h
  | true =>
    simp only [hna, Bool.not_true, Bool.false_eq_true, if_false] at h
    cases hia : info.alphas with
    | none =>
      simp only [WFinfo, hia] at hwf
      rw [hwf.1] at hna
      exact Bool.noConfusion hna
    | some as =>
      simp only [hia] at h
      cases hidx : idxOf? as alpha with
      | none =>
        simp only [hidx, pure_eq_ok] at h
        exact Except.noConfusion h
      | some idx =>
        simp only [hidx] at h
        cases pos with
        | none =>
          simp only [pure_eq_ok] at h
          exact Except.noConfusion h
        | some i =>
          cases hgd : info.pos.getD idx none with
          | some v =>
            simp only [hgd, throw_eq_error] at h
            injection h with h
            rw [← h]
            rfl
          | none =>
            simp only [hgd, pure_eq_ok] at h
            exact Except.noConfusion h

/-- The recursive dependency registration preserves duplicate-free alpha
lists. -/
theorem addFuncBase_nodup {fname : String} {g : Func} {al : Option ℚ}
    {st st2 : St} (hg : is_meta g = false) (hwf : WFSt st)
    (h : addFuncBase fname g al none st = .ok st2) (hnd : WFnodup st) :
    WFnodup st2 := by
  obtain ⟨hw1, hw2, hw3, hw4⟩ := hwf
  unfold addFuncBase at h
  simp only [hg, Bool.false_eq_true, if_false] at h
  cases hl : lookupA st.funcs g with
  | none =>
    simp only [hl, pure_eq_ok] at h
    injection h with h
    subst h
    intro q hq as has
    have hq2 : q ∈ setA st.funcs g
        (FuncInfo.mk (if needs_alpha g then some [al] else none) [none])
        ++ st.metas := hq
    rw [setA_append_of_none hl] at hq2
    rcases List.mem_append.mp hq2 with hq3 | hq4
    · rcases List.mem_append.mp hq3 with hq5 | hq6
      · exact hnd q (List.mem_append.mpr (Or.inl hq5)) as has
      · rcases List.mem_singleton.mp hq6 with rfl
        have has2 : (if needs_alpha g then some [al] else none) = some as := has
        cases hna : needs_alpha g with
        | false =>
          rw [hna] at has2
          simp only [Bool.false_eq_true, if_false] at has2
          exact Option.noConfusion has2
        | true =>
          rw [hna] at has2
          simp only [if_true] at has2
          injection has2 with has2
          rw [← has2]
          exact List.nodup_singleton al
    · exact hnd q (List.mem_append.mpr (Or.inr hq4)) as has
  | some info =>
    simp only [hl] at h
    cases hu : updateExisting fname g al none info with
    | error e =>
      simp only [hu, err_bind] at h
      exact Except.noConfusion h
    | ok pr =>
      rcases pr with ⟨info2, app⟩
      simp only [hu, ok_bind, pure_eq_ok] at h
      injection h with h
      subst h
      have hndi : ∀ as, info.alphas = some as → as.Nodup :=
        fun as has => hnd (g, info) (List.mem_append.mpr (Or.inl (lookupA_mem hl))) as has
      have hndi2 := updateExisting_nodup hu hndi
      intro q hq as has
      have hq2 : q ∈ setA st.funcs g info2 ++ st.metas := hq
      rcases List.mem_append.mp hq2 with hq3 | hq4
      · rcases mem_setA_of_some hw3 hl hq3 with rfl | ⟨hqm, _⟩
        · exact hndi2 as has
        · exact hnd q (List.mem_append.mpr (Or.inl hqm)) as has
      · exact hnd q (List.mem_append.mpr (Or.inr hq4)) as has

/-- The recursive dependency registration never raises on a well-formed
state. -/
theorem addFuncBase_no_err {fname : String} {g : Func} {al : Option ℚ}
    {st : St} {e : Err} (hg : is_meta g = false) (hwf : WFSt st)
    (h : addFuncBase fname g al none st = .error e) : False := by
  obtain ⟨hw1, _, _, _⟩ := hwf
  unfold addFuncBase at h
  simp only [hg, Bool.false_eq_true, if_false] at h
  cases hl : lookupA st.funcs g with
  | none =>
    simp only [hl, pure_eq_ok] at h
    exact Except.noConfusion h
  | some info =>
    simp only [hl] at h
    have hwfi : WFinfo g info := (hw1 (g, info) (lookupA_mem hl)).2
    cases hu : updateExisting fname g al none info with
    | error e2 =>
      obtain ⟨r, hr⟩ := updateExisting_none_ok fname g al info hwfi
      rw [hu] at hr
      exact Except.noConfusion hr
    | ok pr =>
      rcases pr with ⟨info2, app⟩
      simp only [hu, ok_bind, pure_eq_ok] at h
      exact Except.noConfusion h

/-- One caller token keeps all alpha lists duplicate-free. -/
theorem addFunc_nodup {fname : String} {f : Func} {alpha : Option ℚ} {i : Nat}
    {st st2 : St} (hwa : WFAll st) (htk : needs_alpha f = false → alpha = none)
    (h : addFunc fname f alpha (some i) st = .ok st2) (hnd : WFnodup st) :
    WFnodup st2 := by
  obtain ⟨⟨hw1, hw2, hw3, hw4⟩, hmd, hlink⟩ := hwa
  unfold addFunc at h
  cases hm : is_meta f with
  | false =>
    simp only [hm, Bool.false_eq_true, if_false, Bool.and_false] at h
    cases hl : lookupA st.funcs f with
    | none =>
      simp only [hl, pure_eq_ok] at h
      injection h with h
      subst h
      intro q hq as has
      have hq2 : q ∈ setA st.funcs f
          (FuncInfo.mk (if needs_alpha f then some [alpha] else none) [some i])
          ++ st.metas := hq
      rw [setA_append_of_none hl] at hq2
      rcases List.mem_append.mp hq2 with hq3 | hq4
      · rcases List.mem_append.mp hq3 with hq5 | hq6
        · exact hnd q (List.mem_append.mpr (Or.inl hq5)) as has
        · rcases List.mem_singleton.mp hq6 with rfl
          have has2 : (if needs_alpha f then some [alpha] else none) = some as := has
          cases hna : needs_alpha f with
          | false =>
            rw [hna] at has2
            simp only [Bool.false_eq_true, if_false] at has2
            exact Option.noConfusion has2
          | true =>
            rw [hna] at has2
            simp only [if_true] at has2
            injection has2 with has2
            rw [← has2]
            exact List.nodup_singleton alpha
      · exact hnd q (List.mem_append.mpr (Or.inr hq4)) as has
    | some info =>
      simp only [hl] at h
      cases hu : updateExisting fname f alpha (some i) info with
      | error e =>
        simp only [hu, err_bind] at h
        exact Except.noConfusion h
      | ok pr =>
        rcases pr with ⟨info2, app⟩
        simp only [hu, ok_bind, Bool.and_false, Bool.false_eq_true, if_false,
          pure_eq_ok] at h
        injection h with h
        subst h
        have hndi : ∀ as, info.alphas = some as → as.Nodup :=
          fun as has => hnd (f, info) (List.mem_append.mpr (Or.inl (lookupA_mem hl))) as has
        have hndi2 := updateExisting_nodup hu hndi
        intro q hq as has
        have hq2 : q ∈ setA st.funcs f info2 ++ st.metas := hq
        rcases List.mem_append.mp hq2 with hq3 | hq4
        · rcases mem_setA_of_some hw3 hl hq3 with rfl | ⟨hqm, _⟩
          · exact hndi2 as has
          · exact hnd q (List.mem_append.mpr (Or.inl hqm)) as has
        · exact hnd q (List.mem_append.mpr (Or.inr hq4)) as has
  | true =>
    obtain ⟨g, ra, tr, hreq, hgb, hgtok⟩ := meta_req f hm
    simp only [hm, if_true, Bool.and_true] at h
    cases hl : lookupA st.metas f with
    | none =>
      simp only [hl] at h
      unfold addDeps at h
      rw [hreq] at h
      simp only [List.foldlM_cons, List.foldlM_nil] at h
      have hwfa : WFSt { st with metas := setA st.metas f (FuncInfo.mk (if needs_alpha f then some [alpha] else none) [some i]) } := by
        refine ⟨hw1, ?_, hw3, ?_⟩
        · intro q hq
          simp only [setA_append_of_none hl] at hq
          rcases List.mem_append.mp hq with h1 | h2
          · exact hw2 q h1
          · rcases List.mem_singleton.mp h2 with rfl
            exact ⟨hm, WFinfo_fresh f alpha (some i)⟩
        · show ((setA st.metas f _).map Prod.fst).Nodup
          rw [setA_append_of_none hl]
          exact nodup_append_fresh hw4 hl _
      have hnda : WFnodup { st with metas := setA st.metas f (FuncInfo.mk (if needs_alpha f then some [alpha] else none) [some i]) } := by
        intro q hq as has
        have hq2 : q ∈ st.funcs ++ setA st.metas f
            (FuncInfo.mk (if needs_alpha f then some [alpha] else none) [some i]) := hq
        rcases List.mem_append.mp hq2 with hq3 | hq4
        · exact hnd q (List.mem_append.mpr (Or.inl hq3)) as has
        · rw [setA_append_of_none hl] at hq4
          rcases List.mem_append.mp hq4 with hq5 | hq6
          · exact hnd q (List.mem_append.mpr (Or.inr hq5)) as has
          · rcases List.mem_singleton.mp hq6 with rfl
            have has2 : (if needs_alpha f then some [alpha] else none) = some as := has
            cases hna : needs_alpha f with
            | false =>
              rw [hna] at has2
              simp only [Bool.false_eq_true, if_false] at has2
              exact Option.noConfusion has2
            | true =>
              rw [hna] at has2
              simp only [if_true] at has2
              injection has2 with has2
              rw [← has2]
              exact List.nodup_singleton alpha
      cases hb : addFuncBase fname g (reqAlphaOf ra alpha) none { st with metas := setA st.metas f (FuncInfo.mk (if needs_alpha f then some [alpha] else none) [some i]) } with
      | error e =>
        simp only [hb, err_bind] at h
        exact Except.noConfusion h
      | ok stb =>
        simp only [hb, ok_bind, if_true, pure_eq_ok] at h
        injection h with h
        subst h
        have hndb := addFuncBase_nodup hgb hwfa hb hnda
        exact fun q hq => hndb q hq
    | some info =>
      simp only [hl] at h
      cases hu : updateExisting fname f alpha (some i) info with
      | error e =>
        simp only [hu, err_bind] at h
        exact Except.noConfusion h
      | ok pr =>
        rcases pr with ⟨info2, app⟩
        simp only [hu, ok_bind] at h
        have hwfi : WFinfo f info := (hw2 (f, info) (lookupA_mem hl)).2
        obtain ⟨hwfi2, _⟩ := updateExisting_ok hwfi htk hu
        have hndi : ∀ as, info.alphas = some as → as.Nodup :=
          fun as has => hnd (f, info) (List.mem_append.mpr (Or.inr (lookupA_mem hl))) as has
        have hndi2 := updateExisting_nodup hu hndi
        have hnda : WFnodup { st with metas := setA st.metas f info2 } := by
          intro q hq as has
          have hq2 : q ∈ st.funcs ++ setA st.metas f info2 := hq
          rcases List.mem_append.mp hq2 with hq3 | hq4
          · exact hnd q (List.mem_append.mpr (Or.inl hq3)) as has
          · rcases mem_setA_of_some hw4 hl hq4 with rfl | ⟨hqm, _⟩
            · exact hndi2 as has
            · exact hnd q (List.mem_append.mpr (Or.inr hqm)) as has
        cases happ : app with
        | false =>
          rw [happ] at h
          simp only [Bool.false_eq_true, if_false, pure_eq_ok] at h
          injection h with h
          subst h
          exact hnda
        | true =>
          rw [happ] at h
          simp only [eq_self_iff_true, if_true] at h
          unfold addDeps at h
          rw [hreq] at h
          simp only [List.foldlM_cons, List.foldlM_nil] at h
          have hwfa : WFSt { st with metas := setA st.metas f info2 } := by
            refine ⟨hw1, ?_, hw3, ?_⟩
            · intro q hq
              rcases mem_setA_of_some hw4 hl hq with rfl | ⟨hqm, _⟩
              · exact ⟨hm, hwfi2⟩
              · exact hw2 q hqm
            · show ((setA st.metas f info2).map Prod.fst).Nodup
              rw [setA_keys_of_some hl]
              exact hw4
          cases hb : addFuncBase fname g (reqAlphaOf ra alpha) none
              { st with metas := setA st.metas f info2 } with
          | error e =>
            simp only [hb, err_bind] at h
            exact Except.noConfusion h
          | ok stb =>
            simp only [hb, ok_bind, Bool.false_eq_true, if_false,
              pure_eq_ok] at h
            injection h with h
            subst h
            exact addFuncBase_nodup hgb hwfa hb hnda

/-- On a well-formed state, a failing `add_func` call fails with one of the
two duplicate errors. -/
theorem addFunc_err {fname : String} {f : Func} {alpha : Option ℚ} {i : Nat}
    {st : St} {e : Err} (hwa : WFAll st)
    (htk : needs_alpha f = false → alpha = none)
    (h : addFunc fname f alpha (some i) st = .error e) : isDupErr e = true := by
  obtain ⟨⟨hw1, hw2, hw3, hw4⟩, hmd, hlink⟩ := hwa
  unfold addFunc at h
  cases hm : is_meta f with
  | false =>
    simp only [hm, Bool.false_eq_true, if_false, Bool.and_false] at h
    cases hl : lookupA st.funcs f with
    | none =>
      simp only [hl, pure_eq_ok] at h
      exact Except.noConfusion h
    | some info =>
      simp only [hl] at h
      cases hu : updateExisting fname f alpha (some i) info with
      | error e2 =>
        simp only [hu, err_bind] at h
        injection h with h
        rw [← h]
        exact updateExisting_err (hw1 (f, info) (lookupA_mem hl)).2 hu
      | ok pr =>
        rcases pr with ⟨info2, app⟩
        simp only [hu, ok_bind, Bool.and_false, Bool.false_eq_true, if_false,
          pure_eq_ok] at h
        exact Except.noConfusion h
  | true =>
    obtain ⟨g, ra, tr, hreq, hgb, hgtok⟩ := meta_req f hm
    simp only [hm, if_true, Bool.and_true] at h
    cases hl : lookupA st.metas f with
    | none =>
      simp only [hl] at h
      unfold addDeps at h
      rw [hreq] at h
      simp only [List.foldlM_cons, List.foldlM_nil] at h
      have hwfa : WFSt { st with metas := setA st.metas f (FuncInfo.mk (if needs_alpha f then some [alpha] else none) [some i]) } := by
        refine ⟨hw1, ?_, hw3, ?_⟩
        · intro q hq
          simp only [setA_append_of_none hl] at hq
          rcases List.mem_append.mp hq with h1 | h2
          · exact hw2 q h1
          · rcases List.mem_singleton.mp h2 with rfl
            exact ⟨hm, WFinfo_fresh f alpha (some i)⟩
        · show ((setA st.metas f _).map Prod.fst).Nodup
          rw [setA_append_of_none hl]
          exact nodup_append_fresh hw4 hl _
      cases hb : addFuncBase fname g (reqAlphaOf ra alpha) none { st with metas := setA st.metas f (FuncInfo.mk (if needs_alpha f then some [alpha] else none) [some i]) } with
      | error e2 => exact (addFuncBase_no_err hgb hwfa hb).elim
      | ok stb =>
        simp only [hb, ok_bind, if_true, pure_eq_ok] at h
        exact Except.noConfusion h
    | some info =>
      simp only [hl] at h
      cases hu : updateExisting fname f alpha (some i) info with
      | error e2 =>
        simp only [hu, err_bind] at h
        injection h with h
        rw [← h]
        exact updateExisting_err (hw2 (f, info) (lookupA_mem hl)).2 hu
      | ok pr =>
        rcases pr with ⟨info2, app⟩
        simp only [hu, ok_bind] at h
        have hwfi : WFinfo f info := (hw2 (f, info) (lookupA_mem hl)).2
        obtain ⟨hwfi2, _⟩ := updateExisting_ok hwfi htk hu
        cases happ : app with
        | false =>
          rw [happ] at h
          simp only [Bool.false_eq_true, if_false, pure_eq_ok] at h
          exact Except.noConfusion h
        | true =>
          rw [happ] at h
          simp only [eq_self_iff_true, if_true] at h
          unfold addDeps at h
          rw [hreq] at h
          simp only [List.foldlM_cons, List.foldlM_nil] at h
          have hwfa : WFSt { st with metas := setA st.metas f info2 } := by
            refine ⟨hw1, ?_, hw3, ?_⟩
            · intro q hq
              rcases mem_setA_of_some hw4 hl hq with rfl | ⟨hqm, _⟩
              · exact ⟨hm, hwfi2⟩
              · exact hw2 q hqm
            · show ((setA st.metas f info2).map Prod.fst).Nodup
              rw [setA_keys_of_some hl]
              exact hw4
          cases hb : addFuncBase fname g (reqAlphaOf ra alpha) none
              { st with metas := setA st.metas f info2 } with
          | error e2 => exact (addFuncBase_no_err hgb hwfa hb).elim
          | ok stb =>
            simp only [hb, ok_bind, Bool.false_eq_true, if_false,
              pure_eq_ok] at h
            exact Except.noConfusion h

/-- The spec loop keeps alpha lists duplicate-free. -/
theorem addTokens_nodup :
    ∀ (ts : List (String × Func × Option ℚ)) (i : Nat) (st st2 : St),
      addTokens ts i st = .ok st2 → WFAll st → WFnodup st →
      (∀ t ∈ ts, tokOK t) → WFnodup st2 := by
  intro ts
  induction ts with
  | nil =>
    intro i st st2 h _ hnd _
    simp only [addTokens, pure_eq_ok] at h
    injection h with h
    rw [← h]
    exact hnd
  | cons t rest ih =>
    intro i st st2 h hwa hnd htk
    rcases t with ⟨fname, f, alpha⟩
    simp only [addTokens] at h
    cases ha : addFunc fname f alpha (some i) st with
    | error e =>
      simp only [ha, err_bind] at h
      exact Except.noConfusion h
    | ok stm =>
      simp only [ha, ok_bind] at h
      obtain ⟨hwa2, _⟩ := addFunc_inv hwa (htk (fname, f, alpha) (by simp)) ha
      have hnd2 := addFunc_nodup hwa (htk (fname, f, alpha) (by simp)) ha hnd
      exact ih (i + 1) stm st2 h hwa2 hnd2 (fun q hq => htk q (by simp [hq]))

/-- A failing spec loop fails with a duplicate error. -/
theorem addTokens_err :
    ∀ (ts : List (String × Func × Option ℚ)) (i : Nat) (st : St) (e : Err),
      addTokens ts i st = .error e → WFAll st → (∀ t ∈ ts, tokOK t) →
      isDupErr e = true := by
  intro ts
  induction ts with
  | nil =>
    intro i st e h _ _
    simp only [addTokens, pure_eq_ok] at h
    exact Except.noConfusion h
  | cons t rest ih =>
    intro i st e h hwa htk
    rcases t with ⟨fname, f, alpha⟩
    simp only [addTokens] at h
    cases ha : addFunc fname f alpha (some i) st with
    | error e2 =>
      simp only [ha, err_bind] at h
      injection h with h
      rw [← h]
      exact addFunc_err hwa (htk (fname, f, alpha) (by simp)) ha
    | ok stm =>
      simp only [ha, ok_bind] at h
      obtain ⟨hwa2, _⟩ := addFunc_inv hwa (htk (fname, f, alpha) (by simp)) ha
      exact ih (i + 1) stm e h hwa2 (fun q hq => htk q (by simp [hq]))

theorem mapM_ok_get {α β : Type} (g : α → Except Err β) :
    ∀ (l : List α) (r : List β), l.mapM g = .ok r →
      ∀ (j : Nat) (hj : j < l.length) (hr : j < r.length),
        g (l.get ⟨j, hj⟩) = .ok (r.get ⟨j, hr⟩) := by
  intro l
  induction l with
  | nil =>
    intro r h j hj hr
    simp at hj
  | cons x t ih =>
    intro r h j hj hr
    rw [List.mapM_cons] at h
    cases hx : g x with
    | error e =>
      rw [hx] at h
      simp only [err_bind] at h
      exact Except.noConfusion h
    | ok b =>
      rw [hx] at h
      simp only [ok_bind] at h
      cases ht : (t.mapM g : Except Err (List β)) with
      | error e =>
        rw [ht] at h
        simp only [err_bind] at h
        exact Except.noConfusion h
      | ok bs =>
        rw [ht] at h
        simp only [ok_bind, pure_eq_ok] at h
        injection h with h
        subst h
        cases j with
        | zero => exact hx
        | succ jj =>
          exact ih bs ht jj (by simpa using hj) (by simpa using hr)

theorem mapM_resolvable_ok {α β : Type} (g : α → Except Err β) :
    ∀ (l : List α), (∀ s ∈ l, ∃ t, g s = .ok t) → ∃ r, l.mapM g = .ok r := by
  intro l
  induction l with
  | nil =>
    intro _
    exact ⟨[], rfl⟩
  | cons x t ih =>
    intro hres
    obtain ⟨b, hb⟩ := hres x (by simp)
    obtain ⟨bs, hbs⟩ := ih (fun s hs => hres s (by simp [hs]))
    refine ⟨b :: bs, ?_⟩
    rw [List.mapM_cons, hb]
    simp only [ok_bind]
    rw [hbs]
    simp only [ok_bind, pure_eq_ok]

/-- When every token resolves, the interleaved loop of `_parse_specs` is
token resolution followed by the resolved-token loop, errors included. -/
theorem addSpecs_resolvable_eq :
    ∀ (specs : List String) (i : Nat) (st : St),
      (∀ s ∈ specs, ∃ t, resolveToken s = .ok t) →
      addSpecs specs i st
        = (specs.mapM resolveToken) >>= fun ts => addTokens ts i st := by
  intro specs
  induction specs with
  | nil =>
    intro i st _
    rfl
  | cons s rest ih =>
    intro i st hres
    obtain ⟨t, ht⟩ := hres s (by simp)
    rcases t with ⟨fname, f, alpha⟩
    obtain ⟨ts2, hts2⟩ :=
      mapM_resolvable_ok resolveToken rest (fun x hx => hres x (by simp [hx]))
    simp only [addSpecs, ht, ok_bind, List.mapM_cons, hts2, pure_eq_ok]
    simp only [addTokens]
    cases ha : addFunc fname f alpha (some i) st with
    | error e =>
      simp only [ha, err_bind]
    | ok stm =>
      simp only [ha, ok_bind]
      rw [ih (i + 1) stm (fun x hx => hres x (by simp [hx])), hts2]
      simp only [ok_bind]

/-- When the resolved-token loop is doomed, `_parse_specs` on resolvable
tokens fails with a duplicate error. -/
theorem parse_specs_dup {specs : List String}
    {ts : List (String × Func × Option ℚ)}
    (hres : ∀ s ∈ specs, ∃ t, resolveToken s = .ok t)
    (hm : specs.mapM resolveToken = .ok ts)
    (hfail : ∀ st, addTokens ts 0 ⟨[], [], []⟩ = .ok st → False) :
    ∃ e, _parse_specs specs = .error e ∧ isDupErr e = true := by
  have heq := addSpecs_resolvable_eq specs 0 ⟨[], [], []⟩ hres
  rw [hm] at heq
  simp only [ok_bind] at heq
  cases hat : addTokens ts 0 ⟨[], [], []⟩ with
  | ok st => exact (hfail st hat).elim
  | error e =>
    have htk : ∀ t ∈ ts, tokOK t := by
      intro t htm
      obtain ⟨s, _, hs⟩ := mapM_ok_mem resolveToken specs ts hm t htm
      exact resolveToken_tokOK hs
    refine ⟨e, ?_, addTokens_err ts 0 ⟨[], [], []⟩ e hat WFAll_empty htk⟩
    unfold _parse_specs
    rw [heq, hat]
    simp only [err_bind]

/-- The resolved-token loop cannot succeed on a token list that requests
the same function twice with the same alpha: the final count invariant
would give the pair two distinct visible slots, but a pair owns at most
one. -/
theorem addTokens_dup_fail {ts : List (String × Func × Option ℚ)}
    {j1 j2 : Nat} (hj1 : j1 < ts.length) (hj2 : j2 < ts.length)
    {n1 n2 : String} {f : Func} {x : Option ℚ}
    (ht1 : ts.get ⟨j1, hj1⟩ = (n1, f, x))
    (ht2 : ts.get ⟨j2, hj2⟩ = (n2, f, x))
    (hne : j1 ≠ j2) (htk : ∀ t ∈ ts, tokOK t) :
    ∀ st, addTokens ts 0 ⟨[], [], []⟩ = .ok st → False := by
  intro st hat
  obtain ⟨hwa, hcnt⟩ := addTokens_inv ts 0 ⟨[], [], []⟩ st hat WFAll_empty htk
  have hnd := addTokens_nodup ts 0 ⟨[], [], []⟩ st hat WFAll_empty WFnodup_empty htk
  have h0 : stSome ⟨[], [], []⟩ = [] := rfl
  have h5 := tokenTriples_cnt_at ts 0 j1 hj1 f x
  rw [Nat.zero_add] at h5
  have h6 := tokenTriples_cnt_at ts 0 j2 hj2 f x
  rw [Nat.zero_add] at h6
  have hc1 : cnt ((f, x, j1) : Func × Option ℚ × Nat) (stSome st) = 1 := by
    rw [hcnt (f, x, j1), h5, ht1, h0]
    simp
  have hc2 : cnt ((f, x, j2) : Func × Option ℚ × Nat) (stSome st) = 1 := by
    rw [hcnt (f, x, j2), h6, ht2, h0]
    simp
  have hm1 : ((f, x, j1) : Func × Option ℚ × Nat) ∈ stSome st :=
    cnt_pos_iff_mem.mp (by omega)
  have hm2 : ((f, x, j2) : Func × Option ℚ × Nat) ∈ stSome st :=
    cnt_pos_iff_mem.mp (by omega)
  exact hne (stSome_unique hwa.1 hnd hm1 hm2)

/-- A spec list holding two requests for the same function with the same
alpha (or none) never parses; when all its tokens resolve, the failure is
one of the two duplicate errors of `add_func`. -/
theorem parse_specs_pair_fail {specs : List String} {j1 j2 : Nat}
    (hj1 : j1 < specs.length) (hj2 : j2 < specs.length)
    {n1 n2 : String} {f : Func} {x : Option ℚ}
    (hr1 : resolveToken (specs.get ⟨j1, hj1⟩) = .ok (n1, f, x))
    (hr2 : resolveToken (specs.get ⟨j2, hj2⟩) = .ok (n2, f, x))
    (hne : j1 ≠ j2) :
    (∃ e, _parse_specs specs = .error e) ∧
    ((∀ s ∈ specs, ∃ t, resolveToken s = .ok t) →
      ∃ e, _parse_specs specs = .error e ∧ isDupErr e = true) := by
  constructor
  · cases hp : _parse_specs specs with
    | error e => exact ⟨e, rfl⟩
    | ok p =>
      exfalso
      obtain ⟨ts, hm, hlen, htk, hpt⟩ := parse_specs_tokens hp
      have hlj1 : j1 < ts.length := by rw [hlen]; exact hj1
      have hlj2 : j2 < ts.length := by rw [hlen]; exact hj2
      have hg1 := mapM_ok_get resolveToken specs ts hm j1 hj1 hlj1
      rw [hr1] at hg1
      injection hg1 with hg1
      have hg2 := mapM_ok_get resolveToken specs ts hm j2 hj2 hlj2
      rw [hr2] at hg2
      injection hg2 with hg2
      unfold parse_tokens at hpt
      cases hat : addTokens ts 0 ⟨[], [], []⟩ with
      | error e =>
        rw [hat] at hpt
        simp only [err_bind] at hpt
        exact Except.noConfusion hpt
      | ok st =>
        exact addTokens_dup_fail hlj1 hlj2 hg1.symm hg2.symm hne htk st hat
  · intro hres
    obtain ⟨ts, hm⟩ := mapM_resolvable_ok resolveToken specs hres
    have hlen := mapM_ok_length resolveToken specs ts hm
    have hlj1 : j1 < ts.length := by rw [hlen]; exact hj1
    have hlj2 : j2 < ts.length := by rw [hlen]; exact hj2
    have hg1 := mapM_ok_get resolveToken specs ts hm j1 hj1 hlj1
    rw [hr1] at hg1
    injection hg1 with hg1
    have hg2 := mapM_ok_get resolveToken specs ts hm j2 hj2 hlj2
    rw [hr2] at hg2
    injection hg2 with hg2
    have htk : ∀ t ∈ ts, tokOK t := by
      intro t htm
      obtain ⟨s, _, hs⟩ := mapM_ok_mem resolveToken specs ts hm t htm
      exact resolveToken_tokOK hs
    exact parse_specs_dup hres hm
      (addTokens_dup_fail hlj1 hlj2 hg1.symm hg2.symm hne htk)

/-- **C3.** Over every spec list: if tokens `j1` and `j2` (`j1 ≠ j2`)
request the same parameterized function with two distinct alphas and
`_parse_specs` succeeds, the plan records exactly one visible slot triple
`(f, alpha1, j1)` and exactly one `(f, alpha2, j2)` — the two occurrences
get the two distinct slots `j1` and `j2`, in spec-token order.  If instead
the two tokens repeat the same alpha, or request the same non-parameterized
function twice, `_parse_specs` never succeeds, and when all tokens of the
list resolve it raises one of the two fatal duplicate-spec errors of
`add_func` (`duplicate function` / `duplicate spec`). -/
theorem C3_alpha_slots :
    (∀ (specs : List String) (p : Plan) (j1 j2 : Nat) (hj1 : j1 < specs.length)
        (hj2 : j2 < specs.length) (n1 n2 : String) (f : Func) (a b : ℚ),
      _parse_specs specs = .ok p →
      resolveToken (specs.get ⟨j1, hj1⟩) = .ok (n1, f, some a) →
      resolveToken (specs.get ⟨j2, hj2⟩) = .ok (n2, f, some b) →
      a ≠ b → j1 ≠ j2 →
      cnt (f, some a, ((j1 : Nat) : Int)) (planTriples p) = 1 ∧
      cnt (f, some b, ((j2 : Nat) : Int)) (planTriples p) = 1 ∧
      ((j1 : Nat) : Int) ≠ ((j2 : Nat) : Int)) ∧
    (∀ (specs : List String) (j1 j2 : Nat) (hj1 : j1 < specs.length)
        (hj2 : j2 < specs.length) (n1 n2 : String) (f : Func) (a : ℚ),
      resolveToken (specs.get ⟨j1, hj1⟩) = .ok (n1, f, some a) →
      resolveToken (specs.get ⟨j2, hj2⟩) = .ok (n2, f, some a) →
      j1 ≠ j2 →
      (∃ e, _parse_specs specs = .error e) ∧
      ((∀ s ∈ specs, ∃ t, resolveToken s = .ok t) →
        ∃ e, _parse_specs specs = .error e ∧ isDupErr e = true)) ∧
    (∀ (specs : List String) (j1 j2 : Nat) (hj1 : j1 < specs.length)
        (hj2 : j2 < specs.length) (n1 n2 : String) (f : Func),
      resolveToken (specs.get ⟨j1, hj1⟩) = .ok (n1, f, none) →
      resolveToken (specs.get ⟨j2, hj2⟩) = .ok (n2, f, none) →
      j1 ≠ j2 →
      (∃ e, _parse_specs specs = .error e) ∧
      ((∀ s ∈ specs, ∃ t, resolveToken s = .ok t) →
        ∃ e, _parse_specs specs = .error e ∧ isDupErr e = true)) := by
  refine ⟨?_, ?_, ?_⟩
  · intro specs p j1 j2 hj1 hj2 n1 n2 f a b hp hr1 hr2 hab hne
    obtain ⟨ts, hm, hlen, htk, hpt⟩ := parse_specs_tokens hp
    have hlj1 : j1 < ts.length := by rw [hlen]; exact hj1
    have hlj2 : j2 < ts.length := by rw [hlen]; exact hj2
    have hg1 := mapM_ok_get resolveToken specs ts hm j1 hj1 hlj1
    rw [hr1] at hg1
    injection hg1 with hg1
    have hg2 := mapM_ok_get resolveToken specs ts hm j2 hj2 hlj2
    rw [hr2] at hg2
    injection hg2 with hg2
    obtain ⟨hpos, _⟩ := parse_tokens_triples htk hpt
    refine ⟨?_, ?_, by omega⟩
    · rw [hpos f (some a) j1]
      have h5 := tokenTriples_cnt_at ts 0 j1 hlj1 f (some a)
      rw [Nat.zero_add] at h5
      rw [h5, ← hg1]
      simp
    · rw [hpos f (some b) j2]
      have h5 := tokenTriples_cnt_at ts 0 j2 hlj2 f (some b)
      rw [Nat.zero_add] at h5
      rw [h5, ← hg2]
      simp
  · intro specs j1 j2 hj1 hj2 n1 n2 f a hr1 hr2 hne
    exact parse_specs_pair_fail hj1 hj2 hr1 hr2 hne
  · intro specs j1 j2 hj1 hj2 n1 n2 f hr1 hr2 hne
    exact parse_specs_pair_fail hj1 hj2 hr1 hr2 hne

/-- **C3 (witness).** In `['kl', 'renyi:.8', 'renyi:.9']` the two `renyi`
requests (tokens 1 and 2) get slots 1 and 2; `['kl', 'renyi:.8',
'renyi:.8']` and `['renyi:.8', 'kl', 'kl']` fail with duplicate errors. -/
theorem C3_witness :
    (∃ p, _parse_specs ["kl", "renyi:.8", "renyi:.9"] = .ok p ∧
      cnt (Func.renyi, some ((4 : ℚ)/5), ((1 : Nat) : Int)) (planTriples p) = 1 ∧
      cnt (Func.renyi, some ((9 : ℚ)/10), ((2 : Nat) : Int)) (planTriples p) = 1) ∧
    (∃ e, _parse_specs ["kl", "renyi:.8", "renyi:.8"] = .error e ∧
      isDupErr e = true) ∧
    (∃ e, _parse_specs ["renyi:.8", "kl", "kl"] = .error e ∧
      isDupErr e = true) := by
  refine ⟨?_, ?_, ?_⟩
  · refine ⟨Plan.mk
      [(Func.kl, FuncInfoZ.mk none [0]),
       (Func.alpha_div, FuncInfoZ.mk (some [some ((4 : ℚ)/5), some ((9 : ℚ)/10)]) [-1, -2])]
      [(Func.renyi, MetaInfoZ.mk (some [some ((4 : ℚ)/5), some ((9 : ℚ)/10)]) [1, 2] [-1, -2])]
      2, by with_unfolding_all decide, ?_⟩
    have h := C3_alpha_slots.1 ["kl", "renyi:.8", "renyi:.9"]
      (Plan.mk
        [(Func.kl, FuncInfoZ.mk none [0]),
         (Func.alpha_div, FuncInfoZ.mk (some [some ((4 : ℚ)/5), some ((9 : ℚ)/10)]) [-1, -2])]
        [(Func.renyi, MetaInfoZ.mk (some [some ((4 : ℚ)/5), some ((9 : ℚ)/10)]) [1, 2] [-1, -2])]
        2)
      1 2 (by decide) (by decide) "renyi" "renyi" Func.renyi ((4 : ℚ)/5) ((9 : ℚ)/10)
      (by with_unfolding_all decide) (by with_unfolding_all decide)
      (by with_unfolding_all decide) (by with_unfolding_all decide) (by decide)
    exact ⟨h.1, h.2.1⟩
  · have hres : ∀ s ∈ ["kl", "renyi:.8", "renyi:.8"], ∃ t, resolveToken s = .ok t := by
      intro s hs
      simp only [List.mem_cons, List.not_mem_nil, or_false] at hs
      rcases hs with rfl | rfl | rfl
      · exact ⟨("kl", Func.kl, none), by decide⟩
      · exact ⟨("renyi", Func.renyi, some ((4 : ℚ)/5)), by with_unfolding_all decide⟩
      · exact ⟨("renyi", Func.renyi, some ((4 : ℚ)/5)), by with_unfolding_all decide⟩
    exact (C3_alpha_slots.2.1 ["kl", "renyi:.8", "renyi:.8"] 1 2
      (by decide) (by decide) "renyi" "renyi" Func.renyi ((4 : ℚ)/5)
      (by with_unfolding_all decide) (by with_unfolding_all decide)
      (by decide)).2 hres
  · have hres : ∀ s ∈ ["renyi:.8", "kl", "kl"], ∃ t, resolveToken s = .ok t := by
      intro s hs
      simp only [List.mem_cons, List.not_mem_nil, or_false] at hs
      rcases hs with rfl | rfl | rfl
      · exact ⟨("renyi", Func.renyi, some ((4 : ℚ)/5)), by with_unfolding_all decide⟩
      · exact ⟨("kl", Func.kl, none), by decide⟩
      · exact ⟨("kl", Func.kl, none), by decide⟩
    exact (C3_alpha_slots.2.2 ["renyi:.8", "kl", "kl"] 1 2
      (by decide) (by decide) "kl" "kl" Func.kl
      (by decide) (by decide) (by decide)).2 hres

end SklGroups
